import Mathlib

/-!
Shallow embedding of the streaming CSV reader (reader.ts) of the deno-csv
repository: the CSVReader parse cycle, its scan helpers, its option
resolution, and the row-collecting view adapter.  Machine bytes are modelled
as natural numbers, byte arrays as lists, and the asynchronous byte source as
the list of chunks it will deliver.  The parse loop is modelled as a step
function on an explicit state record; a run of the parser is the inductive
iteration of that step function, and a fueled evaluator makes concrete runs
computable.
-/

namespace DenoCSV

/-- Byte strings are lists of natural numbers (each a byte value). -/
abbrev Bytes := List Nat

/-- The UTF-8 byte order mark, skipped at the very start of the stream. -/
def utfBom : Bytes := [0xef, 0xbb, 0xbf]

/-- Inner while loop of the scan helpers of reader.ts: starting from
matched = 1 and j = i, advance j while the next byte of the haystack equals
the corresponding byte of the pattern (an out-of-bounds read is undefined in
JS and never equals a byte), and return the final matched count. -/
def jsMatchRestF (a pat : Bytes) (i : Nat) : Nat → Nat → Nat → Nat
  | 0, matched, _ => matched
  | f + 1, matched, j =>
    if matched < pat.length then
      if a.get? (j + 1) = pat.get? (j + 1 - i) then
        jsMatchRestF a pat i f (matched + 1) (j + 1)
      else
        matched
    else
      matched

/-- The inner while loop entered with the fuel its measure needs. -/
def jsMatchRest (a pat : Bytes) (i : Nat) (matched j : Nat) : Nat :=
  jsMatchRestF a pat i (pat.length - matched) matched j

/-- Whether the pattern fully matches the haystack at position i, exactly as
the scan helpers of reader.ts test it: first byte compared directly, the rest
by the inner while loop. -/
def jsPatMatchAt (a pat : Bytes) (i : Nat) : Bool :=
  a.get? i = pat.get? 0 && jsMatchRest a pat i 1 i = pat.length

/-- findReadTillLineSeparatorIndex of reader.ts: index of the first full
match of the line separator, or none. -/
def findReadTillLineSeparatorIndexGoF (a lineSeparator : Bytes) :
    Nat → Nat → Option Nat
  | 0, _ => none
  | f + 1, i =>
    if i < a.length then
      if jsPatMatchAt a lineSeparator i then some i
      else findReadTillLineSeparatorIndexGoF a lineSeparator f (i + 1)
    else
      none

/-- The scan loop entered with the fuel its measure needs. -/
def findReadTillLineSeparatorIndexGo (a lineSeparator : Bytes) (i : Nat) :
    Option Nat :=
  findReadTillLineSeparatorIndexGoF a lineSeparator (a.length - i) i

/-- Entry point of findReadTillLineSeparatorIndex (loop started at 0). -/
def findReadTillLineSeparatorIndex (a lineSeparator : Bytes) : Option Nat :=
  findReadTillLineSeparatorIndexGo a lineSeparator 0

/-- Result discriminator of findReadTillIndex of reader.ts. -/
inductive FindReadTillIndexType
  | LIMIT
  | LINE_SEPARATOR
  | COLUMN_SEPARATOR
  | QUOTE
deriving DecidableEq, Repr

/-- Loop of findReadTillIndex of reader.ts: first position below the limit
where the line separator, column separator or quote fully matches, with the
kind of the match; the limit (with kind LIMIT) if none is found. -/
def findReadTillIndexGoF (a : Bytes) (limit : Nat)
    (lineSeparator columnSeparator quote : Bytes) :
    Nat → Nat → Nat × FindReadTillIndexType
  | 0, _ => (limit, .LIMIT)
  | f + 1, i =>
    if i < a.length then
      if i ≥ limit then (limit, .LIMIT)
      else if jsPatMatchAt a lineSeparator i then (i, .LINE_SEPARATOR)
      else if jsPatMatchAt a columnSeparator i then (i, .COLUMN_SEPARATOR)
      else if jsPatMatchAt a quote i then (i, .QUOTE)
      else findReadTillIndexGoF a limit lineSeparator columnSeparator quote f (i + 1)
    else
      (limit, .LIMIT)

/-- The scan loop entered with the fuel its measure needs. -/
def findReadTillIndexGo (a : Bytes) (limit : Nat)
    (lineSeparator columnSeparator quote : Bytes) (i : Nat) :
    Nat × FindReadTillIndexType :=
  findReadTillIndexGoF a limit lineSeparator columnSeparator quote (a.length - i) i

/-- findReadTillIndex of reader.ts (loop started at 0). -/
def findReadTillIndex (a : Bytes) (limit : Nat)
    (lineSeparator columnSeparator quote : Bytes) :
    Nat × FindReadTillIndexType :=
  findReadTillIndexGo a limit lineSeparator columnSeparator quote 0

/-- Result of findReadTillIndexQuoted of reader.ts. -/
structure FindQuotedResult where
  till : Nat
  lineSeparatorsFound : Nat
  lastLineSeparatorEndIndex : Int
deriving DecidableEq, Repr

/-- Loop of findReadTillIndexQuoted of reader.ts: scan up to the limit for a
full quote match, counting full line separator matches on the way (jumping
over their bytes) and remembering the end index of the last one. -/
def findReadTillIndexQuotedGoF (a : Bytes) (limit : Nat)
    (quote lineSeparator : Bytes) :
    Nat → Nat → Nat → Int → FindQuotedResult
  | 0, _, lsFound, lastEnd => ⟨limit, lsFound, lastEnd⟩
  | f + 1, i, lsFound, lastEnd =>
    if i < a.length then
      if i ≥ limit then ⟨limit, lsFound, lastEnd⟩
      else if jsPatMatchAt a quote i then ⟨i, lsFound, lastEnd⟩
      else if jsPatMatchAt a lineSeparator i then
        findReadTillIndexQuotedGoF a limit quote lineSeparator f
          (i + lineSeparator.length) (lsFound + 1)
          ((i : Int) + lineSeparator.length)
      else
        findReadTillIndexQuotedGoF a limit quote lineSeparator f (i + 1) lsFound
          lastEnd
    else
      ⟨limit, lsFound, lastEnd⟩

/-- The scan loop entered with the fuel its measure needs. -/
def findReadTillIndexQuotedGo (a : Bytes) (limit : Nat)
    (quote lineSeparator : Bytes) (i : Nat) (lsFound : Nat) (lastEnd : Int) :
    FindQuotedResult :=
  findReadTillIndexQuotedGoF a limit quote lineSeparator (a.length - i) i lsFound lastEnd

/-- findReadTillIndexQuoted of reader.ts (loop started at 0, counters at 0
and -1). -/
def findReadTillIndexQuoted (a : Bytes) (limit : Nat)
    (quote lineSeparator : Bytes) : FindQuotedResult :=
  findReadTillIndexQuotedGo a limit quote lineSeparator 0 0 (-1)

/-- hasPrefixFrom of utils.ts: whether the pattern is a prefix of the array
starting at the given offset. -/
def hasPrefixFrom (a pre : Bytes) (offset : Nat) : Bool :=
  pre.isPrefixOf (if 0 < offset then a.drop offset else a)

/-- The stats record threaded through a reader: reads, input buffer shrinks
and column buffer expands. -/
structure Stats where
  reads : Nat
  inputBufferShrinks : Nat
  columnBufferExpands : Nat
deriving DecidableEq, Repr

/-- The all-zero stats record, the initial value of the module-level
defaultCSVReaderOptions stats record of reader.ts. -/
def statsZero : Stats := ⟨0, 0, 0⟩

/-- Componentwise order on stats records. -/
def statsLe (a b : Stats) : Prop :=
  a.reads ≤ b.reads ∧ a.inputBufferShrinks ≤ b.inputBufferShrinks ∧
    a.columnBufferExpands ≤ b.columnBufferExpands

/-- User-supplied options of the CSVReader constructor; a missing field is
resolved against defaultCSVReaderOptions (the delimiters and buffer sizes),
against 0 or Number.MAX_VALUE (the falsy-defaulted line range), or against
the shared module-level record (the stats). -/
structure CSVReaderOptions where
  columnSeparator : Option Bytes := none
  lineSeparator : Option Bytes := none
  quote : Option Bytes := none
  fromLine : Option Nat := none
  toLine : Option Nat := none
  readerIteratorBufferSize : Option Nat := none
  columnBufferMinStepSize : Option Nat := none
  inputBufferIndexLimit : Option Nat := none
  columnBufferReserve : Option Nat := none
  statsRecord : Option Stats := none
deriving DecidableEq, Repr

/-- Number.MAX_VALUE of JS, the resolved toLine of a falsy toLine option:
the largest double, (2 ^ 53 - 1) * 2 ^ 971. -/
def jsMaxValue : Nat := (2 ^ 53 - 1) * 2 ^ 971

/-- Configuration of a reader after constructor option resolution. -/
structure CSVReaderConfig where
  columnSeparator : Bytes
  lineSeparator : Bytes
  quote : Bytes
  readerIteratorBufferSize : Nat
  columnBufferMinStepSize : Nat
  inputBufferIndexLimit : Nat
  columnBufferReserveOpt : Nat
  fromLine : Nat
  toLine : Nat
deriving DecidableEq, Repr

/-- Constructor of CSVReader in reader.ts: merge the options over
defaultCSVReaderOptions; fromLine and toLine are defaulted through the JS
or-operator, so a toLine of 0 (falsy) becomes Number.MAX_VALUE. -/
def mkConfig (opts : CSVReaderOptions) : CSVReaderConfig where
  columnSeparator := opts.columnSeparator.getD [44]
  lineSeparator := opts.lineSeparator.getD [10]
  quote := opts.quote.getD [34]
  readerIteratorBufferSize := opts.readerIteratorBufferSize.getD 1024
  columnBufferMinStepSize := opts.columnBufferMinStepSize.getD 1024
  inputBufferIndexLimit := opts.inputBufferIndexLimit.getD 1024
  columnBufferReserveOpt := opts.columnBufferReserve.getD 64
  fromLine := opts.fromLine.getD 0
  toLine :=
    match opts.toLine with
    | none => jsMaxValue
    | some 0 => jsMaxValue
    | some t => t

/-- The doubled quote sequence derived in the constructor. -/
def CSVReaderConfig.doubleQuote (cfg : CSVReaderConfig) : Bytes :=
  cfg.quote ++ cfg.quote

/-- minPossibleBufferReserve of the constructor: the largest of the column
separator, line separator and doubled quote lengths, and 1. -/
def CSVReaderConfig.minPossibleBufferReserve (cfg : CSVReaderConfig) : Nat :=
  max cfg.columnSeparator.length
    (max cfg.lineSeparator.length (max cfg.doubleQuote.length 1))

/-- columnBufferStepSize of the constructor. -/
def CSVReaderConfig.columnBufferStepSize (cfg : CSVReaderConfig) : Nat :=
  max cfg.columnBufferMinStepSize cfg.minPossibleBufferReserve

/-- columnBufferReserve of the constructor. -/
def CSVReaderConfig.columnBufferReserve (cfg : CSVReaderConfig) : Nat :=
  max cfg.columnBufferReserveOpt cfg.minPossibleBufferReserve

/-- Errors raised by the parse cycle, with the line and character numbers of
the getCurrentPos report attached (the character count is an integer exactly
as the JS subtraction computes it). -/
inductive CSVError
  | unexpectedAfterQuote (charCode : Nat) (line : Nat) (character : Int)
  | unexpectedQuoteInUnquoted (line : Nat) (character : Int)
  | unterminatedQuote (line : Nat) (character : Int)
  | unexpected (line : Nat) (character : Int)
deriving DecidableEq, Repr

/-- The reported line number of an error. -/
def errLine : CSVError → Nat
  | .unexpectedAfterQuote _ l _ => l
  | .unexpectedQuoteInUnquoted l _ => l
  | .unterminatedQuote l _ => l
  | .unexpected l _ => l

/-- The reported character number of an error. -/
def errChar : CSVError → Int
  | .unexpectedAfterQuote _ _ c => c
  | .unexpectedQuoteInUnquoted _ c => c
  | .unterminatedQuote _ c => c
  | .unexpected _ c => c

/-- Observable emissions of the parse cycle: onCell (with the raw bytes of
the cell, decoding being the identity at byte level), onRowEnd, onEnd, and
onError. -/
inductive CSVEvent
  | cell (bytes : Bytes)
  | rowEnd
  | endOfStream
  | fail (e : CSVError)
deriving DecidableEq, Repr

/-- State of a CSVReader between loop iterations.  chunks is the suffix of
the byte source not yet delivered; columnData is the written prefix of the
column buffer (columnBufferIndex is its length) and columnBufferLen the
buffer capacity.  The cached inputBufferUnprocessed field of the class is
always inputBuffer.length - inputBufferIndex and is kept derived. -/
structure CSVReaderState where
  chunks : List Bytes
  inputBuffer : Bytes
  inputBufferIndex : Nat
  columnData : Bytes
  columnBufferLen : Nat
  readerEmpty : Bool
  emptyLine : Bool
  inQuote : Bool
  inColumn : Bool
  currentPos : Nat
  linesProcessed : Nat
  lastLineStartPos : Nat
  stats : Stats
deriving DecidableEq, Repr

/-- The cached inputBufferUnprocessed value. -/
def unprocessed (s : CSVReaderState) : Nat :=
  s.inputBuffer.length - s.inputBufferIndex

/-- hasNext of the parse cycle. -/
def hasNextState (s : CSVReaderState) (pat : Bytes) : Bool :=
  hasPrefixFrom s.inputBuffer pat s.inputBufferIndex

/-- skip of the parse cycle: advance the read index and the absolute
position by the given number of bytes. -/
def skipN (s : CSVReaderState) (n : Nat) : CSVReaderState :=
  { s with
    inputBufferIndex := s.inputBufferIndex + n
    currentPos := s.currentPos + n }

/-- readChars of the parse cycle: copy n bytes from the input buffer to the
column buffer, advancing the read index and the absolute position. -/
def readCharsN (s : CSVReaderState) (n : Nat) : CSVReaderState :=
  { s with
    columnData := s.columnData ++ (s.inputBuffer.drop s.inputBufferIndex).take n
    inputBufferIndex := s.inputBufferIndex + n
    currentPos := s.currentPos + n }

/-- Line part of getCurrentPos: lines processed plus one. -/
def curLine (s : CSVReaderState) : Nat := s.linesProcessed + 1

/-- Character part of getCurrentPos: current position minus the start
position of the current line, plus one. -/
def curChar (s : CSVReaderState) : Int :=
  (s.currentPos : Int) - (s.lastLineStartPos : Int) + 1

/-- The state of CSVReader right after construction, with a byte source that
will deliver the given chunks and the given initial value of the stats
record (the module default record or a caller-provided one). -/
def initState (cfg : CSVReaderConfig) (chunks : List Bytes) (st : Stats) :
    CSVReaderState where
  chunks := chunks
  inputBuffer := []
  inputBufferIndex := 0
  columnData := []
  columnBufferLen := cfg.columnBufferStepSize
  readerEmpty := false
  emptyLine := true
  inQuote := false
  inColumn := false
  currentPos := 0
  linesProcessed := 0
  lastLineStartPos := 0
  stats := st

/-- Outcome of one iteration of the parse cycle: either continue with a new
state, or stop (return of parseCycle after onEnd or onError), in both cases
with the events emitted during the iteration, and with the state at that
point. -/
inductive StepOut
  | next (s : CSVReaderState) (events : List CSVEvent)
  | halt (s : CSVReaderState) (events : List CSVEvent)
deriving DecidableEq, Repr

/-- Parse rules of one iteration of the while loop of CSVReader.parseCycle,
after the three buffer-management rules, in source order: skip towards
fromLine, stop at toLine, UTF BOM, EOF, line separator, column separator,
column start, doubled quote, quoted column end, unquoted column end, bulk
body read, unterminated quote, catch-all.  In the quoted bulk read the new
lastLineStartPos is computed from currentPos before readChars, exactly as in
the source; it is only stored when line separators were found, in which case
it is nonnegative, so the cast to a natural number is faithful. -/
def stepMain (cfg : CSVReaderConfig) (s : CSVReaderState) : StepOut :=
  if s.inColumn = false ∧ s.linesProcessed < cfg.fromLine then
    let slice := s.inputBuffer.drop s.inputBufferIndex
    match findReadTillLineSeparatorIndex slice cfg.lineSeparator with
    | none => .next (skipN s slice.length) []
    | some index =>
      let s1 := skipN s (index + cfg.lineSeparator.length)
      .next
        { s1 with
          linesProcessed := s1.linesProcessed + 1
          lastLineStartPos := s1.currentPos
          emptyLine := true }
        []
  else if s.inColumn = false ∧ cfg.toLine ≤ s.linesProcessed then
    .halt s [.endOfStream]
  else if s.inColumn = false ∧ s.currentPos = 0 ∧ hasNextState s utfBom = true then
    .next (skipN s utfBom.length) []
  else if s.inColumn = false ∧ unprocessed s = 0 then
    if s.emptyLine = false then
      .halt { s with columnData := [] }
        [.cell s.columnData, .rowEnd, .endOfStream]
    else
      .halt s [.endOfStream]
  else if s.inColumn = false ∧ hasNextState s cfg.lineSeparator = true then
    let emitted : List CSVEvent :=
      if s.emptyLine = false then [.cell s.columnData, .rowEnd] else []
    let s0 := if s.emptyLine = false then { s with columnData := [] } else s
    let s1 := skipN s0 cfg.lineSeparator.length
    .next
      { s1 with
        linesProcessed := s1.linesProcessed + 1
        lastLineStartPos := s1.currentPos
        emptyLine := true }
      emitted
  else if s.inColumn = false ∧ hasNextState s cfg.columnSeparator = true then
    .next (skipN { s with emptyLine := false, columnData := [] } cfg.columnSeparator.length)
      [.cell s.columnData]
  else if s.inColumn = false then
    let s1 := { s with inColumn := true, emptyLine := false }
    if hasNextState s1 cfg.quote = true then
      .next (skipN { s1 with inQuote := true } cfg.quote.length) []
    else
      .next s1 []
  else if s.inColumn = true ∧ s.inQuote = true ∧ hasNextState s cfg.doubleQuote = true then
    .next (skipN { s with columnData := s.columnData ++ cfg.quote } cfg.doubleQuote.length) []
  else if s.inColumn = true ∧ s.inQuote = true ∧ hasNextState s cfg.quote = true then
    let s1 := skipN { s with inQuote := false, inColumn := false } cfg.quote.length
    if 0 < unprocessed s1 ∧ hasNextState s1 cfg.lineSeparator = false ∧
        hasNextState s1 cfg.columnSeparator = false then
      .halt s1
        [.fail (.unexpectedAfterQuote (s1.inputBuffer.getD s1.inputBufferIndex 0)
          (curLine s1) (curChar s1))]
    else
      .next s1 []
  else if s.inColumn = true ∧ s.inQuote = false ∧
      (unprocessed s = 0 ∨ hasNextState s cfg.lineSeparator = true ∨
        hasNextState s cfg.columnSeparator = true) then
    .next { s with inColumn := false } []
  else if s.inColumn = true ∧ 0 < unprocessed s then
    let slice := s.inputBuffer.drop s.inputBufferIndex
    let limit : Int :=
      min ((slice.length : Int) - (cfg.minPossibleBufferReserve : Int))
        ((s.columnBufferLen : Int) - (s.columnData.length : Int))
    if limit ≤ 1 then
      .next (readCharsN s 1) []
    else if s.inQuote = true then
      let r := findReadTillIndexQuoted slice limit.toNat cfg.quote cfg.lineSeparator
      let newLastLineStartPos : Int := (s.currentPos : Int) + r.lastLineSeparatorEndIndex
      let s1 := if 0 < r.till then readCharsN s r.till else s
      let s2 :=
        if 0 < r.lineSeparatorsFound then
          { s1 with
            linesProcessed := s1.linesProcessed + r.lineSeparatorsFound
            lastLineStartPos := newLastLineStartPos.toNat }
        else s1
      .next s2 []
    else
      let r := findReadTillIndex slice limit.toNat cfg.lineSeparator cfg.columnSeparator cfg.quote
      if r.1 = 0 ∧ r.2 = FindReadTillIndexType.QUOTE then
        .halt s [.fail (.unexpectedQuoteInUnquoted (curLine s) (curChar s))]
      else
        .next (if 0 < r.1 then readCharsN s r.1 else s) []
  else if s.inQuote = true ∧ unprocessed s = 0 then
    .halt s [.fail (.unterminatedQuote (curLine s) (curChar s))]
  else
    .halt s [.fail (.unexpected (curLine s) (curChar s))]

/-- One iteration of the while loop of CSVReader.parseCycle, rules in source
order: refill from the byte source when the unprocessed bytes drop under the
minimum reserve, shrink the input buffer when the read index reaches the
limit, expand the column buffer when its free tail drops under the reserve,
and otherwise the parse rules of stepMain. -/
def step (cfg : CSVReaderConfig) (s : CSVReaderState) : StepOut :=
  if s.readerEmpty = false ∧ unprocessed s < cfg.minPossibleBufferReserve then
    let s0 := { s with stats := { s.stats with reads := s.stats.reads + 1 } }
    match s0.chunks with
    | [] => .next { s0 with readerEmpty := true } []
    | c :: rest => .next { s0 with inputBuffer := s0.inputBuffer ++ c, chunks := rest } []
  else if cfg.inputBufferIndexLimit ≤ s.inputBufferIndex then
    .next
      { s with
        inputBuffer := s.inputBuffer.drop s.inputBufferIndex
        inputBufferIndex := 0
        stats := { s.stats with inputBufferShrinks := s.stats.inputBufferShrinks + 1 } }
      []
  else if (s.columnBufferLen : Int) - (s.columnData.length : Int) < (cfg.columnBufferReserve : Int) then
    .next
      { s with
        columnBufferLen := s.columnBufferLen + cfg.columnBufferStepSize
        stats := { s.stats with columnBufferExpands := s.stats.columnBufferExpands + 1 } }
      []
  else
    stepMain cfg s

/-- A complete run of the parse cycle from a state: iterate the step
function until it stops, collecting the emitted events and the final
state. -/
inductive Run (cfg : CSVReaderConfig) : CSVReaderState → List CSVEvent → CSVReaderState → Prop
  | halt {s s1 evs} : step cfg s = .halt s1 evs → Run cfg s evs s1
  | next {s s1 evs1 evs2 s2} :
      step cfg s = .next s1 evs1 → Run cfg s1 evs2 s2 → Run cfg s (evs1 ++ evs2) s2

/-- A partial run: finitely many non-stopping iterations of the step
function, with the events emitted along the way. -/
inductive RunTo (cfg : CSVReaderConfig) : CSVReaderState → List CSVEvent → CSVReaderState → Prop
  | refl {s} : RunTo cfg s [] s
  | step {s s1 evs1 evs2 s2} :
      step cfg s = .next s1 evs1 → RunTo cfg s1 evs2 s2 → RunTo cfg s (evs1 ++ evs2) s2

/-- Fueled evaluator of the parse cycle, for concrete computation: returns
the events and final state of a complete run if it finishes within the given
number of iterations. -/
def runFuel (cfg : CSVReaderConfig) : Nat → CSVReaderState → Option (List CSVEvent × CSVReaderState)
  | 0, _ => none
  | n + 1, s =>
    match step cfg s with
    | .halt s1 evs => some (evs, s1)
    | .next s1 evs =>
      match runFuel cfg n s1 with
      | none => none
      | some (evs2, s2) => some (evs ++ evs2, s2)

/-- Row accumulation of the CSVRowReader adapter: cells are collected into
the current row, onRowEnd delivers the row; rows completed before the end or
an error are exactly the rows the adapter yields. -/
def collectRowsGo (row : List Bytes) : List CSVEvent → List (List Bytes)
  | [] => []
  | .cell c :: rest => collectRowsGo (row ++ [c]) rest
  | .rowEnd :: rest => row :: collectRowsGo [] rest
  | .endOfStream :: _ => []
  | .fail _ :: _ => []

/-- The rows delivered by the CSVRowReader adapter for an event stream. -/
def collectRows (evs : List CSVEvent) : List (List Bytes) :=
  collectRowsGo [] evs

/-- Chunking of a byte stream by iterateReader with the given buffer size:
consecutive blocks of that many bytes (the last one possibly shorter), and
no empty final chunk. -/
def chunksOf (n : Nat) : Bytes → List Bytes
  | [] => []
  | x :: xs => (x :: xs.take (n - 1)) :: chunksOf n (xs.drop (n - 1))
termination_by b => b.length
decreasing_by
  simp only [List.length_drop, List.length_cons]
  omega

/-- Split a byte string at every occurrence of the given byte; always
returns one more piece than there are occurrences. -/
def splitB (b : Nat) : Bytes → List Bytes
  | [] => [[]]
  | x :: xs =>
    if x = b then [] :: splitB b xs
    else
      match splitB b xs with
      | [] => [[x]]
      | r :: rs => (x :: r) :: rs

/-- Events of one emitted row with the given cells: the cells in order, then
the row end. -/
def rowEventsOf (cells : List Bytes) : List CSVEvent :=
  cells.map CSVEvent.cell ++ [CSVEvent.rowEnd]

/-- Reference event stream of the parser on quote-free input, line by line:
starting at line index i, stop with onEnd when the line index reaches
toLine; a blank line is skipped silently; any other line is emitted as the
row of its column-separated cells; after the last line the stream ends. -/
def canonicalGo (cs : Nat) (t : Nat) (i : Nat) : List Bytes → List CSVEvent
  | [] => [CSVEvent.endOfStream]
  | [last] =>
    if t ≤ i then [CSVEvent.endOfStream]
    else if last = [] then [CSVEvent.endOfStream]
    else rowEventsOf (splitB cs last) ++ [CSVEvent.endOfStream]
  | line :: rest =>
    if t ≤ i then [CSVEvent.endOfStream]
    else
      (if line = [] then [] else rowEventsOf (splitB cs line)) ++
        canonicalGo cs t (i + 1) rest

/-- Reference event stream of the parser on quote-free input with the given
single-byte column and line separators and the given fromLine and toLine:
the lines before fromLine are skipped, the rest processed by canonicalGo. -/
def canonicalEvents (cs l : Nat) (f t : Nat) (input : Bytes) : List CSVEvent :=
  canonicalGo cs t f ((splitB l input).drop f)

/-- Encoding of a row as cells joined by the column separator byte. -/
def encodeRow (cs : Nat) : List Bytes → Bytes
  | [] => []
  | [c] => c
  | c :: rest => c ++ cs :: encodeRow cs rest

/-- Lines joined by the line separator byte. -/
def interLines (l : Nat) : List Bytes → Bytes
  | [] => []
  | [line] => line
  | line :: rest => line ++ l :: interLines l rest

/-- Encoding of a grid of cells with single-byte separators and no quoting
and no trailing line separator. -/
def encodeGrid (cs l : Nat) (grid : List (List Bytes)) : Bytes :=
  interLines l (grid.map (encodeRow cs))

/-- The full event stream announcing exactly the rows of a grid. -/
def gridEvents (grid : List (List Bytes)) : List CSVEvent :=
  (grid.map rowEventsOf).flatten ++ [CSVEvent.endOfStream]

/-- Quote doubling: the writer-side encoding of cell bytes inside a quoted
cell, replacing each leftmost-first occurrence of the quote sequence by two
copies of it. -/
def doubleQuotesEnc (q : Bytes) : Bytes → Bytes
  | [] => []
  | x :: xs =>
    if h : 0 < q.length ∧ q.isPrefixOf (x :: xs) then
      q ++ q ++ doubleQuotesEnc q ((x :: xs).drop q.length)
    else
      x :: doubleQuotesEnc q xs
termination_by b => b.length
decreasing_by
  · simp only [List.length_drop, List.length_cons]
    omega
  · simp only [List.length_cons]
    omega

/-- Object construction of readCSVObjects in reader.ts: the loop assigns
obj[header[i]] = row[i] for i below the header length, so looking a key up
in the finished object yields the row entry at the last header position
carrying that key (undefined, modelled as the inner none, when the row is
shorter), and none at all for a key not in the header. -/
def objGet (header row : List Bytes) (key : Bytes) : Option (Option Bytes) :=
  (List.range header.length).foldl
    (fun acc i => if header.get? i = some key then some (row.get? i) else acc)
    none

/-- Stats record a constructed reader mutates: the record given by the
_stats option when present, otherwise the module-level record of
defaultCSVReaderOptions, whose current value is the moduleStats argument
(option spreading copies the reference, so every reader constructed without
_stats reads and writes that same record). -/
def initialStatsOf (opts : CSVReaderOptions) (moduleStats : Stats) : Stats :=
  match opts.statsRecord with
  | some st => st
  | none => moduleStats

/-- The loaded but unconsumed bytes of the input buffer. -/
def loadedTail (s : CSVReaderState) : Bytes :=
  s.inputBuffer.drop s.inputBufferIndex

/-- The whole remaining input: loaded unconsumed bytes followed by the
chunks the byte source has not delivered yet. -/
def remaining (s : CSVReaderState) : Bytes :=
  loadedTail s ++ s.chunks.flatten

/-- Basic well-formedness of a reachable state: the read index is within the
input buffer, and once the byte source is exhausted no chunks remain. -/
def Wf (s : CSVReaderState) : Prop :=
  s.inputBufferIndex ≤ s.inputBuffer.length ∧
    (s.readerEmpty = true → s.chunks = [])

/-- A state on which none of the three buffer-management rules fires, so the
next iteration applies a parse rule. -/
def Normal (cfg : CSVReaderConfig) (s : CSVReaderState) : Prop :=
  (s.readerEmpty = true ∨ cfg.minPossibleBufferReserve ≤ unprocessed s) ∧
    s.inputBufferIndex < cfg.inputBufferIndexLimit ∧
    s.columnData.length + cfg.columnBufferReserve ≤ s.columnBufferLen

/-- The two states agree on everything the parse rules observe apart from
buffer layout: the remaining input and the parse flags, counters and cell
bytes.  The buffer-management rules preserve this view. -/
def ParseEq (s s' : CSVReaderState) : Prop :=
  remaining s' = remaining s ∧ s'.columnData = s.columnData ∧
    s'.inColumn = s.inColumn ∧ s'.inQuote = s.inQuote ∧
    s'.emptyLine = s.emptyLine ∧ s'.currentPos = s.currentPos ∧
    s'.linesProcessed = s.linesProcessed ∧
    s'.lastLineStartPos = s.lastLineStartPos

/-- Bytes free of the three single-byte delimiters. -/
def CleanBytes (cs l q : Nat) (u : Bytes) : Prop :=
  ∀ b ∈ u, b ≠ cs ∧ b ≠ l ∧ b ≠ q

/-- The state carried by a step outcome, whether the loop continues or
stops. -/
def stepOutState : StepOut → CSVReaderState
  | .next s _ => s
  | .halt s _ => s

theorem jsMatchRest_unfold (a pat : Bytes) (i matched j : Nat) :
    jsMatchRest a pat i matched j =
      if matched < pat.length then
        if a.get? (j + 1) = pat.get? (j + 1 - i) then
          jsMatchRest a pat i (matched + 1) (j + 1)
        else
          matched
      else
        matched := by
  by_cases hm : matched < pat.length
  · have h1 : pat.length - matched = (pat.length - (matched + 1)) + 1 := by omega
    show jsMatchRestF a pat i (pat.length - matched) matched j = _
    rw [h1]
    simp only [jsMatchRestF]
    rw [if_pos hm, if_pos hm]
    rfl
  · have h0 : pat.length - matched = 0 := by omega
    show jsMatchRestF a pat i (pat.length - matched) matched j = _
    rw [h0, if_neg hm]
    rfl

theorem findReadTillLineSeparatorIndexGo_unfold (a lineSeparator : Bytes)
    (i : Nat) :
    findReadTillLineSeparatorIndexGo a lineSeparator i =
      if i < a.length then
        if jsPatMatchAt a lineSeparator i then some i
        else findReadTillLineSeparatorIndexGo a lineSeparator (i + 1)
      else
        none := by
  show findReadTillLineSeparatorIndexGoF a lineSeparator (a.length - i) i = _
  by_cases hl : i < a.length
  · have h1 : a.length - i = (a.length - (i + 1)) + 1 := by omega
    rw [h1]
    simp only [findReadTillLineSeparatorIndexGoF]
    rw [if_pos hl, if_pos hl]
    rfl
  · have h0 : a.length - i = 0 := by omega
    rw [h0, if_neg hl]
    rfl

theorem findReadTillIndexGo_unfold (a : Bytes) (limit : Nat)
    (lineSeparator columnSeparator quote : Bytes) (i : Nat) :
    findReadTillIndexGo a limit lineSeparator columnSeparator quote i =
      if i < a.length then
        if i ≥ limit then (limit, .LIMIT)
        else if jsPatMatchAt a lineSeparator i then (i, .LINE_SEPARATOR)
        else if jsPatMatchAt a columnSeparator i then (i, .COLUMN_SEPARATOR)
        else if jsPatMatchAt a quote i then (i, .QUOTE)
        else findReadTillIndexGo a limit lineSeparator columnSeparator quote (i + 1)
      else
        (limit, .LIMIT) := by
  show findReadTillIndexGoF a limit lineSeparator columnSeparator quote
    (a.length - i) i = _
  by_cases hl : i < a.length
  · have h1 : a.length - i = (a.length - (i + 1)) + 1 := by omega
    rw [h1]
    simp only [findReadTillIndexGoF]
    rw [if_pos hl, if_pos hl]
    rfl
  · have h0 : a.length - i = 0 := by omega
    rw [h0, if_neg hl]
    rfl

theorem jsPatMatchAt_nil (a : Bytes) (i : Nat) : jsPatMatchAt a [] i = false := by
  simp [jsPatMatchAt, jsMatchRest, jsMatchRestF]

theorem findReadTillIndexQuotedGoF_fuel (a : Bytes) (limit : Nat)
    (quote lineSeparator : Bytes) :
    ∀ (f1 : Nat) (f2 i lsFound : Nat) (lastEnd : Int),
    a.length - i ≤ f1 → a.length - i ≤ f2 →
    findReadTillIndexQuotedGoF a limit quote lineSeparator f1 i lsFound lastEnd
      = findReadTillIndexQuotedGoF a limit quote lineSeparator f2 i lsFound
        lastEnd := by
  intro f1
  induction f1 with
  | zero =>
    intro f2 i lsF lastE h1 h2
    cases f2 with
    | zero => rfl
    | succ f2 =>
      simp only [findReadTillIndexQuotedGoF]
      rw [if_neg (by omega : ¬ i < a.length)]
  | succ f1 ih =>
    intro f2 i lsF lastE h1 h2
    cases f2 with
    | zero =>
      simp only [findReadTillIndexQuotedGoF]
      rw [if_neg (by omega : ¬ i < a.length)]
    | succ f2 =>
      simp only [findReadTillIndexQuotedGoF]
      by_cases hl : i < a.length
      · rw [if_pos hl, if_pos hl]
        by_cases hlim : i ≥ limit
        · rw [if_pos hlim, if_pos hlim]
        · rw [if_neg hlim, if_neg hlim]
          by_cases hq : jsPatMatchAt a quote i = true
          · rw [if_pos hq, if_pos hq]
          · rw [if_neg hq, if_neg hq]
            by_cases hls : jsPatMatchAt a lineSeparator i = true
            · rw [if_pos hls, if_pos hls]
              have hlen : 1 ≤ lineSeparator.length := by
                cases hc : lineSeparator with
                | nil =>
                  rw [hc, jsPatMatchAt_nil] at hls
                  cases hls
                | cons x xs => simp
              exact ih f2 (i + lineSeparator.length) (lsF + 1) _
                (by omega) (by omega)
            · rw [if_neg hls, if_neg hls]
              exact ih f2 (i + 1) lsF lastE (by omega) (by omega)
      · rw [if_neg hl, if_neg hl]

theorem findReadTillIndexQuotedGo_unfold (a : Bytes) (limit : Nat)
    (quote lineSeparator : Bytes) (i lsFound : Nat) (lastEnd : Int) :
    findReadTillIndexQuotedGo a limit quote lineSeparator i lsFound lastEnd =
      if i < a.length then
        if i ≥ limit then ⟨limit, lsFound, lastEnd⟩
        else if jsPatMatchAt a quote i then ⟨i, lsFound, lastEnd⟩
        else if jsPatMatchAt a lineSeparator i then
          findReadTillIndexQuotedGo a limit quote lineSeparator
            (i + lineSeparator.length) (lsFound + 1)
            ((i : Int) + lineSeparator.length)
        else
          findReadTillIndexQuotedGo a limit quote lineSeparator (i + 1) lsFound
            lastEnd
      else
        ⟨limit, lsFound, lastEnd⟩ := by
  show findReadTillIndexQuotedGoF a limit quote lineSeparator (a.length - i) i
    lsFound lastEnd = _
  by_cases hl : i < a.length
  · have h1 : a.length - i = (a.length - (i + 1)) + 1 := by omega
    rw [h1]
    simp only [findReadTillIndexQuotedGoF]
    rw [if_pos hl, if_pos hl]
    by_cases hlim : i ≥ limit
    · rw [if_pos hlim, if_pos hlim]
    · rw [if_neg hlim, if_neg hlim]
      by_cases hq : jsPatMatchAt a quote i = true
      · rw [if_pos hq, if_pos hq]
      · rw [if_neg hq, if_neg hq]
        by_cases hls : jsPatMatchAt a lineSeparator i = true
        · rw [if_pos hls, if_pos hls]
          have hlen : 1 ≤ lineSeparator.length := by
            cases hc : lineSeparator with
            | nil =>
              rw [hc, jsPatMatchAt_nil] at hls
              cases hls
            | cons x xs => simp
          exact findReadTillIndexQuotedGoF_fuel a limit quote lineSeparator
            (a.length - (i + 1)) (a.length - (i + lineSeparator.length))
            (i + lineSeparator.length) (lsFound + 1) _ (by omega) (by omega)
        · rw [if_neg hls, if_neg hls]
          rfl
  · have h0 : a.length - i = 0 := by omega
    rw [h0, if_neg hl]
    rfl

theorem jsMatchRest_spec (a pat : Bytes) (i : Nat) :
    ∀ n matched, pat.length - matched ≤ n → 1 ≤ matched → matched ≤ pat.length →
    (jsMatchRest a pat i matched (i + matched - 1) = pat.length ↔
      ∀ k, matched ≤ k → k < pat.length → a.get? (i + k) = pat.get? k) := by
  intro n
  induction n with
  | zero =>
    intro matched h0 h1 h2
    have hm : matched = pat.length := by omega
    rw [jsMatchRest_unfold, if_neg (by omega)]
    constructor
    · intro _ k hk1 hk2
      omega
    · intro _
      omega
  | succ n ih =>
    intro matched h0 h1 h2
    by_cases hlt : matched < pat.length
    · rw [jsMatchRest_unfold, if_pos hlt]
      have hj : i + matched - 1 + 1 = i + matched := by omega
      have hj2 : i + matched - i = matched := by omega
      rw [hj, hj2]
      by_cases hbyte : a.get? (i + matched) = pat.get? matched
      · rw [if_pos hbyte]
        have hrec := ih (matched + 1) (by omega) (by omega) (by omega)
        have hid : i + (matched + 1) - 1 = i + matched := by omega
        rw [hid] at hrec
        rw [hrec]
        constructor
        · intro hall k hk1 hk2
          rcases Nat.eq_or_lt_of_le hk1 with heq | hlt2
          · rw [← heq]
            exact hbyte
          · exact hall k hlt2 hk2
        · intro hall k hk1 hk2
          exact hall k (by omega) hk2
      · rw [if_neg hbyte]
        constructor
        · intro habs
          omega
        · intro hall
          exact absurd (hall matched (le_refl _) hlt) hbyte
    · have hm : matched = pat.length := by omega
      rw [jsMatchRest_unfold, if_neg (by omega)]
      constructor
      · intro _ k hk1 hk2
        omega
      · intro _
        omega

theorem jsPatMatchAt_iff_forall (a pat : Bytes) (i : Nat) :
    jsPatMatchAt a pat i = true ↔
      pat ≠ [] ∧ ∀ k, k < pat.length → a.get? (i + k) = pat.get? k := by
  cases pat with
  | nil =>
    simp only [jsPatMatchAt]
    rw [jsMatchRest_unfold]
    simp
  | cons p ps =>
    simp only [jsPatMatchAt, Bool.and_eq_true, decide_eq_true_eq]
    have hspec := jsMatchRest_spec a (p :: ps) i (p :: ps).length 1 (by omega)
      (le_refl _) (by simp)
    have hid : i + 1 - 1 = i := by omega
    rw [hid] at hspec
    rw [hspec]
    constructor
    · intro h
      refine ⟨by simp, ?_⟩
      intro k hk
      cases k with
      | zero =>
        simpa using h.1
      | succ m =>
        exact h.2 (m + 1) (by omega) hk
    · intro h
      refine ⟨by simpa using h.2 0 (by simp), ?_⟩
      intro k hk1 hk2
      exact h.2 k hk2

theorem forallGet_iff_take (pat t : Bytes) :
    (∀ k, k < pat.length → t.get? k = pat.get? k) ↔ t.take pat.length = pat := by
  induction pat generalizing t with
  | nil => simp
  | cons p ps ih =>
    cases t with
    | nil =>
      constructor
      · intro h
        have := h 0 (by simp)
        simp at this
      · intro h
        simp at h
    | cons x xs =>
      constructor
      · intro h
        have h0 := h 0 (by simp)
        simp only [List.get?_cons_zero, Option.some.injEq] at h0
        simp only [List.length_cons, List.take_succ_cons, List.cons.injEq]
        refine ⟨h0, (ih xs).mp ?_⟩
        intro k hk
        exact h (k + 1) (by simpa using hk)
      · intro h
        simp only [List.length_cons, List.take_succ_cons, List.cons.injEq] at h
        intro k hk
        cases k with
        | zero => simp [h.1]
        | succ m =>
          simp only [List.get?_cons_succ]
          exact (ih xs).mpr h.2 m (by simpa using hk)

theorem jsPatMatchAt_iff_prefix (a pat : Bytes) (i : Nat) :
    jsPatMatchAt a pat i = true ↔ pat ≠ [] ∧ pat <+: a.drop i := by
  rw [jsPatMatchAt_iff_forall]
  constructor
  · intro h
    refine ⟨h.1, ?_⟩
    rw [List.prefix_iff_eq_take]
    refine ((forallGet_iff_take pat (a.drop i)).mp ?_).symm
    intro k hk
    rw [List.get?_drop]
    exact h.2 k hk
  · intro h
    refine ⟨h.1, ?_⟩
    intro k hk
    rw [← List.get?_drop]
    revert k hk
    rw [forallGet_iff_take]
    exact (List.prefix_iff_eq_take.mp h.2).symm

theorem jsPatMatchAt_single_iff (a : Bytes) (p : Nat) (i : Nat) :
    jsPatMatchAt a [p] i = true ↔ a.get? i = some p := by
  rw [jsPatMatchAt_iff_forall]
  constructor
  · intro h
    simpa using h.2 0 (by simp)
  · intro h
    refine ⟨by simp, ?_⟩
    intro k hk
    have : k = 0 := by simpa using hk
    subst this
    simpa using h

theorem hasPrefixFrom_eq (a pre : Bytes) (off : Nat) :
    hasPrefixFrom a pre off = pre.isPrefixOf (a.drop off) := by
  unfold hasPrefixFrom
  by_cases h : 0 < off
  · rw [if_pos h]
  · rw [if_neg h]
    have : off = 0 := by omega
    rw [this, List.drop_zero]

theorem hasNextState_iff (s : CSVReaderState) (pat : Bytes) :
    hasNextState s pat = true ↔ pat <+: loadedTail s := by
  unfold hasNextState loadedTail
  rw [hasPrefixFrom_eq, List.isPrefixOf_iff_prefix]

theorem loadedTail_length (s : CSVReaderState) :
    (loadedTail s).length = unprocessed s := by
  unfold loadedTail unprocessed
  rw [List.length_drop]

theorem loadedTail_prefix_remaining (s : CSVReaderState) :
    loadedTail s <+: remaining s := by
  unfold remaining
  exact List.prefix_append _ _

theorem remaining_of_readerEmpty (s : CSVReaderState) (hwf : Wf s)
    (h : s.readerEmpty = true) : remaining s = loadedTail s := by
  unfold remaining
  rw [hwf.2 h]
  simp

/-- On a normal state, a prefix test of a pattern no longer than the minimum
reserve against the loaded buffer agrees with the same test against the
whole remaining input. -/
theorem hasNext_remaining_iff (cfg : CSVReaderConfig) (s : CSVReaderState)
    (hwf : Wf s) (hn : Normal cfg s)
    (pat : Bytes) (hlen : pat.length ≤ cfg.minPossibleBufferReserve) :
    (hasNextState s pat = true ↔ pat <+: remaining s) := by
  rw [hasNextState_iff]
  rcases hn.1 with he | hres
  · rw [remaining_of_readerEmpty s hwf he]
  · unfold remaining
    rw [List.isPrefix_append_of_length]
    rw [loadedTail_length]
    omega

theorem RunTo.trans {cfg : CSVReaderConfig} {s1 s2 s3 : CSVReaderState}
    {e1 e2 : List CSVEvent} (h1 : RunTo cfg s1 e1 s2) (h2 : RunTo cfg s2 e2 s3) :
    RunTo cfg s1 (e1 ++ e2) s3 := by
  induction h1 with
  | refl => simpa using h2
  | step hstep _ ih =>
    rw [List.append_assoc]
    exact RunTo.step hstep (ih h2)

theorem RunTo.run {cfg : CSVReaderConfig} {s1 s2 s3 : CSVReaderState}
    {e1 e2 : List CSVEvent} (h1 : RunTo cfg s1 e1 s2) (h2 : Run cfg s2 e2 s3) :
    Run cfg s1 (e1 ++ e2) s3 := by
  induction h1 with
  | refl => simpa using h2
  | step hstep _ ih =>
    rw [List.append_assoc]
    exact Run.next hstep (ih h2)

theorem runTo_single {cfg : CSVReaderConfig} {s s1 : CSVReaderState}
    {evs : List CSVEvent} (h : step cfg s = .next s1 evs) : RunTo cfg s evs s1 := by
  have h2 : RunTo cfg s (evs ++ []) s1 := RunTo.step h RunTo.refl
  simpa using h2

theorem runTo_silent {cfg : CSVReaderConfig} {s s1 : CSVReaderState}
    (h : step cfg s = .next s1 []) : RunTo cfg s [] s1 :=
  runTo_single h

theorem runFuel_sound (cfg : CSVReaderConfig) :
    ∀ (n : Nat) (s : CSVReaderState) (evs : List CSVEvent) (f : CSVReaderState),
    runFuel cfg n s = some (evs, f) → Run cfg s evs f := by
  intro n
  induction n with
  | zero =>
    intro s evs f h
    simp [runFuel] at h
  | succ n ih =>
    intro s evs f h
    cases hstep : step cfg s with
    | next s1 evs1 =>
      rw [runFuel, hstep] at h
      dsimp only at h
      cases hrec : runFuel cfg n s1 with
      | none =>
        rw [hrec] at h
        simp at h
      | some p =>
        cases p with
        | mk evs2 s2 =>
          rw [hrec] at h
          simp only [Option.some.injEq, Prod.mk.injEq] at h
          obtain ⟨h1, h2⟩ := h
          subst h1
          subst h2
          exact Run.next hstep (ih s1 evs2 s2 hrec)
    | halt s1 evs1 =>
      rw [runFuel, hstep] at h
      dsimp only at h
      simp only [Option.some.injEq, Prod.mk.injEq] at h
      obtain ⟨h1, h2⟩ := h
      subst h1
      subst h2
      exact Run.halt hstep

theorem run_deterministic {cfg : CSVReaderConfig} {s : CSVReaderState}
    {e1 e2 : List CSVEvent} {f1 f2 : CSVReaderState}
    (h1 : Run cfg s e1 f1) (h2 : Run cfg s e2 f2) : e1 = e2 ∧ f1 = f2 := by
  induction h1 generalizing e2 f2 with
  | halt hstep =>
    cases h2 with
    | halt hstep2 =>
      rw [hstep] at hstep2
      injection hstep2 with hs he
      exact ⟨he, hs⟩
    | next hstep2 _ =>
      rw [hstep] at hstep2
      cases hstep2
  | next hstep hrun ih =>
    cases h2 with
    | halt hstep2 =>
      rw [hstep] at hstep2
      cases hstep2
    | next hstep2 hrun2 =>
      rw [hstep] at hstep2
      injection hstep2 with hs he
      subst hs
      subst he
      obtain ⟨ha, hb⟩ := ih hrun2
      exact ⟨by rw [ha], hb⟩

theorem not_refill_of_normal {cfg : CSVReaderConfig} {s : CSVReaderState}
    (hn : Normal cfg s) :
    ¬(s.readerEmpty = false ∧ unprocessed s < cfg.minPossibleBufferReserve) := by
  rcases hn.1 with he | hres
  · intro h
    rw [he] at h
    cases h.1
  · omega

theorem step_eq_stepMain {cfg : CSVReaderConfig} {s : CSVReaderState}
    (hn : Normal cfg s) : step cfg s = stepMain cfg s := by
  unfold step
  rw [if_neg (not_refill_of_normal hn),
    if_neg (by
      have := hn.2.1
      omega),
    if_neg (by
      have := hn.2.2
      omega)]

theorem step_refill_done {cfg : CSVReaderConfig} {s : CSVReaderState}
    (h1 : s.readerEmpty = false) (h2 : unprocessed s < cfg.minPossibleBufferReserve)
    (hc : s.chunks = []) :
    step cfg s =
      .next
        { s with
          readerEmpty := true
          stats := { s.stats with reads := s.stats.reads + 1 } }
        [] := by
  unfold step
  rw [if_pos ⟨h1, h2⟩]
  obtain ⟨ch, ib, ii, cd, cl, re, el, iq, ic, cp, lp, ll, st⟩ := s
  simp only at hc
  subst hc
  rfl

theorem step_refill_chunk {cfg : CSVReaderConfig} {s : CSVReaderState}
    (h1 : s.readerEmpty = false) (h2 : unprocessed s < cfg.minPossibleBufferReserve)
    {c : Bytes} {rest : List Bytes} (hc : s.chunks = c :: rest) :
    step cfg s =
      .next
        { s with
          inputBuffer := s.inputBuffer ++ c
          chunks := rest
          stats := { s.stats with reads := s.stats.reads + 1 } }
        [] := by
  unfold step
  rw [if_pos ⟨h1, h2⟩]
  obtain ⟨ch, ib, ii, cd, cl, re, el, iq, ic, cp, lp, ll, st⟩ := s
  simp only at hc
  subst hc
  rfl

theorem step_shrink {cfg : CSVReaderConfig} {s : CSVReaderState}
    (h1 : ¬(s.readerEmpty = false ∧ unprocessed s < cfg.minPossibleBufferReserve))
    (h2 : cfg.inputBufferIndexLimit ≤ s.inputBufferIndex) :
    step cfg s =
      .next
        { s with
          inputBuffer := s.inputBuffer.drop s.inputBufferIndex
          inputBufferIndex := 0
          stats := { s.stats with inputBufferShrinks := s.stats.inputBufferShrinks + 1 } }
        [] := by
  unfold step
  rw [if_neg h1, if_pos h2]

section StepMainRules

variable {cfg : CSVReaderConfig} {s : CSVReaderState}

theorem stepMain_skipLine_none (hic : s.inColumn = false)
    (hfrom : s.linesProcessed < cfg.fromLine)
    (hfind : findReadTillLineSeparatorIndex (s.inputBuffer.drop s.inputBufferIndex)
      cfg.lineSeparator = none) :
    stepMain cfg s = .next (skipN s (s.inputBuffer.drop s.inputBufferIndex).length) [] := by
  unfold stepMain
  rw [if_pos ⟨hic, hfrom⟩]
  dsimp only
  rw [hfind]

theorem stepMain_skipLine_found (hic : s.inColumn = false)
    (hfrom : s.linesProcessed < cfg.fromLine) {index : Nat}
    (hfind : findReadTillLineSeparatorIndex (s.inputBuffer.drop s.inputBufferIndex)
      cfg.lineSeparator = some index) :
    stepMain cfg s =
      .next
        { skipN s (index + cfg.lineSeparator.length) with
          linesProcessed := (skipN s (index + cfg.lineSeparator.length)).linesProcessed + 1
          lastLineStartPos := (skipN s (index + cfg.lineSeparator.length)).currentPos
          emptyLine := true }
        [] := by
  unfold stepMain
  rw [if_pos ⟨hic, hfrom⟩]
  dsimp only
  rw [hfind]

theorem stepMain_toLine (hic : s.inColumn = false)
    (hfrom : cfg.fromLine ≤ s.linesProcessed)
    (hto : cfg.toLine ≤ s.linesProcessed) :
    stepMain cfg s = .halt s [.endOfStream] := by
  unfold stepMain
  rw [if_neg (by simp [hic]; omega), if_pos ⟨hic, hto⟩]

theorem stepMain_bom (hic : s.inColumn = false)
    (hfrom : cfg.fromLine ≤ s.linesProcessed)
    (hto : s.linesProcessed < cfg.toLine)
    (hpos : s.currentPos = 0) (hbom : hasNextState s utfBom = true) :
    stepMain cfg s = .next (skipN s utfBom.length) [] := by
  unfold stepMain
  rw [if_neg (by simp [hic]; omega), if_neg (by simp [hic]; omega),
    if_pos ⟨hic, hpos, hbom⟩]

theorem stepMain_eof_blank (hic : s.inColumn = false)
    (hfrom : cfg.fromLine ≤ s.linesProcessed)
    (hto : s.linesProcessed < cfg.toLine)
    (hbom : ¬(s.currentPos = 0 ∧ hasNextState s utfBom = true))
    (hup : unprocessed s = 0) (hel : s.emptyLine = true) :
    stepMain cfg s = .halt s [.endOfStream] := by
  unfold stepMain
  rw [if_neg (by simp [hic]; omega), if_neg (by simp [hic]; omega),
    if_neg (by
      intro h
      exact hbom ⟨h.2.1, h.2.2⟩),
    if_pos ⟨hic, hup⟩, if_neg (by simp [hel])]

theorem stepMain_eof_row (hic : s.inColumn = false)
    (hfrom : cfg.fromLine ≤ s.linesProcessed)
    (hto : s.linesProcessed < cfg.toLine)
    (hbom : ¬(s.currentPos = 0 ∧ hasNextState s utfBom = true))
    (hup : unprocessed s = 0) (hel : s.emptyLine = false) :
    stepMain cfg s =
      .halt { s with columnData := [] }
        [.cell s.columnData, .rowEnd, .endOfStream] := by
  unfold stepMain
  rw [if_neg (by simp [hic]; omega), if_neg (by simp [hic]; omega),
    if_neg (by
      intro h
      exact hbom ⟨h.2.1, h.2.2⟩),
    if_pos ⟨hic, hup⟩, if_pos hel]

theorem stepMain_lineSep_blank (hic : s.inColumn = false)
    (hfrom : cfg.fromLine ≤ s.linesProcessed)
    (hto : s.linesProcessed < cfg.toLine)
    (hbom : ¬(s.currentPos = 0 ∧ hasNextState s utfBom = true))
    (hup : unprocessed s ≠ 0)
    (hls : hasNextState s cfg.lineSeparator = true) (hel : s.emptyLine = true) :
    stepMain cfg s =
      .next
        { skipN s cfg.lineSeparator.length with
          linesProcessed := (skipN s cfg.lineSeparator.length).linesProcessed + 1
          lastLineStartPos := (skipN s cfg.lineSeparator.length).currentPos
          emptyLine := true }
        [] := by
  unfold stepMain
  rw [if_neg (by simp [hic]; omega), if_neg (by simp [hic]; omega),
    if_neg (by
      intro h
      exact hbom ⟨h.2.1, h.2.2⟩),
    if_neg (by
      intro h
      exact hup h.2),
    if_pos ⟨hic, hls⟩]
  dsimp only
  rw [if_neg (by simp [hel]), if_neg (by simp [hel])]

theorem stepMain_lineSep_row (hic : s.inColumn = false)
    (hfrom : cfg.fromLine ≤ s.linesProcessed)
    (hto : s.linesProcessed < cfg.toLine)
    (hbom : ¬(s.currentPos = 0 ∧ hasNextState s utfBom = true))
    (hup : unprocessed s ≠ 0)
    (hls : hasNextState s cfg.lineSeparator = true) (hel : s.emptyLine = false) :
    stepMain cfg s =
      .next
        { skipN { s with columnData := [] } cfg.lineSeparator.length with
          linesProcessed := s.linesProcessed + 1
          lastLineStartPos := s.currentPos + cfg.lineSeparator.length
          emptyLine := true }
        [.cell s.columnData, .rowEnd] := by
  unfold stepMain
  rw [if_neg (by simp [hic]; omega), if_neg (by simp [hic]; omega),
    if_neg (by
      intro h
      exact hbom ⟨h.2.1, h.2.2⟩),
    if_neg (by
      intro h
      exact hup h.2),
    if_pos ⟨hic, hls⟩]
  dsimp only
  rw [if_pos hel, if_pos hel]
  rfl

theorem stepMain_colSep (hic : s.inColumn = false)
    (hfrom : cfg.fromLine ≤ s.linesProcessed)
    (hto : s.linesProcessed < cfg.toLine)
    (hbom : ¬(s.currentPos = 0 ∧ hasNextState s utfBom = true))
    (hup : unprocessed s ≠ 0)
    (hls : hasNextState s cfg.lineSeparator = false)
    (hcs : hasNextState s cfg.columnSeparator = true) :
    stepMain cfg s =
      .next (skipN { s with emptyLine := false, columnData := [] } cfg.columnSeparator.length)
        [.cell s.columnData] := by
  unfold stepMain
  rw [if_neg (by simp [hic]; omega), if_neg (by simp [hic]; omega),
    if_neg (by
      intro h
      exact hbom ⟨h.2.1, h.2.2⟩),
    if_neg (by
      intro h
      exact hup h.2),
    if_neg (by simp [hls]), if_pos ⟨hic, hcs⟩]

theorem stepMain_startCol_quote (hic : s.inColumn = false)
    (hfrom : cfg.fromLine ≤ s.linesProcessed)
    (hto : s.linesProcessed < cfg.toLine)
    (hbom : ¬(s.currentPos = 0 ∧ hasNextState s utfBom = true))
    (hup : unprocessed s ≠ 0)
    (hls : hasNextState s cfg.lineSeparator = false)
    (hcs : hasNextState s cfg.columnSeparator = false)
    (hq : hasNextState { s with inColumn := true, emptyLine := false } cfg.quote = true) :
    stepMain cfg s =
      .next (skipN { s with inColumn := true, emptyLine := false, inQuote := true } cfg.quote.length)
        [] := by
  unfold stepMain
  rw [if_neg (by simp [hic]; omega), if_neg (by simp [hic]; omega),
    if_neg (by
      intro h
      exact hbom ⟨h.2.1, h.2.2⟩),
    if_neg (by
      intro h
      exact hup h.2),
    if_neg (by simp [hls]), if_neg (by simp [hcs]), if_pos hic]
  dsimp only
  rw [if_pos hq]

theorem stepMain_startCol_plain (hic : s.inColumn = false)
    (hfrom : cfg.fromLine ≤ s.linesProcessed)
    (hto : s.linesProcessed < cfg.toLine)
    (hbom : ¬(s.currentPos = 0 ∧ hasNextState s utfBom = true))
    (hup : unprocessed s ≠ 0)
    (hls : hasNextState s cfg.lineSeparator = false)
    (hcs : hasNextState s cfg.columnSeparator = false)
    (hq : hasNextState { s with inColumn := true, emptyLine := false } cfg.quote = false) :
    stepMain cfg s = .next { s with inColumn := true, emptyLine := false } [] := by
  unfold stepMain
  rw [if_neg (by simp [hic]; omega), if_neg (by simp [hic]; omega),
    if_neg (by
      intro h
      exact hbom ⟨h.2.1, h.2.2⟩),
    if_neg (by
      intro h
      exact hup h.2),
    if_neg (by simp [hls]), if_neg (by simp [hcs]), if_pos hic]
  dsimp only
  rw [if_neg (by simp [hq])]

theorem stepMain_doubleQuote (hic : s.inColumn = true) (hiq : s.inQuote = true)
    (hdq : hasNextState s cfg.doubleQuote = true) :
    stepMain cfg s =
      .next (skipN { s with columnData := s.columnData ++ cfg.quote } cfg.doubleQuote.length)
        [] := by
  unfold stepMain
  rw [if_neg (by simp [hic]), if_neg (by simp [hic]), if_neg (by simp [hic]),
    if_neg (by simp [hic]), if_neg (by simp [hic]), if_neg (by simp [hic]),
    if_neg (by simp [hic]), if_pos ⟨hic, hiq, hdq⟩]

theorem stepMain_closeQuote_ok (hic : s.inColumn = true) (hiq : s.inQuote = true)
    (hdq : hasNextState s cfg.doubleQuote = false)
    (hq : hasNextState s cfg.quote = true)
    (hok : ¬(0 < unprocessed (skipN { s with inQuote := false, inColumn := false } cfg.quote.length) ∧
      hasNextState (skipN { s with inQuote := false, inColumn := false } cfg.quote.length) cfg.lineSeparator = false ∧
      hasNextState (skipN { s with inQuote := false, inColumn := false } cfg.quote.length) cfg.columnSeparator = false)) :
    stepMain cfg s =
      .next (skipN { s with inQuote := false, inColumn := false } cfg.quote.length) [] := by
  unfold stepMain
  rw [if_neg (by simp [hic]), if_neg (by simp [hic]), if_neg (by simp [hic]),
    if_neg (by simp [hic]), if_neg (by simp [hic]), if_neg (by simp [hic]),
    if_neg (by simp [hic]), if_neg (by simp [hdq]), if_pos ⟨hic, hiq, hq⟩]
  dsimp only
  rw [if_neg hok]

theorem stepMain_closeQuote_err (hic : s.inColumn = true) (hiq : s.inQuote = true)
    (hdq : hasNextState s cfg.doubleQuote = false)
    (hq : hasNextState s cfg.quote = true)
    (herr : 0 < unprocessed (skipN { s with inQuote := false, inColumn := false } cfg.quote.length) ∧
      hasNextState (skipN { s with inQuote := false, inColumn := false } cfg.quote.length) cfg.lineSeparator = false ∧
      hasNextState (skipN { s with inQuote := false, inColumn := false } cfg.quote.length) cfg.columnSeparator = false) :
    stepMain cfg s =
      .halt (skipN { s with inQuote := false, inColumn := false } cfg.quote.length)
        [.fail (.unexpectedAfterQuote
          ((skipN { s with inQuote := false, inColumn := false } cfg.quote.length).inputBuffer.getD
            (skipN { s with inQuote := false, inColumn := false } cfg.quote.length).inputBufferIndex 0)
          (curLine (skipN { s with inQuote := false, inColumn := false } cfg.quote.length))
          (curChar (skipN { s with inQuote := false, inColumn := false } cfg.quote.length)))] := by
  unfold stepMain
  rw [if_neg (by simp [hic]), if_neg (by simp [hic]), if_neg (by simp [hic]),
    if_neg (by simp [hic]), if_neg (by simp [hic]), if_neg (by simp [hic]),
    if_neg (by simp [hic]), if_neg (by simp [hdq]), if_pos ⟨hic, hiq, hq⟩]
  dsimp only
  rw [if_pos herr]

theorem stepMain_endUnquoted (hic : s.inColumn = true) (hiq : s.inQuote = false)
    (hend : unprocessed s = 0 ∨ hasNextState s cfg.lineSeparator = true ∨
      hasNextState s cfg.columnSeparator = true) :
    stepMain cfg s = .next { s with inColumn := false } [] := by
  unfold stepMain
  rw [if_neg (by simp [hic]), if_neg (by simp [hic]), if_neg (by simp [hic]),
    if_neg (by simp [hic]), if_neg (by simp [hic]), if_neg (by simp [hic]),
    if_neg (by simp [hic]), if_neg (by simp [hiq]), if_neg (by simp [hiq]),
    if_pos ⟨hic, hiq, hend⟩]

theorem stepMain_bulk_one (hic : s.inColumn = true) (hiq : s.inQuote = false)
    (hend : ¬(unprocessed s = 0 ∨ hasNextState s cfg.lineSeparator = true ∨
      hasNextState s cfg.columnSeparator = true))
    (hup : 0 < unprocessed s)
    (hlim : min (((s.inputBuffer.drop s.inputBufferIndex).length : Int) - (cfg.minPossibleBufferReserve : Int))
      ((s.columnBufferLen : Int) - (s.columnData.length : Int)) ≤ 1) :
    stepMain cfg s = .next (readCharsN s 1) [] := by
  unfold stepMain
  rw [if_neg (by simp [hic]), if_neg (by simp [hic]), if_neg (by simp [hic]),
    if_neg (by simp [hic]), if_neg (by simp [hic]), if_neg (by simp [hic]),
    if_neg (by simp [hic]), if_neg (by simp [hiq]), if_neg (by simp [hiq]),
    if_neg (by
      intro h
      exact hend h.2.2),
    if_pos ⟨hic, hup⟩]
  dsimp only
  rw [if_pos hlim]

theorem stepMain_bulk_one_quoted (hic : s.inColumn = true) (hiq : s.inQuote = true)
    (hdq : hasNextState s cfg.doubleQuote = false)
    (hq : hasNextState s cfg.quote = false)
    (hup : 0 < unprocessed s)
    (hlim : min (((s.inputBuffer.drop s.inputBufferIndex).length : Int) - (cfg.minPossibleBufferReserve : Int))
      ((s.columnBufferLen : Int) - (s.columnData.length : Int)) ≤ 1) :
    stepMain cfg s = .next (readCharsN s 1) [] := by
  unfold stepMain
  rw [if_neg (by simp [hic]), if_neg (by simp [hic]), if_neg (by simp [hic]),
    if_neg (by simp [hic]), if_neg (by simp [hic]), if_neg (by simp [hic]),
    if_neg (by simp [hic]), if_neg (by simp [hdq]), if_neg (by simp [hq]),
    if_neg (by simp [hiq]),
    if_pos ⟨hic, hup⟩]
  dsimp only
  rw [if_pos hlim]

theorem stepMain_bulk_quoted (hic : s.inColumn = true) (hiq : s.inQuote = true)
    (hdq : hasNextState s cfg.doubleQuote = false)
    (hq : hasNextState s cfg.quote = false)
    (hup : 0 < unprocessed s)
    (hlim : 1 < min (((s.inputBuffer.drop s.inputBufferIndex).length : Int) - (cfg.minPossibleBufferReserve : Int))
      ((s.columnBufferLen : Int) - (s.columnData.length : Int)))
    {till nl : Nat} {lastEnd : Int}
    (hr : findReadTillIndexQuoted (s.inputBuffer.drop s.inputBufferIndex)
      (min (((s.inputBuffer.drop s.inputBufferIndex).length : Int) - (cfg.minPossibleBufferReserve : Int))
        ((s.columnBufferLen : Int) - (s.columnData.length : Int))).toNat
      cfg.quote cfg.lineSeparator = ⟨till, nl, lastEnd⟩) :
    stepMain cfg s =
      .next
        (let s1 := if 0 < till then readCharsN s till else s
         if 0 < nl then
          { s1 with
            linesProcessed := s1.linesProcessed + nl
            lastLineStartPos := ((s.currentPos : Int) + lastEnd).toNat }
         else s1)
        [] := by
  unfold stepMain
  rw [if_neg (by simp [hic]), if_neg (by simp [hic]), if_neg (by simp [hic]),
    if_neg (by simp [hic]), if_neg (by simp [hic]), if_neg (by simp [hic]),
    if_neg (by simp [hic]), if_neg (by simp [hdq]), if_neg (by simp [hq]),
    if_neg (by simp [hiq]),
    if_pos ⟨hic, hup⟩]
  dsimp only
  rw [if_neg (by omega), if_pos hiq, hr]

theorem stepMain_bulk_unquoted_err (hic : s.inColumn = true) (hiq : s.inQuote = false)
    (hend : ¬(unprocessed s = 0 ∨ hasNextState s cfg.lineSeparator = true ∨
      hasNextState s cfg.columnSeparator = true))
    (hup : 0 < unprocessed s)
    (hlim : 1 < min (((s.inputBuffer.drop s.inputBufferIndex).length : Int) - (cfg.minPossibleBufferReserve : Int))
      ((s.columnBufferLen : Int) - (s.columnData.length : Int)))
    (hr : findReadTillIndex (s.inputBuffer.drop s.inputBufferIndex)
      (min (((s.inputBuffer.drop s.inputBufferIndex).length : Int) - (cfg.minPossibleBufferReserve : Int))
        ((s.columnBufferLen : Int) - (s.columnData.length : Int))).toNat
      cfg.lineSeparator cfg.columnSeparator cfg.quote = (0, .QUOTE)) :
    stepMain cfg s =
      .halt s [.fail (.unexpectedQuoteInUnquoted (curLine s) (curChar s))] := by
  unfold stepMain
  rw [if_neg (by simp [hic]), if_neg (by simp [hic]), if_neg (by simp [hic]),
    if_neg (by simp [hic]), if_neg (by simp [hic]), if_neg (by simp [hic]),
    if_neg (by simp [hic]), if_neg (by simp [hiq]), if_neg (by simp [hiq]),
    if_neg (by
      intro h
      exact hend h.2.2),
    if_pos ⟨hic, hup⟩]
  dsimp only
  rw [if_neg (by omega), if_neg (by simp [hiq]), hr]
  dsimp only
  rw [if_pos ⟨rfl, rfl⟩]

theorem stepMain_bulk_unquoted_ok (hic : s.inColumn = true) (hiq : s.inQuote = false)
    (hend : ¬(unprocessed s = 0 ∨ hasNextState s cfg.lineSeparator = true ∨
      hasNextState s cfg.columnSeparator = true))
    (hup : 0 < unprocessed s)
    (hlim : 1 < min (((s.inputBuffer.drop s.inputBufferIndex).length : Int) - (cfg.minPossibleBufferReserve : Int))
      ((s.columnBufferLen : Int) - (s.columnData.length : Int)))
    {till : Nat} {ty : FindReadTillIndexType}
    (hr : findReadTillIndex (s.inputBuffer.drop s.inputBufferIndex)
      (min (((s.inputBuffer.drop s.inputBufferIndex).length : Int) - (cfg.minPossibleBufferReserve : Int))
        ((s.columnBufferLen : Int) - (s.columnData.length : Int))).toNat
      cfg.lineSeparator cfg.columnSeparator cfg.quote = (till, ty))
    (hnz : ¬(till = 0 ∧ ty = FindReadTillIndexType.QUOTE)) :
    stepMain cfg s = .next (if 0 < till then readCharsN s till else s) [] := by
  unfold stepMain
  rw [if_neg (by simp [hic]), if_neg (by simp [hic]), if_neg (by simp [hic]),
    if_neg (by simp [hic]), if_neg (by simp [hic]), if_neg (by simp [hic]),
    if_neg (by simp [hic]), if_neg (by simp [hiq]), if_neg (by simp [hiq]),
    if_neg (by
      intro h
      exact hend h.2.2),
    if_pos ⟨hic, hup⟩]
  dsimp only
  rw [if_neg (by omega), if_neg (by simp [hiq]), hr]
  dsimp only
  rw [if_neg hnz]

theorem stepMain_unterminated (hic : s.inColumn = true) (hiq : s.inQuote = true)
    (hdq : hasNextState s cfg.doubleQuote = false)
    (hq : hasNextState s cfg.quote = false)
    (hup : unprocessed s = 0) :
    stepMain cfg s = .halt s [.fail (.unterminatedQuote (curLine s) (curChar s))] := by
  unfold stepMain
  rw [if_neg (by simp [hic]), if_neg (by simp [hic]), if_neg (by simp [hic]),
    if_neg (by simp [hic]), if_neg (by simp [hic]), if_neg (by simp [hic]),
    if_neg (by simp [hic]), if_neg (by simp [hdq]), if_neg (by simp [hq]),
    if_neg (by simp [hiq]), if_neg (by omega), if_pos ⟨hiq, hup⟩]

end StepMainRules

theorem step_expand {cfg : CSVReaderConfig} {s : CSVReaderState}
    (h1 : ¬(s.readerEmpty = false ∧ unprocessed s < cfg.minPossibleBufferReserve))
    (h2 : s.inputBufferIndex < cfg.inputBufferIndexLimit)
    (h3 : (s.columnBufferLen : Int) - (s.columnData.length : Int) < (cfg.columnBufferReserve : Int)) :
    step cfg s =
      .next
        { s with
          columnBufferLen := s.columnBufferLen + cfg.columnBufferStepSize
          stats := { s.stats with columnBufferExpands := s.stats.columnBufferExpands + 1 } }
        [] := by
  unfold step
  rw [if_neg h1, if_neg (by omega), if_pos h3]

theorem refill_phase (cfg : CSVReaderConfig) :
    ∀ (n : Nat) (s : CSVReaderState),
    s.chunks.length + (if s.readerEmpty = true then 0 else 1) ≤ n → Wf s →
    ∃ s', RunTo cfg s [] s' ∧ Wf s' ∧
      (s'.readerEmpty = true ∨ cfg.minPossibleBufferReserve ≤ unprocessed s') ∧
      remaining s' = remaining s ∧
      s'.inputBufferIndex = s.inputBufferIndex ∧
      s'.columnData = s.columnData ∧ s'.columnBufferLen = s.columnBufferLen ∧
      s'.inColumn = s.inColumn ∧ s'.inQuote = s.inQuote ∧
      s'.emptyLine = s.emptyLine ∧ s'.currentPos = s.currentPos ∧
      s'.linesProcessed = s.linesProcessed ∧
      s'.lastLineStartPos = s.lastLineStartPos := by
  intro n
  induction n with
  | zero =>
    intro s hm hwf
    cases hre : s.readerEmpty with
    | true =>
      exact ⟨s, RunTo.refl, hwf, Or.inl hre, rfl, rfl, rfl, rfl, rfl, rfl, rfl,
        rfl, rfl, rfl⟩
    | false =>
      rw [hre] at hm
      simp at hm
  | succ n ih =>
    intro s hm hwf
    by_cases hcond : s.readerEmpty = false ∧ unprocessed s < cfg.minPossibleBufferReserve
    · cases hch : s.chunks with
      | nil =>
        have hstep := step_refill_done hcond.1 hcond.2 hch
        obtain ⟨s', hrun, hwf', hdone, hrem, h5, h6, h7, h8, h9, h10, h11, h12, h13⟩ :=
          ih { s with readerEmpty := true, stats := { s.stats with reads := s.stats.reads + 1 } }
            (by simpa using Nat.le_of_succ_le_succ (by simpa [hch] using hm)) ⟨hwf.1, fun _ => hch⟩
        refine ⟨s', RunTo.trans (runTo_silent hstep) hrun, hwf', hdone, ?_, h5, h6, h7,
          h8, h9, h10, h11, h12, h13⟩
        rw [hrem]
        unfold remaining loadedTail
        rfl
      | cons c rest =>
        have hstep := step_refill_chunk hcond.1 hcond.2 hch
        obtain ⟨s', hrun, hwf', hdone, hrem, h5, h6, h7, h8, h9, h10, h11, h12, h13⟩ :=
          ih
            { s with
              inputBuffer := s.inputBuffer ++ c
              chunks := rest
              stats := { s.stats with reads := s.stats.reads + 1 } }
            (by
              show rest.length + (if s.readerEmpty = true then 0 else 1) ≤ n
              rw [hcond.1, hch] at hm
              rw [hcond.1]
              simp only [List.length_cons] at hm
              simp at hm ⊢
              omega)
            (by
              constructor
              · simp only [List.length_append]
                have := hwf.1
                omega
              · intro hco
                simp only at hco
                rw [hcond.1] at hco
                cases hco)
        refine ⟨s', RunTo.trans (runTo_silent hstep) hrun, hwf', hdone, ?_, h5, h6, h7,
          h8, h9, h10, h11, h12, h13⟩
        rw [hrem]
        unfold remaining loadedTail
        simp only [hch]
        rw [List.drop_append_of_le_length hwf.1]
        simp
    · refine ⟨s, RunTo.refl, hwf, ?_, rfl, rfl, rfl, rfl, rfl, rfl, rfl, rfl, rfl, rfl⟩
      cases hre : s.readerEmpty with
      | true => exact Or.inl rfl
      | false =>
        right
        by_contra hlt
        exact hcond ⟨hre, by omega⟩

theorem shrink_phase (cfg : CSVReaderConfig) (s : CSVReaderState)
    (hwf : Wf s)
    (hnr : ¬(s.readerEmpty = false ∧ unprocessed s < cfg.minPossibleBufferReserve))
    (hlim : 1 ≤ cfg.inputBufferIndexLimit) :
    ∃ s', RunTo cfg s [] s' ∧ Wf s' ∧
      ¬(s'.readerEmpty = false ∧ unprocessed s' < cfg.minPossibleBufferReserve) ∧
      s'.inputBufferIndex < cfg.inputBufferIndexLimit ∧
      remaining s' = remaining s ∧
      s'.columnData = s.columnData ∧ s'.columnBufferLen = s.columnBufferLen ∧
      s'.inColumn = s.inColumn ∧ s'.inQuote = s.inQuote ∧
      s'.emptyLine = s.emptyLine ∧ s'.currentPos = s.currentPos ∧
      s'.linesProcessed = s.linesProcessed ∧
      s'.lastLineStartPos = s.lastLineStartPos := by
  by_cases hsh : cfg.inputBufferIndexLimit ≤ s.inputBufferIndex
  · have hstep := step_shrink hnr hsh
    refine ⟨_, runTo_silent hstep, ?_, ?_, ?_, ?_, rfl, rfl, rfl, rfl, rfl, rfl, rfl, rfl⟩
    · constructor
      · simp
      · intro hco
        simp only at hco
        exact hwf.2 hco
    · intro hco
      apply hnr
      refine ⟨hco.1, ?_⟩
      have := hco.2
      unfold unprocessed at this ⊢
      simp only [List.length_drop] at this
      omega
    · simp only
      omega
    · unfold remaining loadedTail
      simp
  · exact ⟨s, RunTo.refl, hwf, hnr, by omega, rfl, rfl, rfl, rfl, rfl, rfl, rfl, rfl, rfl⟩

theorem expand_phase (cfg : CSVReaderConfig) :
    ∀ (n : Nat) (s : CSVReaderState),
    cfg.columnBufferReserve + s.columnData.length - s.columnBufferLen ≤ n → Wf s →
    ¬(s.readerEmpty = false ∧ unprocessed s < cfg.minPossibleBufferReserve) →
    s.inputBufferIndex < cfg.inputBufferIndexLimit →
    ∃ s', RunTo cfg s [] s' ∧ Wf s' ∧ Normal cfg s' ∧
      remaining s' = remaining s ∧
      s'.inputBufferIndex = s.inputBufferIndex ∧
      s'.columnData = s.columnData ∧
      s'.inColumn = s.inColumn ∧ s'.inQuote = s.inQuote ∧
      s'.emptyLine = s.emptyLine ∧ s'.currentPos = s.currentPos ∧
      s'.linesProcessed = s.linesProcessed ∧
      s'.lastLineStartPos = s.lastLineStartPos := by
  intro n
  induction n with
  | zero =>
    intro s hm hwf hnr hns
    refine ⟨s, RunTo.refl, hwf, ?_, rfl, rfl, rfl, rfl, rfl, rfl, rfl, rfl, rfl⟩
    refine ⟨?_, hns, by omega⟩
    cases hre : s.readerEmpty with
    | true => exact Or.inl rfl
    | false =>
      right
      by_contra hlt
      exact hnr ⟨hre, by omega⟩
  | succ n ih =>
    intro s hm hwf hnr hns
    by_cases hex : (s.columnBufferLen : Int) - (s.columnData.length : Int) < (cfg.columnBufferReserve : Int)
    · have hstep := step_expand hnr hns hex
      have hstepsz : 1 ≤ cfg.columnBufferStepSize := by
        unfold CSVReaderConfig.columnBufferStepSize CSVReaderConfig.minPossibleBufferReserve
        omega
      obtain ⟨s', hrun, hwf', hnorm, hrem, h5, h6, h7, h8, h9, h10, h11, h12⟩ :=
        ih
          { s with
            columnBufferLen := s.columnBufferLen + cfg.columnBufferStepSize
            stats := { s.stats with columnBufferExpands := s.stats.columnBufferExpands + 1 } }
          (by
            show cfg.columnBufferReserve + s.columnData.length -
              (s.columnBufferLen + cfg.columnBufferStepSize) ≤ n
            omega)
          ⟨hwf.1, hwf.2⟩ hnr hns
      exact ⟨s', RunTo.trans (runTo_silent hstep) hrun, hwf', hnorm, hrem, h5, h6, h7,
        h8, h9, h10, h11, h12⟩
    · refine ⟨s, RunTo.refl, hwf, ?_, rfl, rfl, rfl, rfl, rfl, rfl, rfl, rfl, rfl⟩
      refine ⟨?_, hns, by omega⟩
      rcases Bool.eq_false_or_eq_true s.readerEmpty with hre | hre
      · exact Or.inl hre
      · right
        by_contra hlt
        exact hnr ⟨hre, by omega⟩

/-- From any well-formed state, the buffer-management rules alone reach,
silently and without changing the parse view, a state on which a parse rule
is about to fire. -/
theorem normalize (cfg : CSVReaderConfig) (s : CSVReaderState) (hwf : Wf s)
    (hlim : 1 ≤ cfg.inputBufferIndexLimit) :
    ∃ s', RunTo cfg s [] s' ∧ Wf s' ∧ Normal cfg s' ∧ ParseEq s s' := by
  obtain ⟨s1, hrun1, hwf1, hdone1, hrem1, ha1, ha2, ha3, ha4, ha5, ha6, ha7, ha8, ha9⟩ :=
    refill_phase cfg (s.chunks.length + (if s.readerEmpty = true then 0 else 1)) s
      (le_refl _) hwf
  have hnr1 : ¬(s1.readerEmpty = false ∧ unprocessed s1 < cfg.minPossibleBufferReserve) := by
    rcases hdone1 with h | h
    · intro hco
      rw [h] at hco
      cases hco.1
    · omega
  obtain ⟨s2, hrun2, hwf2, hnr2, hns2, hrem2, hb1, hb2, hb3, hb4, hb5, hb6, hb7, hb8⟩ :=
    shrink_phase cfg s1 hwf1 hnr1 hlim
  obtain ⟨s3, hrun3, hwf3, hnorm3, hrem3, hc1, hc2, hc3, hc4, hc5, hc6, hc7, hc8⟩ :=
    expand_phase cfg (cfg.columnBufferReserve + s2.columnData.length - s2.columnBufferLen) s2
      (le_refl _) hwf2 hnr2 hns2
  refine ⟨s3, ?_, hwf3, hnorm3, ?_⟩
  · have := RunTo.trans hrun1 (RunTo.trans hrun2 hrun3)
    simpa using this
  · exact ⟨by rw [hrem3, hrem2, hrem1], by rw [hc2, hb1, ha2],
      by rw [hc3, hb3, ha4], by rw [hc4, hb4, ha5], by rw [hc5, hb5, ha6],
      by rw [hc6, hb6, ha7], by rw [hc7, hb7, ha8], by rw [hc8, hb8, ha9]⟩

theorem prefix_get? {t r : Bytes} (h : t <+: r) {j : Nat} (hj : j < t.length) :
    t.get? j = r.get? j := by
  obtain ⟨w, hw⟩ := h
  rw [← hw, List.get?_append hj]

theorem prefix_take_eq {t r : Bytes} (h : t <+: r) {n : Nat} (hn : n ≤ t.length) :
    t.take n = r.take n := by
  obtain ⟨w, hw⟩ := h
  rw [← hw, List.take_append_of_le_length hn]

theorem singleton_prefix_iff (x : Nat) (t : Bytes) :
    [x] <+: t ↔ t.get? 0 = some x := by
  cases t with
  | nil => simp
  | cons y ys =>
    constructor
    · intro h
      obtain ⟨w, hw⟩ := h
      simp only [List.singleton_append] at hw
      rw [← hw]
      simp
    · intro h
      simp only [List.get?_cons_zero, Option.some.injEq] at h
      exact ⟨ys, by rw [h, List.singleton_append]⟩

theorem minReserve_pos (cfg : CSVReaderConfig) :
    1 ≤ cfg.minPossibleBufferReserve := by
  unfold CSVReaderConfig.minPossibleBufferReserve
  omega

theorem unprocessed_pos_of_remaining_ne {cfg : CSVReaderConfig}
    {s : CSVReaderState} (hwf : Wf s) (hn : Normal cfg s)
    (hne : remaining s ≠ []) : 0 < unprocessed s := by
  rcases hn.1 with he | hres
  · rw [remaining_of_readerEmpty s hwf he] at hne
    have := loadedTail_length s
    have hlen : 0 < (loadedTail s).length := List.length_pos.mpr hne
    omega
  · have := minReserve_pos cfg
    omega

theorem unprocessed_zero_iff {cfg : CSVReaderConfig}
    {s : CSVReaderState} (hwf : Wf s) (hn : Normal cfg s) :
    (unprocessed s = 0 ↔ remaining s = []) := by
  constructor
  · intro h
    rcases hn.1 with he | hres
    · rw [remaining_of_readerEmpty s hwf he]
      have := loadedTail_length s
      have : (loadedTail s).length = 0 := by omega
      exact List.length_eq_zero.mp this
    · have := minReserve_pos cfg
      omega
  · intro h
    unfold remaining at h
    have h2 := List.append_eq_nil.mp h
    have h3 := loadedTail_length s
    rw [h2.1] at h3
    simp only [List.length_nil] at h3
    omega

theorem hasNext_single_iff {cfg : CSVReaderConfig} {s : CSVReaderState}
    (hwf : Wf s) (hn : Normal cfg s) (x : Nat) :
    (hasNextState s [x] = true ↔ (remaining s).get? 0 = some x) := by
  rw [hasNext_remaining_iff cfg s hwf hn [x]
    (by
      simp only [List.length_singleton]
      exact minReserve_pos cfg)]
  exact singleton_prefix_iff x (remaining s)

theorem frt_go_no_match (a : Bytes) (limit : Nat) (l c q : Nat) :
    ∀ (d idx : Nat), limit - idx ≤ d → idx ≤ limit → limit ≤ a.length →
    (∀ j, idx ≤ j → j < limit →
      a.get? j ≠ some l ∧ a.get? j ≠ some c ∧ a.get? j ≠ some q) →
    findReadTillIndexGo a limit [l] [c] [q] idx = (limit, .LIMIT) := by
  intro d
  induction d with
  | zero =>
    intro idx hd h1 h2 hclean
    have : idx = limit := by omega
    subst this
    rw [findReadTillIndexGo_unfold]
    by_cases hlt : idx < a.length
    · rw [if_pos hlt, if_pos (le_refl _)]
    · rw [if_neg hlt]
  | succ d ih =>
    intro idx hd h1 h2 hclean
    rw [findReadTillIndexGo_unfold]
    by_cases hlt : idx < a.length
    · rw [if_pos hlt]
      by_cases hge : idx ≥ limit
      · have : idx = limit := by omega
        rw [if_pos hge]
      · rw [if_neg hge]
        have hcl := hclean idx (le_refl _) (by omega)
        rw [if_neg (by
            rw [jsPatMatchAt_single_iff]
            exact hcl.1),
          if_neg (by
            rw [jsPatMatchAt_single_iff]
            exact hcl.2.1),
          if_neg (by
            rw [jsPatMatchAt_single_iff]
            exact hcl.2.2)]
        exact ih (idx + 1) (by omega) (by omega) h2
          (fun j hj1 hj2 => hclean j (by omega) hj2)
    · rw [if_neg hlt]

theorem frt_found_here (a : Bytes) (limit : Nat) (l c q : Nat) (m : Nat)
    (h2 : m < limit) (h3 : m < a.length)
    (hat : a.get? m = some l ∨ a.get? m = some c ∨ a.get? m = some q) :
    findReadTillIndexGo a limit [l] [c] [q] m =
      (m, if a.get? m = some l then .LINE_SEPARATOR
        else if a.get? m = some c then .COLUMN_SEPARATOR
        else .QUOTE) := by
  rw [findReadTillIndexGo_unfold, if_pos h3, if_neg (by omega)]
  rcases Decidable.em (a.get? m = some l) with hl | hl
  · rw [if_pos (by rw [jsPatMatchAt_single_iff]; exact hl), if_pos hl]
  · rw [if_neg (by rw [jsPatMatchAt_single_iff]; exact hl), if_neg hl]
    rcases Decidable.em (a.get? m = some c) with hc | hc
    · rw [if_pos (by rw [jsPatMatchAt_single_iff]; exact hc), if_pos hc]
    · rw [if_neg (by rw [jsPatMatchAt_single_iff]; exact hc), if_neg hc]
      rw [if_pos (by
        rw [jsPatMatchAt_single_iff]
        tauto)]

theorem frt_go_found (a : Bytes) (limit : Nat) (l c q : Nat) :
    ∀ (d idx m : Nat), m - idx ≤ d → idx ≤ m → m < limit → m < a.length →
    (∀ j, idx ≤ j → j < m →
      a.get? j ≠ some l ∧ a.get? j ≠ some c ∧ a.get? j ≠ some q) →
    (a.get? m = some l ∨ a.get? m = some c ∨ a.get? m = some q) →
    findReadTillIndexGo a limit [l] [c] [q] idx =
      (m, if a.get? m = some l then .LINE_SEPARATOR
        else if a.get? m = some c then .COLUMN_SEPARATOR
        else .QUOTE) := by
  intro d
  induction d with
  | zero =>
    intro idx m hd h1 h2 h3 hclean hat
    have : idx = m := by omega
    subst this
    exact frt_found_here a limit l c q idx h2 h3 hat
  | succ d ih =>
    intro idx m hd h1 h2 h3 hclean hat
    by_cases heq : idx = m
    · subst heq
      exact frt_found_here a limit l c q idx h2 h3 hat
    · rw [findReadTillIndexGo_unfold, if_pos (by omega), if_neg (by omega)]
      have hcl := hclean idx (le_refl _) (by omega)
      rw [if_neg (by
          rw [jsPatMatchAt_single_iff]
          exact hcl.1),
        if_neg (by
          rw [jsPatMatchAt_single_iff]
          exact hcl.2.1),
        if_neg (by
          rw [jsPatMatchAt_single_iff]
          exact hcl.2.2)]
      exact ih (idx + 1) m (by omega) (by omega) h2 h3
        (fun j hj1 hj2 => hclean j (by omega) hj2) hat

theorem frtls_go_none (a : Bytes) (l : Nat) :
    ∀ (d idx : Nat), a.length - idx ≤ d →
    (∀ j, idx ≤ j → j < a.length → a.get? j ≠ some l) →
    findReadTillLineSeparatorIndexGo a [l] idx = none := by
  intro d
  induction d with
  | zero =>
    intro idx hd hclean
    rw [findReadTillLineSeparatorIndexGo_unfold, if_neg (by omega)]
  | succ d ih =>
    intro idx hd hclean
    rw [findReadTillLineSeparatorIndexGo_unfold]
    by_cases hlt : idx < a.length
    · rw [if_pos hlt,
        if_neg (by
          rw [jsPatMatchAt_single_iff]
          exact hclean idx (le_refl _) hlt)]
      exact ih (idx + 1) (by omega) (fun j hj1 hj2 => hclean j (by omega) hj2)
    · rw [if_neg hlt]

theorem frtls_go_found (a : Bytes) (l : Nat) :
    ∀ (d idx m : Nat), m - idx ≤ d → idx ≤ m → m < a.length →
    (∀ j, idx ≤ j → j < m → a.get? j ≠ some l) →
    a.get? m = some l →
    findReadTillLineSeparatorIndexGo a [l] idx = some m := by
  intro d
  induction d with
  | zero =>
    intro idx m hd h1 h2 hclean hat
    have : idx = m := by omega
    subst this
    rw [findReadTillLineSeparatorIndexGo_unfold, if_pos h2,
      if_pos (by rw [jsPatMatchAt_single_iff]; exact hat)]
  | succ d ih =>
    intro idx m hd h1 h2 hclean hat
    by_cases heq : idx = m
    · subst heq
      rw [findReadTillLineSeparatorIndexGo_unfold, if_pos h2,
        if_pos (by rw [jsPatMatchAt_single_iff]; exact hat)]
    · rw [findReadTillLineSeparatorIndexGo_unfold, if_pos (by omega),
        if_neg (by
          rw [jsPatMatchAt_single_iff]
          exact hclean idx (le_refl _) (by omega))]
      exact ih (idx + 1) m (by omega) (by omega) h2
        (fun j hj1 hj2 => hclean j (by omega) hj2) hat

theorem frtq_go_no_quote (a : Bytes) (limit : Nat) (q l : Nat) :
    ∀ (d idx lsF : Nat) (lastE : Int), limit - idx ≤ d → idx ≤ limit → limit ≤ a.length →
    (∀ j, idx ≤ j → j < limit → a.get? j ≠ some q) →
    (findReadTillIndexQuotedGo a limit [q] [l] idx lsF lastE).till = limit ∧
    (findReadTillIndexQuotedGo a limit [q] [l] idx lsF lastE).lineSeparatorsFound ≤
      lsF + (limit - idx) := by
  intro d
  induction d with
  | zero =>
    intro idx lsF lastE hd h1 h2 hclean
    have : idx = limit := by omega
    subst this
    rw [findReadTillIndexQuotedGo_unfold]
    by_cases hlt : idx < a.length
    · rw [if_pos hlt, if_pos (le_refl _)]
      exact ⟨rfl, by dsimp only; omega⟩
    · rw [if_neg hlt]
      exact ⟨rfl, by dsimp only; omega⟩
  | succ d ih =>
    intro idx lsF lastE hd h1 h2 hclean
    rw [findReadTillIndexQuotedGo_unfold]
    by_cases hlt : idx < a.length
    · rw [if_pos hlt]
      by_cases hge : idx ≥ limit
      · have heq : idx = limit := by omega
        rw [if_pos hge]
        exact ⟨rfl, by dsimp only; omega⟩
      · rw [if_neg hge,
          if_neg (by
            rw [jsPatMatchAt_single_iff]
            exact hclean idx (le_refl _) (by omega))]
        by_cases hls : jsPatMatchAt a [l] idx = true
        · rw [if_pos hls]
          have hrec := ih (idx + 1) (lsF + 1) ((idx : Int) + 1) (by omega)
            (by omega) h2 (fun j hj1 hj2 => hclean j (by omega) hj2)
          simp only [List.length_singleton, Nat.cast_one]
          exact ⟨hrec.1, by
            have := hrec.2
            omega⟩
        · rw [if_neg hls]
          have hrec := ih (idx + 1) lsF lastE (by omega) (by omega) h2
            (fun j hj1 hj2 => hclean j (by omega) hj2)
          exact ⟨hrec.1, by
            have := hrec.2
            omega⟩
    · rw [if_neg hlt]
      exact ⟨rfl, by dsimp only; omega⟩

theorem frtq_go_found (a : Bytes) (limit : Nat) (q l : Nat) :
    ∀ (d idx m lsF : Nat) (lastE : Int), m - idx ≤ d → idx ≤ m → m < limit →
    m < a.length →
    (∀ j, idx ≤ j → j < m → a.get? j ≠ some q) →
    a.get? m = some q →
    (findReadTillIndexQuotedGo a limit [q] [l] idx lsF lastE).till = m ∧
    (findReadTillIndexQuotedGo a limit [q] [l] idx lsF lastE).lineSeparatorsFound ≤
      lsF + (m - idx) := by
  intro d
  induction d with
  | zero =>
    intro idx m lsF lastE hd h1 h2 h3 hclean hat
    have : idx = m := by omega
    subst this
    rw [findReadTillIndexQuotedGo_unfold, if_pos h3, if_neg (by omega),
      if_pos (by rw [jsPatMatchAt_single_iff]; exact hat)]
    exact ⟨rfl, by dsimp only; omega⟩
  | succ d ih =>
    intro idx m lsF lastE hd h1 h2 h3 hclean hat
    by_cases heq : idx = m
    · subst heq
      rw [findReadTillIndexQuotedGo_unfold, if_pos h3, if_neg (by omega),
        if_pos (by rw [jsPatMatchAt_single_iff]; exact hat)]
      exact ⟨rfl, by dsimp only; omega⟩
    · rw [findReadTillIndexQuotedGo_unfold, if_pos (by omega), if_neg (by omega),
        if_neg (by
          rw [jsPatMatchAt_single_iff]
          exact hclean idx (le_refl _) (by omega))]
      by_cases hls : jsPatMatchAt a [l] idx = true
      · have hne : idx + 1 ≤ m := by omega
        rw [if_pos hls]
        have hrec := ih (idx + 1) m (lsF + 1) ((idx : Int) + 1) (by omega)
          hne h2 h3 (fun j hj1 hj2 => hclean j (by omega) hj2) hat
        simp only [List.length_singleton, Nat.cast_one]
        exact ⟨hrec.1, by
          have := hrec.2
          omega⟩
      · rw [if_neg hls]
        have hrec := ih (idx + 1) m lsF lastE (by omega) (by omega) h2 h3
          (fun j hj1 hj2 => hclean j (by omega) hj2) hat
        exact ⟨hrec.1, by
          have := hrec.2
          omega⟩

theorem wf_skipN {s : CSVReaderState} {n : Nat} (hwf : Wf s)
    (hn : n ≤ unprocessed s) : Wf (skipN s n) := by
  constructor
  · show s.inputBufferIndex + n ≤ s.inputBuffer.length
    unfold unprocessed at hn
    have := hwf.1
    omega
  · exact hwf.2

theorem remaining_skipN {s : CSVReaderState} {n : Nat} (hn : n ≤ unprocessed s) :
    remaining (skipN s n) = (remaining s).drop n := by
  unfold remaining loadedTail skipN
  simp only
  rw [List.drop_append_of_le_length (by
    rw [List.length_drop]
    unfold unprocessed at hn
    omega)]
  rw [List.drop_drop]

theorem wf_readCharsN {s : CSVReaderState} {n : Nat} (hwf : Wf s)
    (hn : n ≤ unprocessed s) : Wf (readCharsN s n) := by
  constructor
  · show s.inputBufferIndex + n ≤ s.inputBuffer.length
    unfold unprocessed at hn
    have := hwf.1
    omega
  · exact hwf.2

theorem remaining_readCharsN {s : CSVReaderState} {n : Nat}
    (hn : n ≤ unprocessed s) :
    remaining (readCharsN s n) = (remaining s).drop n := by
  unfold remaining loadedTail readCharsN
  simp only
  rw [List.drop_append_of_le_length (by
    rw [List.length_drop]
    unfold unprocessed at hn
    omega)]
  rw [List.drop_drop]

theorem columnData_readCharsN {s : CSVReaderState} {n : Nat}
    (hn : n ≤ unprocessed s) :
    (readCharsN s n).columnData = s.columnData ++ (remaining s).take n := by
  show s.columnData ++ (loadedTail s).take n = s.columnData ++ (remaining s).take n
  rw [prefix_take_eq (loadedTail_prefix_remaining s) (by
    rw [loadedTail_length]
    exact hn)]

theorem cleanBytes_tail {cs l q : Nat} {u : Bytes}
    (h : CleanBytes cs l q u) (n : Nat) : CleanBytes cs l q (u.drop n) := by
  intro b hb
  exact h b (List.mem_of_mem_drop hb)

theorem cleanBytes_get {cs l q : Nat} {u : Bytes} (h : CleanBytes cs l q u)
    {j : Nat} {x : Nat} (hj : u.get? j = some x) : x ≠ cs ∧ x ≠ l ∧ x ≠ q :=
  h x (List.get?_mem hj)

/-- Consuming the clean body of an unquoted cell: from a state inside an
unquoted column whose remaining input starts with delimiter-free bytes u
followed by a stopper (a delimiter byte or the end of input), the bulk body
read (and the refills, shrinks and expands interleaved with it) silently
moves exactly u into the column buffer. -/
theorem consume_cell {cfg : CSVReaderConfig} {cs l q : Nat}
    (hcseq : cfg.columnSeparator = [cs]) (hlseq : cfg.lineSeparator = [l])
    (hqeq : cfg.quote = [q]) (hlim : 1 ≤ cfg.inputBufferIndexLimit) :
    ∀ (d : Nat) (u rest : Bytes) (s : CSVReaderState), u.length ≤ d → Wf s →
    s.inColumn = true → s.inQuote = false →
    CleanBytes cs l q u →
    remaining s = u ++ rest →
    (rest = [] ∨ ∃ b, rest.get? 0 = some b ∧ (b = cs ∨ b = l ∨ b = q)) →
    ∃ s', RunTo cfg s [] s' ∧ Wf s' ∧
      s'.inColumn = true ∧ s'.inQuote = false ∧
      s'.columnData = s.columnData ++ u ∧
      remaining s' = rest ∧
      s'.emptyLine = s.emptyLine ∧
      s'.currentPos = s.currentPos + u.length ∧
      s'.linesProcessed = s.linesProcessed ∧
      s'.lastLineStartPos = s.lastLineStartPos := by
  intro d
  induction d with
  | zero =>
    intro u rest s hd hwf hic hiq hclean hrem hstop
    have hu : u = [] := List.length_eq_zero.mp (by omega)
    subst hu
    exact ⟨s, RunTo.refl, hwf, hic, hiq, by simp, by simpa using hrem, rfl, by simp, rfl, rfl⟩
  | succ d ih =>
    intro u rest s hd hwf hic hiq hclean hrem hstop
    cases u with
    | nil =>
      exact ⟨s, RunTo.refl, hwf, hic, hiq, by simp, by simpa using hrem, rfl, by simp, rfl, rfl⟩
    | cons b u2 =>
      obtain ⟨s1, hrun1, hwf1, hnorm1, hpeq⟩ := normalize cfg s hwf hlim
      obtain ⟨hprem, hpcd, hpic, hpiq, hpel, hpcp, hplp, hpll⟩ := hpeq
      have hic1 : s1.inColumn = true := by rw [hpic, hic]
      have hiq1 : s1.inQuote = false := by rw [hpiq, hiq]
      have hrem1 : remaining s1 = b :: (u2 ++ rest) := by
        rw [hprem, hrem]
        rfl
      have hup1 : 0 < unprocessed s1 :=
        unprocessed_pos_of_remaining_ne hwf1 hnorm1 (by rw [hrem1]; simp)
      have hb := hclean b (by simp)
      have hls1 : hasNextState s1 cfg.lineSeparator = false := by
        rw [hlseq]
        cases hv : hasNextState s1 [l] with
        | false => rfl
        | true =>
          have hg := (hasNext_single_iff hwf1 hnorm1 l).mp hv
          rw [hrem1] at hg
          simp only [List.get?_cons_zero, Option.some.injEq] at hg
          exact absurd hg hb.2.1
      have hcs1 : hasNextState s1 cfg.columnSeparator = false := by
        rw [hcseq]
        cases hv : hasNextState s1 [cs] with
        | false => rfl
        | true =>
          have hg := (hasNext_single_iff hwf1 hnorm1 cs).mp hv
          rw [hrem1] at hg
          simp only [List.get?_cons_zero, Option.some.injEq] at hg
          exact absurd hg hb.1
      have hend : ¬(unprocessed s1 = 0 ∨ hasNextState s1 cfg.lineSeparator = true ∨
          hasNextState s1 cfg.columnSeparator = true) := by
        intro h
        rcases h with h | h | h
        · omega
        · rw [hls1] at h
          cases h
        · rw [hcs1] at h
          cases h
      have hslicelen : (s1.inputBuffer.drop s1.inputBufferIndex).length = unprocessed s1 :=
        loadedTail_length s1
      have hslicepre : (s1.inputBuffer.drop s1.inputBufferIndex) <+: remaining s1 :=
        loadedTail_prefix_remaining s1
      have hsliceget : ∀ j, j < unprocessed s1 →
          (s1.inputBuffer.drop s1.inputBufferIndex).get? j = (remaining s1).get? j := by
        intro j hj
        exact prefix_get? hslicepre (by omega)
      by_cases hl1 : min (((s1.inputBuffer.drop s1.inputBufferIndex).length : Int) -
          (cfg.minPossibleBufferReserve : Int))
          ((s1.columnBufferLen : Int) - (s1.columnData.length : Int)) ≤ 1
      · have hstep : step cfg s1 = .next (readCharsN s1 1) [] := by
          rw [step_eq_stepMain hnorm1]
          exact stepMain_bulk_one hic1 hiq1 hend hup1 hl1
        obtain ⟨s', hrun', hwf', hc1, hc2, hc3, hc4, hc5, hc6, hc7, hc8⟩ :=
          ih u2 rest (readCharsN s1 1) (by simpa using Nat.le_of_succ_le_succ (by simpa using hd))
            (wf_readCharsN hwf1 (by omega))
            hic1 hiq1 (cleanBytes_tail (fun x hx => hclean x (List.mem_cons_of_mem b hx)) 0)
            (by
              rw [remaining_readCharsN (by omega), hrem1]
              rfl)
            hstop
        refine ⟨s', RunTo.trans hrun1 (RunTo.trans (runTo_silent hstep) hrun'), hwf',
          hc1, hc2, ?_, hc4, ?_, ?_, ?_, ?_⟩
        · rw [hc3, columnData_readCharsN (by omega), hpcd, hrem1]
          simp
        · rw [hc5]
          show (readCharsN s1 1).emptyLine = s.emptyLine
          rw [← hpel]
          rfl
        · rw [hc6]
          show (readCharsN s1 1).currentPos + u2.length = s.currentPos + (b :: u2).length
          show s1.currentPos + 1 + u2.length = s.currentPos + (b :: u2).length
          rw [hpcp]
          simp only [List.length_cons]
          omega
        · rw [hc7]
          rw [← hplp]
          rfl
        · rw [hc8]
          rw [← hpll]
          rfl
      · have hl2 : 1 < min (((s1.inputBuffer.drop s1.inputBufferIndex).length : Int) -
            (cfg.minPossibleBufferReserve : Int))
            ((s1.columnBufferLen : Int) - (s1.columnData.length : Int)) := by omega
        have hres1 : (cfg.minPossibleBufferReserve : Int) + 2 ≤
            ((s1.inputBuffer.drop s1.inputBufferIndex).length : Int) := by
          have h1 : (1 : Int) < ((s1.inputBuffer.drop s1.inputBufferIndex).length : Int) -
              (cfg.minPossibleBufferReserve : Int) := lt_of_lt_of_le hl2 (min_le_left _ _)
          omega
        have hlimN : (min (((s1.inputBuffer.drop s1.inputBufferIndex).length : Int) -
            (cfg.minPossibleBufferReserve : Int))
            ((s1.columnBufferLen : Int) - (s1.columnData.length : Int))).toNat =
            min (((s1.inputBuffer.drop s1.inputBufferIndex).length : Int) -
            (cfg.minPossibleBufferReserve : Int))
            ((s1.columnBufferLen : Int) - (s1.columnData.length : Int)) := by
          rw [Int.toNat_of_nonneg (by omega)]
        set limitN := (min (((s1.inputBuffer.drop s1.inputBufferIndex).length : Int) -
            (cfg.minPossibleBufferReserve : Int))
            ((s1.columnBufferLen : Int) - (s1.columnData.length : Int))).toNat with hlimdef
        have hln2 : 2 ≤ limitN := by omega
        have hlnlen : limitN + cfg.minPossibleBufferReserve ≤
            (s1.inputBuffer.drop s1.inputBufferIndex).length := by
          have h1 : (limitN : Int) ≤ ((s1.inputBuffer.drop s1.inputBufferIndex).length : Int) -
              (cfg.minPossibleBufferReserve : Int) := by
            rw [hlimN]
            exact min_le_left _ _
          omega
        have hresv := minReserve_pos cfg
        have hcleanSlice : ∀ j, j < (b :: u2).length → j < limitN →
            (s1.inputBuffer.drop s1.inputBufferIndex).get? j ≠ some l ∧
            (s1.inputBuffer.drop s1.inputBufferIndex).get? j ≠ some cs ∧
            (s1.inputBuffer.drop s1.inputBufferIndex).get? j ≠ some q := by
          intro j hj hj2
          have hjlt : j < unprocessed s1 := by omega
          have hget : (s1.inputBuffer.drop s1.inputBufferIndex).get? j =
              (b :: u2).get? j := by
            rw [hsliceget j hjlt, hrem1]
            show ((b :: u2) ++ rest).get? j = (b :: u2).get? j
            exact List.get?_append hj
          rcases hx : (b :: u2).get? j with _ | x
          · rw [List.get?_eq_none] at hx
            omega
          · have hcx := cleanBytes_get hclean hx
            rw [hget, hx]
            refine ⟨by simpa using hcx.2.1, by simpa using hcx.1, by simpa using hcx.2.2⟩
        by_cases hcase : (b :: u2).length < limitN
        · have hmlt : (b :: u2).length < (s1.inputBuffer.drop s1.inputBufferIndex).length := by
            omega
          have hgetm : (s1.inputBuffer.drop s1.inputBufferIndex).get? (b :: u2).length =
              rest.get? 0 := by
            rw [hsliceget _ (by omega), hrem1]
            show ((b :: u2) ++ rest).get? (b :: u2).length = rest.get? 0
            rw [List.get?_append_right (le_refl _)]
            simp
          obtain ⟨b0, hb0get, hb0⟩ : ∃ b0, rest.get? 0 = some b0 ∧
              (b0 = cs ∨ b0 = l ∨ b0 = q) := by
            rcases hstop with hre | hex
            · exfalso
              rw [hre] at hgetm
              simp only [List.get?_nil] at hgetm
              rw [List.get?_eq_none] at hgetm
              omega
            · exact hex
          have hat : (s1.inputBuffer.drop s1.inputBufferIndex).get? (b :: u2).length = some l ∨
              (s1.inputBuffer.drop s1.inputBufferIndex).get? (b :: u2).length = some cs ∨
              (s1.inputBuffer.drop s1.inputBufferIndex).get? (b :: u2).length = some q := by
            rw [hgetm, hb0get]
            rcases hb0 with h | h | h
            · right
              left
              rw [h]
            · left
              rw [h]
            · right
              right
              rw [h]
          have hscan := frt_go_found (s1.inputBuffer.drop s1.inputBufferIndex) limitN l cs q
            (b :: u2).length 0 (b :: u2).length (by omega) (by omega) hcase hmlt
            (fun j hj1 hj2 => hcleanSlice j hj2 (by omega)) hat
          have hr : findReadTillIndex (s1.inputBuffer.drop s1.inputBufferIndex) limitN
              cfg.lineSeparator cfg.columnSeparator cfg.quote =
              ((b :: u2).length,
                if (s1.inputBuffer.drop s1.inputBufferIndex).get? (b :: u2).length = some l
                then .LINE_SEPARATOR
                else if (s1.inputBuffer.drop s1.inputBufferIndex).get? (b :: u2).length = some cs
                then .COLUMN_SEPARATOR
                else .QUOTE) := by
            rw [hlseq, hcseq, hqeq]
            exact hscan
          have hstep : step cfg s1 = .next (readCharsN s1 (b :: u2).length) [] := by
            rw [step_eq_stepMain hnorm1]
            rw [stepMain_bulk_unquoted_ok hic1 hiq1 hend hup1 hl2 hr
              (by
                intro h
                exact absurd h.1 (by simp))]
            rw [if_pos (by simp)]
          refine ⟨readCharsN s1 (b :: u2).length,
            RunTo.trans hrun1 (runTo_silent hstep),
            wf_readCharsN hwf1 (by omega), hic1, hiq1, ?_, ?_, hpel, ?_, hplp, hpll⟩
          · rw [columnData_readCharsN (by omega), hpcd, hrem1]
            show s.columnData ++ ((b :: u2) ++ rest).take (b :: u2).length =
              s.columnData ++ (b :: u2)
            rw [List.take_left]
          · rw [remaining_readCharsN (by omega), hrem1]
            show ((b :: u2) ++ rest).drop (b :: u2).length = rest
            rw [List.drop_left]
          · show s1.currentPos + (b :: u2).length = s.currentPos + (b :: u2).length
            rw [hpcp]
        · have hcase2 : limitN ≤ (b :: u2).length := by omega
          have hscan := frt_go_no_match (s1.inputBuffer.drop s1.inputBufferIndex) limitN l cs q
            limitN 0 (by omega) (by omega) (by omega)
            (fun j hj1 hj2 => hcleanSlice j (by omega) hj2)
          have hr : findReadTillIndex (s1.inputBuffer.drop s1.inputBufferIndex) limitN
              cfg.lineSeparator cfg.columnSeparator cfg.quote = (limitN, .LIMIT) := by
            rw [hlseq, hcseq, hqeq]
            exact hscan
          have hstep : step cfg s1 = .next (readCharsN s1 limitN) [] := by
            rw [step_eq_stepMain hnorm1]
            rw [stepMain_bulk_unquoted_ok hic1 hiq1 hend hup1 hl2 hr
              (by
                intro h
                omega)]
            rw [if_pos (by omega)]
          obtain ⟨s', hrun', hwf', hc1, hc2, hc3, hc4, hc5, hc6, hc7, hc8⟩ :=
            ih ((b :: u2).drop limitN) rest (readCharsN s1 limitN)
              (by
                simp only [List.length_drop, List.length_cons] at hd ⊢
                omega)
              (wf_readCharsN hwf1 (by omega))
              hic1 hiq1 (cleanBytes_tail hclean limitN)
              (by
                rw [remaining_readCharsN (by omega), hrem1]
                show ((b :: u2) ++ rest).drop limitN = (b :: u2).drop limitN ++ rest
                rw [List.drop_append_of_le_length hcase2])
              hstop
          refine ⟨s', RunTo.trans hrun1 (RunTo.trans (runTo_silent hstep) hrun'), hwf',
            hc1, hc2, ?_, hc4, ?_, ?_, ?_, ?_⟩
          · rw [hc3, columnData_readCharsN (by omega), hpcd, hrem1]
            show s.columnData ++ ((b :: u2) ++ rest).take limitN ++ (b :: u2).drop limitN =
              s.columnData ++ (b :: u2)
            rw [List.take_append_of_le_length hcase2, List.append_assoc,
              List.take_append_drop]
          · rw [hc5]
            show s1.emptyLine = s.emptyLine
            exact hpel
          · rw [hc6]
            show s1.currentPos + limitN + ((b :: u2).drop limitN).length =
              s.currentPos + (b :: u2).length
            rw [hpcp]
            simp only [List.length_drop]
            omega
          · rw [hc7]
            exact hplp
          · rw [hc8]
            exact hpll

theorem bom_guard {s : CSVReaderState}
    (hbom : s.currentPos = 0 → utfBom.isPrefixOf (remaining s) = false) :
    ¬(s.currentPos = 0 ∧ hasNextState s utfBom = true) := by
  intro h
  have h2 := hbom h.1
  have h3 := (hasNextState_iff s utfBom).mp h.2
  have h4 : utfBom <+: remaining s := h3.trans (loadedTail_prefix_remaining s)
  rw [← List.isPrefixOf_iff_prefix] at h4
  rw [h2] at h4
  cases h4

theorem unprocessed_zero_of_remaining_nil {s : CSVReaderState}
    (h : remaining s = []) : unprocessed s = 0 := by
  have hp := loadedTail_prefix_remaining s
  rw [h] at hp
  have hnil := List.prefix_nil.mp hp
  have h2 := loadedTail_length s
  rw [hnil] at h2
  simpa using h2.symm

theorem hasNext_single_false {cfg : CSVReaderConfig} {s : CSVReaderState}
    (hwf : Wf s) (hn : Normal cfg s) {x b : Nat}
    (hhead : (remaining s).get? 0 = some b) (hne : b ≠ x) :
    hasNextState s [x] = false := by
  cases hv : hasNextState s [x] with
  | false => rfl
  | true =>
    have hg := (hasNext_single_iff hwf hn x).mp hv
    rw [hhead] at hg
    injection hg with hg2
    exact absurd hg2 hne

theorem hasNext_single_true {cfg : CSVReaderConfig} {s : CSVReaderState}
    (hwf : Wf s) (hn : Normal cfg s) {x : Nat}
    (hhead : (remaining s).get? 0 = some x) :
    hasNextState s [x] = true :=
  (hasNext_single_iff hwf hn x).mpr hhead

/-- Parsing one unquoted nonempty cell at the start of a column: the column
start rule, the bulk body reads, and the column end rule silently assemble
exactly the cell bytes into the column buffer. -/
theorem consume_first_cell {cfg : CSVReaderConfig} {cs l q : Nat}
    (hcseq : cfg.columnSeparator = [cs]) (hlseq : cfg.lineSeparator = [l])
    (hqeq : cfg.quote = [q]) (hlim : 1 ≤ cfg.inputBufferIndexLimit)
    (c rest2 : Bytes) (s : CSVReaderState) (hwf : Wf s)
    (hic : s.inColumn = false) (hiq : s.inQuote = false)
    (hcd : s.columnData = [])
    (hcne : c ≠ [])
    (hclean : CleanBytes cs l q c)
    (hrem : remaining s = c ++ rest2)
    (hstop : rest2 = [] ∨ rest2.get? 0 = some cs ∨ rest2.get? 0 = some l)
    (hfrom : cfg.fromLine ≤ s.linesProcessed)
    (hto : s.linesProcessed < cfg.toLine)
    (hbom : s.currentPos = 0 → utfBom.isPrefixOf (remaining s) = false) :
    ∃ s', RunTo cfg s [] s' ∧ Wf s' ∧
      s'.inColumn = false ∧ s'.inQuote = false ∧
      s'.columnData = c ∧ s'.emptyLine = false ∧
      remaining s' = rest2 ∧
      s'.currentPos = s.currentPos + c.length ∧
      s'.linesProcessed = s.linesProcessed ∧
      s'.lastLineStartPos = s.lastLineStartPos := by
  obtain ⟨s1, hrun1, hwf1, hnorm1, hprem, hpcd, hpic, hpiq, hpel, hpcp, hplp, hpll⟩ :=
    normalize cfg s hwf hlim
  obtain ⟨b, cb, rfl⟩ : ∃ b cb, c = b :: cb := by
    cases c with
    | nil => exact absurd rfl hcne
    | cons b cb => exact ⟨b, cb, rfl⟩
  have hb := hclean b (by simp)
  have hrem1 : remaining s1 = b :: (cb ++ rest2) := by
    rw [hprem, hrem]
    rfl
  have hhead1 : (remaining s1).get? 0 = some b := by
    rw [hrem1]
    rfl
  have hup1 : 0 < unprocessed s1 :=
    unprocessed_pos_of_remaining_ne hwf1 hnorm1 (by rw [hrem1]; simp)
  have hic1 : s1.inColumn = false := by rw [hpic, hic]
  have hiq1 : s1.inQuote = false := by rw [hpiq, hiq]
  have hls1 : hasNextState s1 cfg.lineSeparator = false := by
    rw [hlseq]
    exact hasNext_single_false hwf1 hnorm1 hhead1 hb.2.1
  have hcs1 : hasNextState s1 cfg.columnSeparator = false := by
    rw [hcseq]
    exact hasNext_single_false hwf1 hnorm1 hhead1 hb.1
  have hq1 : hasNextState { s1 with inColumn := true, emptyLine := false } cfg.quote = false := by
    show hasNextState s1 cfg.quote = false
    rw [hqeq]
    exact hasNext_single_false hwf1 hnorm1 hhead1 hb.2.2
  have hbom1 : ¬(s1.currentPos = 0 ∧ hasNextState s1 utfBom = true) := by
    apply bom_guard
    intro h0
    rw [hprem]
    exact hbom (by rw [← hpcp]; exact h0)
  have hstep1 : step cfg s1 = .next { s1 with inColumn := true, emptyLine := false } [] := by
    rw [step_eq_stepMain hnorm1]
    exact stepMain_startCol_plain hic1 (by rw [hplp]; omega) (by rw [hplp]; omega)
      hbom1 (by omega) hls1 hcs1 hq1
  have hwf2 : Wf { s1 with inColumn := true, emptyLine := false } := ⟨hwf1.1, hwf1.2⟩
  obtain ⟨s3, hrun3, hwf3, hq3ic, hq3iq, hq3cd, hq3rem, hq3el, hq3cp, hq3lp, hq3ll⟩ :=
    consume_cell hcseq hlseq hqeq hlim (b :: cb).length (b :: cb) rest2
      { s1 with inColumn := true, emptyLine := false } (le_refl _) hwf2 rfl
      (by show s1.inQuote = false; exact hiq1) hclean
      (by show remaining s1 = (b :: cb) ++ rest2; rw [hrem1]; rfl)
      (by
        rcases hstop with h | h | h
        · exact Or.inl h
        · exact Or.inr ⟨cs, h, Or.inl rfl⟩
        · exact Or.inr ⟨l, h, Or.inr (Or.inl rfl)⟩)
  obtain ⟨s4, hrun4, hwf4, hnorm4, hqrem, hqcd, hqic, hqiq, hqel, hqcp, hqlp, hqll⟩ :=
    normalize cfg s3 hwf3 hlim
  have hend4 : unprocessed s4 = 0 ∨ hasNextState s4 cfg.lineSeparator = true ∨
      hasNextState s4 cfg.columnSeparator = true := by
    rcases hstop with h | h | h
    · left
      apply unprocessed_zero_of_remaining_nil
      rw [hqrem, hq3rem, h]
    · right
      right
      rw [hcseq]
      exact hasNext_single_true hwf4 hnorm4 (by rw [hqrem, hq3rem]; exact h)
    · right
      left
      rw [hlseq]
      exact hasNext_single_true hwf4 hnorm4 (by rw [hqrem, hq3rem]; exact h)
  have hstep4 : step cfg s4 = .next { s4 with inColumn := false } [] := by
    rw [step_eq_stepMain hnorm4]
    exact stepMain_endUnquoted (by rw [hqic, hq3ic]) (by rw [hqiq, hq3iq]) hend4
  refine ⟨{ s4 with inColumn := false }, ?_, ⟨hwf4.1, hwf4.2⟩, rfl,
    ?_, ?_, ?_, ?_, ?_, ?_, ?_⟩
  · have hall := RunTo.trans hrun1 (RunTo.trans (runTo_silent hstep1)
      (RunTo.trans hrun3 (RunTo.trans hrun4 (runTo_silent hstep4))))
    simpa using hall
  · show s4.inQuote = false
    rw [hqiq, hq3iq]
  · show s4.columnData = b :: cb
    rw [hqcd, hq3cd]
    show s1.columnData ++ (b :: cb) = b :: cb
    rw [hpcd, hcd]
    rfl
  · show s4.emptyLine = false
    rw [hqel, hq3el]
  · show remaining s4 = rest2
    rw [hqrem, hq3rem]
  · show s4.currentPos = s.currentPos + (b :: cb).length
    rw [hqcp, hq3cp]
    show s1.currentPos + (b :: cb).length = s.currentPos + (b :: cb).length
    rw [hpcp]
  · show s4.linesProcessed = s.linesProcessed
    rw [hqlp, hq3lp]
    show s1.linesProcessed = s.linesProcessed
    rw [hplp]
  · show s4.lastLineStartPos = s.lastLineStartPos
    rw [hqll, hq3ll]
    show s1.lastLineStartPos = s.lastLineStartPos
    rw [hpll]

/-- Parsing all cells of one quote-free line: each inner cell is consumed and
emitted by the column separator rule, and the last cell is left assembled in
the column buffer with the line separator or end of input pending. -/
theorem parse_cells {cfg : CSVReaderConfig} {cs l q : Nat}
    (hcseq : cfg.columnSeparator = [cs]) (hlseq : cfg.lineSeparator = [l])
    (hqeq : cfg.quote = [q]) (hlim : 1 ≤ cfg.inputBufferIndexLimit)
    (hne1 : cs ≠ l) :
    ∀ (cells : List Bytes) (rest : Bytes) (s : CSVReaderState), Wf s →
    s.inColumn = false → s.inQuote = false → s.columnData = [] →
    (∀ c ∈ cells, CleanBytes cs l q c) →
    remaining s = encodeRow cs cells ++ rest →
    (rest = [] ∨ rest.get? 0 = some l) →
    cells ≠ [] →
    (s.emptyLine = false ∨ encodeRow cs cells ≠ []) →
    cfg.fromLine ≤ s.linesProcessed →
    s.linesProcessed < cfg.toLine →
    (s.currentPos = 0 → utfBom.isPrefixOf (remaining s) = false) →
    ∃ s', RunTo cfg s ((cells.dropLast).map CSVEvent.cell) s' ∧ Wf s' ∧
      s'.inColumn = false ∧ s'.inQuote = false ∧
      cells.getLast? = some s'.columnData ∧
      (s'.emptyLine = false ∨ (cells = [[]] ∧ s'.emptyLine = s.emptyLine)) ∧
      remaining s' = rest ∧
      s'.currentPos = s.currentPos + (encodeRow cs cells).length ∧
      s'.linesProcessed = s.linesProcessed ∧
      s'.lastLineStartPos = s.lastLineStartPos := by
  intro cells
  induction cells with
  | nil =>
    intro rest s _ _ _ _ _ _ _ hnil
    exact absurd rfl hnil
  | cons c tail ih =>
    intro rest s hwf hic hiq hcd hclean hrem hstop _ hEL hfrom hto hbom
    cases tail with
    | nil =>
      cases c with
      | nil =>
        refine ⟨s, RunTo.refl, hwf, hic, hiq, ?_, Or.inr ⟨rfl, rfl⟩, ?_, ?_, rfl, rfl⟩
        · simp [hcd]
        · simpa [encodeRow] using hrem
        · simp [encodeRow]
      | cons b cb =>
        obtain ⟨s3, hrun3, hwf3, h3ic, h3iq, h3cd, h3el, h3rem, h3cp, h3lp, h3ll⟩ :=
          consume_first_cell hcseq hlseq hqeq hlim (b :: cb) rest s hwf hic hiq hcd
            (by simp) (hclean (b :: cb) (by simp)) hrem
            (by
              rcases hstop with h | h
              · exact Or.inl h
              · exact Or.inr (Or.inr h))
            hfrom hto hbom
        exact ⟨s3, hrun3, hwf3, h3ic, h3iq, by simp [h3cd], Or.inl h3el, h3rem,
          h3cp, h3lp, h3ll⟩
    | cons c2 cs3 =>
      have hmid : ∃ sm, RunTo cfg s [] sm ∧ Wf sm ∧ Normal cfg sm ∧
          sm.inColumn = false ∧ sm.inQuote = false ∧ sm.columnData = c ∧
          remaining sm = cs :: (encodeRow cs (c2 :: cs3) ++ rest) ∧
          sm.currentPos = s.currentPos + c.length ∧
          sm.linesProcessed = s.linesProcessed ∧
          sm.lastLineStartPos = s.lastLineStartPos ∧
          ¬(sm.currentPos = 0 ∧ hasNextState sm utfBom = true) := by
        cases c with
        | nil =>
          obtain ⟨s1, hrun1, hwf1, hnorm1, hprem, hpcd, hpic, hpiq, hpel, hpcp,
            hplp, hpll⟩ := normalize cfg s hwf hlim
          refine ⟨s1, hrun1, hwf1, hnorm1, by rw [hpic, hic], by rw [hpiq, hiq],
            by rw [hpcd, hcd], ?_, hpcp, hplp, hpll, ?_⟩
          · rw [hprem, hrem]
            rfl
          · apply bom_guard
            intro h0
            rw [hprem]
            exact hbom (by rw [← hpcp]; exact h0)
        | cons b cb =>
          obtain ⟨s3, hrun3, hwf3, h3ic, h3iq, h3cd, _, h3rem, h3cp, h3lp, h3ll⟩ :=
            consume_first_cell hcseq hlseq hqeq hlim (b :: cb)
              (cs :: (encodeRow cs (c2 :: cs3) ++ rest)) s hwf hic hiq hcd
              (by simp) (hclean (b :: cb) (by simp))
              (by rw [hrem]; simp [encodeRow])
              (Or.inr (Or.inl rfl)) hfrom hto hbom
          obtain ⟨s4, hrun4, hwf4, hnorm4, hqrem, hqcd, hqic, hqiq, _, hqcp,
            hqlp, hqll⟩ := normalize cfg s3 hwf3 hlim
          refine ⟨s4, RunTo.trans hrun3 hrun4, hwf4, hnorm4, by rw [hqic, h3ic],
            by rw [hqiq, h3iq], by rw [hqcd, h3cd], by rw [hqrem, h3rem],
            by rw [hqcp, h3cp], by rw [hqlp, h3lp], by rw [hqll, h3ll], ?_⟩
          intro h0
          have h1 := h0.1
          rw [hqcp, h3cp] at h1
          simp only [List.length_cons] at h1
          omega
      obtain ⟨sm, hrunm, hwfm, hnsm, hicm, hiqm, hcdm, hremm, hcpm, hlpm, hllm,
        hbomG⟩ := hmid
      have hheadm : (remaining sm).get? 0 = some cs := by
        rw [hremm]
        rfl
      have hupm : 0 < unprocessed sm :=
        unprocessed_pos_of_remaining_ne hwfm hnsm (by rw [hremm]; simp)
      have hlsm : hasNextState sm cfg.lineSeparator = false := by
        rw [hlseq]
        exact hasNext_single_false hwfm hnsm hheadm hne1
      have hcsm : hasNextState sm cfg.columnSeparator = true := by
        rw [hcseq]
        exact hasNext_single_true hwfm hnsm hheadm
      have hstep9 : step cfg sm =
          .next (skipN { sm with emptyLine := false, columnData := [] } 1)
            [.cell c] := by
        rw [step_eq_stepMain hnsm]
        have h9 := stepMain_colSep hicm (by rw [hlpm]; exact hfrom)
          (by rw [hlpm]; exact hto) hbomG (by omega) hlsm hcsm
        rw [hcseq, hcdm] at h9
        simpa using h9
      have hwfn : Wf (skipN { sm with emptyLine := false, columnData := [] } 1) :=
        wf_skipN ⟨hwfm.1, hwfm.2⟩ (by show 1 ≤ unprocessed sm; omega)
      have hremn : remaining (skipN { sm with emptyLine := false, columnData := [] } 1) =
          encodeRow cs (c2 :: cs3) ++ rest := by
        rw [remaining_skipN (by show 1 ≤ unprocessed sm; omega)]
        show (remaining sm).drop 1 = encodeRow cs (c2 :: cs3) ++ rest
        simp [hremm]
      obtain ⟨s', hrun', hwf', hic', hiq', hcd', hel', hrem', hcp', hlp', hll'⟩ :=
        ih rest (skipN { sm with emptyLine := false, columnData := [] } 1) hwfn
          (by show sm.inColumn = false; exact hicm)
          (by show sm.inQuote = false; exact hiqm) rfl
          (by
            intro x hx
            exact hclean x (List.mem_cons_of_mem c hx))
          hremn hstop (by simp) (Or.inl rfl)
          (by show cfg.fromLine ≤ sm.linesProcessed; rw [hlpm]; exact hfrom)
          (by show sm.linesProcessed < cfg.toLine; rw [hlpm]; exact hto)
          (by
            intro h0
            have h1 : sm.currentPos + 1 = 0 := h0
            exact absurd h1 (by omega))
      have helx : s'.emptyLine = false ∨
          ((c :: c2 :: cs3 : List Bytes) = [[]] ∧ s'.emptyLine = s.emptyLine) := by
        rcases hel' with h | h
        · exact Or.inl h
        · exact Or.inl h.2
      refine ⟨s', ?_, hwf', hic', hiq', ?_, helx, hrem', ?_, ?_, ?_⟩
      · have hall := RunTo.trans hrunm (RunTo.trans (runTo_single hstep9) hrun')
        simpa using hall
      · rw [List.getLast?_cons_cons]
        exact hcd'
      · rw [hcp']
        have h1 : (skipN { sm with emptyLine := false, columnData := [] } 1).currentPos
            = sm.currentPos + 1 := rfl
        rw [h1, hcpm]
        simp only [encodeRow, List.length_append, List.length_cons]
        omega
      · rw [hlp']
        show sm.linesProcessed = s.linesProcessed
        exact hlpm
      · rw [hll']
        show sm.lastLineStartPos = s.lastLineStartPos
        exact hllm

theorem splitB_ne_nil (b : Nat) : ∀ u : Bytes, splitB b u ≠ [] := by
  intro u
  induction u with
  | nil => simp [splitB]
  | cons x xs ih =>
    rw [splitB]
    by_cases hx : x = b
    · simp [hx]
    · rw [if_neg hx]
      cases h : splitB b xs with
      | nil => simp
      | cons r rs => simp

theorem encodeRow_splitB (b : Nat) : ∀ u : Bytes, encodeRow b (splitB b u) = u := by
  intro u
  induction u with
  | nil => rfl
  | cons x xs ih =>
    rw [splitB]
    by_cases hx : x = b
    · rw [if_pos hx]
      cases h : splitB b xs with
      | nil => exact absurd h (splitB_ne_nil b xs)
      | cons r rs =>
        show ([] : Bytes) ++ b :: encodeRow b (r :: rs) = x :: xs
        rw [← h, ih, hx]
        rfl
    · rw [if_neg hx]
      cases h : splitB b xs with
      | nil => exact absurd h (splitB_ne_nil b xs)
      | cons r rs =>
        cases rs with
        | nil =>
          show x :: r = x :: xs
          rw [h] at ih
          show x :: r = x :: xs
          rw [← ih]
          rfl
        | cons r2 rs2 =>
          show (x :: r) ++ b :: encodeRow b (r2 :: rs2) = x :: xs
          rw [h] at ih
          rw [← ih]
          rfl

theorem splitB_clean {b l q : Nat} {u : Bytes}
    (h : ∀ x ∈ u, x ≠ l ∧ x ≠ q) :
    ∀ c ∈ splitB b u, CleanBytes b l q c := by
  induction u with
  | nil =>
    intro c hc
    rw [splitB] at hc
    simp at hc
    intro y hy
    rw [hc] at hy
    cases hy
  | cons x xs ih =>
    have hxs : ∀ x ∈ xs, x ≠ l ∧ x ≠ q := by
      intro y hy
      exact h y (List.mem_cons_of_mem x hy)
    intro c hc
    rw [splitB] at hc
    by_cases hx : x = b
    · rw [if_pos hx] at hc
      rcases List.mem_cons.mp hc with h1 | h1
      · intro y hy
        rw [h1] at hy
        cases hy
      · exact ih hxs c h1
    · rw [if_neg hx] at hc
      cases hsp : splitB b xs with
      | nil => exact absurd hsp (splitB_ne_nil b xs)
      | cons r rs =>
        rw [hsp] at hc
        rcases List.mem_cons.mp hc with h1 | h1
        · intro y hy
          rw [h1] at hy
          rcases List.mem_cons.mp hy with h2 | h2
          · have hx2 := h x (by simp)
            exact ⟨by rw [h2]; exact hx, by rw [h2]; exact hx2.1,
              by rw [h2]; exact hx2.2⟩
          · have hr : r ∈ splitB b xs := by
              rw [hsp]
              simp
            exact ih hxs r hr y h2
        · have hr : c ∈ splitB b xs := by
            rw [hsp]
            exact List.mem_cons_of_mem r h1
          exact ih hxs c hr

theorem splitB_ne_blank {b : Nat} {u : Bytes} (h : u ≠ []) :
    splitB b u ≠ [[]] := by
  intro hc
  have he := encodeRow_splitB b u
  rw [hc] at he
  apply h
  rw [← he]
  rfl

theorem dropLast_append_of_getLast {α : Type} :
    ∀ (xs : List α) (x : α), xs.getLast? = some x → xs.dropLast ++ [x] = xs := by
  intro xs
  induction xs with
  | nil =>
    intro x hx
    cases hx
  | cons a as ih =>
    intro x hx
    cases as with
    | nil =>
      simp at hx
      rw [hx]
      rfl
    | cons a2 as2 =>
      rw [List.getLast?_cons_cons] at hx
      have := ih x hx
      show a :: ((a2 :: as2).dropLast ++ [x]) = a :: a2 :: as2
      rw [this]

theorem map_dropLast_getLast {α β : Type} (f : α → β) (xs : List α) (x : α)
    (h : xs.getLast? = some x) : xs.dropLast.map f ++ [f x] = xs.map f := by
  have h2 := congrArg (List.map f) (dropLast_append_of_getLast xs x h)
  rw [List.map_append] at h2
  simpa using h2

/-- Once linesProcessed has reached toLine, the reader halts at the next row
boundary with only the end-of-stream callback. -/
theorem toLine_halt {cfg : CSVReaderConfig} (hlim : 1 ≤ cfg.inputBufferIndexLimit)
    {s : CSVReaderState} (hwf : Wf s) (hic : s.inColumn = false)
    (hfrom : cfg.fromLine ≤ s.linesProcessed)
    (hto : cfg.toLine ≤ s.linesProcessed) :
    ∃ s', Run cfg s [CSVEvent.endOfStream] s' := by
  obtain ⟨s1, hrun1, hwf1, hnorm1, _, _, hpic, _, _, _, hplp, _⟩ :=
    normalize cfg s hwf hlim
  have hstep : step cfg s1 = .halt s1 [.endOfStream] := by
    rw [step_eq_stepMain hnorm1]
    exact stepMain_toLine (by rw [hpic, hic]) (by rw [hplp]; exact hfrom)
      (by rw [hplp]; exact hto)
  have hall := RunTo.run hrun1 (Run.halt hstep)
  exact ⟨s1, by simpa using hall⟩

/-- Parsing a quote-free tail of the input line by line from a row boundary:
the reader emits exactly the canonical event stream, skipping blank lines,
emitting cell and row callbacks for the others, and stopping at toLine or at
the end of the input. -/
theorem parse_lines {cfg : CSVReaderConfig} {cs l q : Nat}
    (hcseq : cfg.columnSeparator = [cs]) (hlseq : cfg.lineSeparator = [l])
    (hqeq : cfg.quote = [q]) (hlim : 1 ≤ cfg.inputBufferIndexLimit)
    (hne1 : cs ≠ l) :
    ∀ (lines : List Bytes) (s : CSVReaderState), Wf s →
    s.inColumn = false → s.inQuote = false → s.columnData = [] →
    s.emptyLine = true →
    (∀ line ∈ lines, ∀ x ∈ line, x ≠ l ∧ x ≠ q) →
    remaining s = interLines l lines →
    lines ≠ [] →
    cfg.fromLine ≤ s.linesProcessed →
    (s.currentPos = 0 → utfBom.isPrefixOf (remaining s) = false) →
    ∃ s', Run cfg s (canonicalGo cs cfg.toLine s.linesProcessed lines) s' := by
  intro lines
  induction lines with
  | nil =>
    intro s _ _ _ _ _ _ _ hnil
    exact absurd rfl hnil
  | cons line tail ih =>
    intro s hwf hic hiq hcd hel hclean hrem _ hfrom hbom
    cases tail with
    | nil =>
      by_cases ht : cfg.toLine ≤ s.linesProcessed
      · obtain ⟨sf, hr⟩ := toLine_halt hlim hwf hic hfrom ht
        refine ⟨sf, ?_⟩
        have hev : canonicalGo cs cfg.toLine s.linesProcessed [line]
            = [CSVEvent.endOfStream] := by
          simp only [canonicalGo]
          rw [if_pos ht]
        rw [hev]
        exact hr
      · by_cases hline : line = []
        · subst hline
          obtain ⟨s1, hrun1, hwf1, hnorm1, hprem, _, hpic, _, hpel, hpcp, hplp, _⟩ :=
            normalize cfg s hwf hlim
          have hup0 : unprocessed s1 = 0 := by
            apply unprocessed_zero_of_remaining_nil
            rw [hprem, hrem]
            rfl
          have hbomG : ¬(s1.currentPos = 0 ∧ hasNextState s1 utfBom = true) := by
            apply bom_guard
            intro h0
            rw [hprem]
            exact hbom (by rw [← hpcp]; exact h0)
          have hstep : step cfg s1 = .halt s1 [.endOfStream] := by
            rw [step_eq_stepMain hnorm1]
            exact stepMain_eof_blank (by rw [hpic, hic]) (by rw [hplp]; exact hfrom)
              (by rw [hplp]; omega) hbomG hup0 (by rw [hpel, hel])
          have hall := RunTo.run hrun1 (Run.halt hstep)
          refine ⟨s1, ?_⟩
          have hev : canonicalGo cs cfg.toLine s.linesProcessed [([] : Bytes)]
              = [CSVEvent.endOfStream] := by
            simp [canonicalGo, ht]
          rw [hev]
          simpa using hall
        · obtain ⟨s1, hrun1, hwf1, h1ic, h1iq, h1cd, h1el, h1rem, h1cp, h1lp, h1ll⟩ :=
            parse_cells hcseq hlseq hqeq hlim hne1 (splitB cs line) [] s hwf hic hiq
              hcd (splitB_clean (hclean line (by simp)))
              (by
                rw [hrem, encodeRow_splitB, List.append_nil]
                rfl)
              (Or.inl rfl) (splitB_ne_nil cs line)
              (Or.inr (by rw [encodeRow_splitB]; exact hline)) hfrom (by omega) hbom
          have h1elf : s1.emptyLine = false := by
            rcases h1el with h | h
            · exact h
            · exact absurd h.1 (splitB_ne_blank hline)
          obtain ⟨s2, hrun2, hwf2, hnorm2, hqrem, hqcd, hqic, hqiq, hqel, hqcp,
            hqlp, hqll⟩ := normalize cfg s1 hwf1 hlim
          have hup0 : unprocessed s2 = 0 := by
            apply unprocessed_zero_of_remaining_nil
            rw [hqrem, h1rem]
          have hlen : line.length ≠ 0 := by
            intro h0
            exact hline (List.length_eq_zero.mp h0)
          have hbomG : ¬(s2.currentPos = 0 ∧ hasNextState s2 utfBom = true) := by
            intro h0
            have h1 := h0.1
            rw [hqcp, h1cp, encodeRow_splitB] at h1
            omega
          have hstep : step cfg s2 = .halt { s2 with columnData := [] }
              [.cell s1.columnData, .rowEnd, .endOfStream] := by
            rw [step_eq_stepMain hnorm2]
            have h7 := stepMain_eof_row (by rw [hqic, h1ic])
              (by rw [hqlp, h1lp]; exact hfrom) (by rw [hqlp, h1lp]; omega)
              hbomG hup0 (by rw [hqel, h1elf])
            rw [hqcd] at h7
            exact h7
          have hmap := map_dropLast_getLast CSVEvent.cell (splitB cs line)
            s1.columnData h1cd
          have hall := RunTo.run hrun1 (RunTo.run hrun2 (Run.halt hstep))
          refine ⟨{ s2 with columnData := [] }, ?_⟩
          have hev : canonicalGo cs cfg.toLine s.linesProcessed [line]
              = rowEventsOf (splitB cs line) ++ [CSVEvent.endOfStream] := by
            simp only [canonicalGo]
            rw [if_neg ht, if_neg hline]
          rw [hev]
          rw [rowEventsOf, ← hmap]
          simpa using hall
    | cons l2 rest =>
      by_cases ht : cfg.toLine ≤ s.linesProcessed
      · obtain ⟨sf, hr⟩ := toLine_halt hlim hwf hic hfrom ht
        refine ⟨sf, ?_⟩
        have hev : canonicalGo cs cfg.toLine s.linesProcessed (line :: l2 :: rest)
            = [CSVEvent.endOfStream] := by
          simp only [canonicalGo]
          rw [if_pos ht]
        rw [hev]
        exact hr
      · by_cases hline : line = []
        · subst hline
          obtain ⟨s1, hrun1, hwf1, hnorm1, hprem, hpcd, hpic, hpiq, hpel, hpcp,
            hplp, hpll⟩ := normalize cfg s hwf hlim
          have hrem1 : remaining s1 = l :: interLines l (l2 :: rest) := by
            rw [hprem, hrem]
            rfl
          have hhead1 : (remaining s1).get? 0 = some l := by
            rw [hrem1]
            rfl
          have hup1 : 0 < unprocessed s1 :=
            unprocessed_pos_of_remaining_ne hwf1 hnorm1 (by rw [hrem1]; simp)
          have hls1 : hasNextState s1 cfg.lineSeparator = true := by
            rw [hlseq]
            exact hasNext_single_true hwf1 hnorm1 hhead1
          have hbomG : ¬(s1.currentPos = 0 ∧ hasNextState s1 utfBom = true) := by
            apply bom_guard
            intro h0
            rw [hprem]
            exact hbom (by rw [← hpcp]; exact h0)
          have hstep : step cfg s1 = .next
              { skipN s1 1 with
                linesProcessed := s1.linesProcessed + 1
                lastLineStartPos := s1.currentPos + 1
                emptyLine := true } [] := by
            rw [step_eq_stepMain hnorm1]
            have h8 := stepMain_lineSep_blank (by rw [hpic, hic])
              (by rw [hplp]; exact hfrom) (by rw [hplp]; omega) hbomG
              (by omega) hls1 (by rw [hpel, hel])
            rw [hlseq] at h8
            exact h8
          have hwfB0 : Wf (skipN s1 1) :=
            wf_skipN hwf1 (by omega)
          obtain ⟨s', hrun'⟩ :=
            ih
              { skipN s1 1 with
                linesProcessed := s1.linesProcessed + 1
                lastLineStartPos := s1.currentPos + 1
                emptyLine := true }
              ⟨hwfB0.1, hwfB0.2⟩
              (by show s1.inColumn = false; rw [hpic, hic])
              (by show s1.inQuote = false; rw [hpiq, hiq])
              (by show s1.columnData = []; rw [hpcd, hcd])
              rfl
              (by
                intro y hy
                exact hclean y (List.mem_cons_of_mem [] hy))
              (by
                show remaining (skipN s1 1) = interLines l (l2 :: rest)
                rw [remaining_skipN (by omega)]
                rw [hrem1]
                rfl)
              (by simp)
              (by
                show cfg.fromLine ≤ s1.linesProcessed + 1
                rw [hplp]
                omega)
              (by
                intro h0
                have h1 : s1.currentPos + 1 = 0 := h0
                exact absurd h1 (by omega))
          have hlpB : ({ skipN s1 1 with
                linesProcessed := s1.linesProcessed + 1
                lastLineStartPos := s1.currentPos + 1
                emptyLine := true } : CSVReaderState).linesProcessed
              = s.linesProcessed + 1 := by
            show s1.linesProcessed + 1 = s.linesProcessed + 1
            rw [hplp]
          rw [hlpB] at hrun'
          have hall := RunTo.run hrun1 (Run.next hstep hrun')
          refine ⟨s', ?_⟩
          have hev : canonicalGo cs cfg.toLine s.linesProcessed
              (([] : Bytes) :: l2 :: rest)
              = canonicalGo cs cfg.toLine (s.linesProcessed + 1) (l2 :: rest) := by
            simp [canonicalGo, ht]
          rw [hev]
          simpa using hall
        · obtain ⟨s1, hrun1, hwf1, h1ic, h1iq, h1cd, h1el, h1rem, h1cp, h1lp, h1ll⟩ :=
            parse_cells hcseq hlseq hqeq hlim hne1 (splitB cs line)
              (l :: interLines l (l2 :: rest)) s hwf hic hiq hcd
              (splitB_clean (hclean line (by simp)))
              (by
                rw [hrem, encodeRow_splitB]
                rfl)
              (Or.inr rfl) (splitB_ne_nil cs line)
              (Or.inr (by rw [encodeRow_splitB]; exact hline)) hfrom (by omega) hbom
          have h1elf : s1.emptyLine = false := by
            rcases h1el with h | h
            · exact h
            · exact absurd h.1 (splitB_ne_blank hline)
          obtain ⟨s2, hrun2, hwf2, hnorm2, hqrem, hqcd, hqic, hqiq, hqel, hqcp,
            hqlp, hqll⟩ := normalize cfg s1 hwf1 hlim
          have hrem2 : remaining s2 = l :: interLines l (l2 :: rest) := by
            rw [hqrem, h1rem]
          have hhead2 : (remaining s2).get? 0 = some l := by
            rw [hrem2]
            rfl
          have hup2 : 0 < unprocessed s2 :=
            unprocessed_pos_of_remaining_ne hwf2 hnorm2 (by rw [hrem2]; simp)
          have hls2 : hasNextState s2 cfg.lineSeparator = true := by
            rw [hlseq]
            exact hasNext_single_true hwf2 hnorm2 hhead2
          have hlen : line.length ≠ 0 := by
            intro h0
            exact hline (List.length_eq_zero.mp h0)
          have hbomG : ¬(s2.currentPos = 0 ∧ hasNextState s2 utfBom = true) := by
            intro h0
            have h1 := h0.1
            rw [hqcp, h1cp, encodeRow_splitB] at h1
            omega
          have hstep : step cfg s2 = .next
              { skipN { s2 with columnData := [] } 1 with
                linesProcessed := s2.linesProcessed + 1
                lastLineStartPos := s2.currentPos + 1
                emptyLine := true } [.cell s1.columnData, .rowEnd] := by
            rw [step_eq_stepMain hnorm2]
            have h8 := stepMain_lineSep_row (by rw [hqic, h1ic])
              (by rw [hqlp, h1lp]; exact hfrom) (by rw [hqlp, h1lp]; omega)
              hbomG (by omega) hls2 (by rw [hqel, h1elf])
            rw [hlseq, hqcd] at h8
            exact h8
          have hwfB0 : Wf (skipN { s2 with columnData := [] } 1) :=
            wf_skipN ⟨hwf2.1, hwf2.2⟩ (by show 1 ≤ unprocessed s2; omega)
          obtain ⟨s', hrun'⟩ :=
            ih
              { skipN { s2 with columnData := [] } 1 with
                linesProcessed := s2.linesProcessed + 1
                lastLineStartPos := s2.currentPos + 1
                emptyLine := true }
              ⟨hwfB0.1, hwfB0.2⟩
              (by show s2.inColumn = false; rw [hqic, h1ic])
              (by show s2.inQuote = false; rw [hqiq, h1iq])
              rfl
              rfl
              (by
                intro y hy
                exact hclean y (List.mem_cons_of_mem line hy))
              (by
                show remaining (skipN s2 1) = interLines l (l2 :: rest)
                rw [remaining_skipN (by show 1 ≤ unprocessed s2; omega)]
                rw [hrem2]
                rfl)
              (by simp)
              (by
                show cfg.fromLine ≤ s2.linesProcessed + 1
                rw [hqlp, h1lp]
                omega)
              (by
                intro h0
                have h1 : s2.currentPos + 1 = 0 := h0
                exact absurd h1 (by omega))
          have hlpB : ({ skipN { s2 with columnData := [] } 1 with
                linesProcessed := s2.linesProcessed + 1
                lastLineStartPos := s2.currentPos + 1
                emptyLine := true } : CSVReaderState).linesProcessed
              = s.linesProcessed + 1 := by
            show s2.linesProcessed + 1 = s.linesProcessed + 1
            rw [hqlp, h1lp]
          rw [hlpB] at hrun'
          have hmap := map_dropLast_getLast CSVEvent.cell (splitB cs line)
            s1.columnData h1cd
          have hall := RunTo.run hrun1 (RunTo.run hrun2 (Run.next hstep hrun'))
          refine ⟨s', ?_⟩
          have hev : canonicalGo cs cfg.toLine s.linesProcessed (line :: l2 :: rest)
              = rowEventsOf (splitB cs line) ++
                canonicalGo cs cfg.toLine (s.linesProcessed + 1) (l2 :: rest) := by
            simp only [canonicalGo]
            rw [if_neg ht, if_neg hline]
          rw [hev]
          rw [rowEventsOf, ← hmap]
          simpa using hall

/-- One firing of the line-skip rule when the pending line separator is inside
the loaded buffer: the rule jumps past it and counts the line. -/
theorem skip_found_pack {cfg : CSVReaderConfig} {l : Nat}
    (hlseq : cfg.lineSeparator = [l])
    (u rest : Bytes) (s1 : CSVReaderState) (hwf1 : Wf s1) (hnorm1 : Normal cfg s1)
    (hic1 : s1.inColumn = false) (hfrom1 : s1.linesProcessed < cfg.fromLine)
    (hufree : ∀ x ∈ u, x ≠ l)
    (hrem1 : remaining s1 = u ++ l :: rest)
    (hlt : u.length < unprocessed s1) :
    ∃ s', RunTo cfg s1 [] s' ∧ Wf s' ∧
      s'.inColumn = s1.inColumn ∧ s'.inQuote = s1.inQuote ∧
      s'.columnData = s1.columnData ∧ s'.emptyLine = true ∧
      remaining s' = rest ∧
      s'.linesProcessed = s1.linesProcessed + 1 ∧
      s'.currentPos = s1.currentPos + u.length + 1 := by
  have hfind : findReadTillLineSeparatorIndex
      (s1.inputBuffer.drop s1.inputBufferIndex) cfg.lineSeparator
      = some u.length := by
    rw [hlseq]
    show findReadTillLineSeparatorIndexGo (loadedTail s1) [l] 0 = some u.length
    apply frtls_go_found (loadedTail s1) l u.length 0 u.length (by omega) (by omega)
      (by rw [loadedTail_length]; exact hlt)
    · intro j _ hjlt
      have hjlen : j < (loadedTail s1).length := by
        rw [loadedTail_length]
        omega
      rw [prefix_get? (loadedTail_prefix_remaining s1) hjlen, hrem1,
        List.get?_append hjlt]
      intro hc
      exact hufree l (List.get?_mem hc) rfl
    · have hmlen : u.length < (loadedTail s1).length := by
        rw [loadedTail_length]
        exact hlt
      rw [prefix_get? (loadedTail_prefix_remaining s1) hmlen, hrem1,
        List.get?_append_right (le_refl _)]
      simp
  have hstep : step cfg s1 = .next
      { skipN s1 (u.length + 1) with
        linesProcessed := s1.linesProcessed + 1
        lastLineStartPos := s1.currentPos + (u.length + 1)
        emptyLine := true } [] := by
    rw [step_eq_stepMain hnorm1]
    have h4 := stepMain_skipLine_found hic1 hfrom1 hfind
    rw [hlseq] at h4
    exact h4
  have hwfn : Wf (skipN s1 (u.length + 1)) := wf_skipN hwf1 (by omega)
  refine ⟨_, runTo_silent hstep, ⟨hwfn.1, hwfn.2⟩, rfl, rfl, rfl, rfl, ?_, rfl, ?_⟩
  · show remaining (skipN s1 (u.length + 1)) = rest
    rw [remaining_skipN (by omega), hrem1]
    have h1 : u ++ l :: rest = (u ++ [l]) ++ rest := by simp
    rw [h1]
    have h2 : u.length + 1 = (u ++ [l]).length := by simp
    rw [h2, List.drop_left]
  · show s1.currentPos + (u.length + 1) = s1.currentPos + u.length + 1
    omega

/-- Skipping one whole input line in the fromLine phase: the line-skip rule,
interleaved with buffer refills, silently consumes the line and its
separator and increments the processed-line counter. -/
theorem skip_one_line {cfg : CSVReaderConfig} {l : Nat}
    (hlseq : cfg.lineSeparator = [l]) (hlim : 1 ≤ cfg.inputBufferIndexLimit) :
    ∀ (d : Nat) (u rest : Bytes) (s : CSVReaderState), u.length ≤ d → Wf s →
    s.inColumn = false → s.linesProcessed < cfg.fromLine →
    (∀ x ∈ u, x ≠ l) →
    remaining s = u ++ l :: rest →
    ∃ s', RunTo cfg s [] s' ∧ Wf s' ∧
      s'.inColumn = s.inColumn ∧ s'.inQuote = s.inQuote ∧
      s'.columnData = s.columnData ∧ s'.emptyLine = true ∧
      remaining s' = rest ∧
      s'.linesProcessed = s.linesProcessed + 1 ∧
      s'.currentPos = s.currentPos + u.length + 1 := by
  intro d
  induction d with
  | zero =>
    intro u rest s hd hwf hic hfrom hufree hrem
    obtain ⟨s1, hrun1, hwf1, hnorm1, hprem, hpcd, hpic, hpiq, hpel, hpcp, hplp,
      hpll⟩ := normalize cfg s hwf hlim
    have hrem1 : remaining s1 = u ++ l :: rest := by rw [hprem, hrem]
    have hup1 : 0 < unprocessed s1 :=
      unprocessed_pos_of_remaining_ne hwf1 hnorm1 (by rw [hrem1]; simp)
    have hlt : u.length < unprocessed s1 := by omega
    obtain ⟨s', hrun', hwf', hic', hiq', hcd', hel', hrem', hlp', hcp'⟩ :=
      skip_found_pack hlseq u rest s1 hwf1 hnorm1 (by rw [hpic, hic])
        (by rw [hplp]; exact hfrom) hufree hrem1 hlt
    refine ⟨s', RunTo.trans hrun1 hrun', hwf', ?_, ?_, ?_, hel', hrem', ?_, ?_⟩
    · rw [hic', hpic]
    · rw [hiq', hpiq]
    · rw [hcd', hpcd]
    · rw [hlp', hplp]
    · rw [hcp', hpcp]
  | succ d ih =>
    intro u rest s hd hwf hic hfrom hufree hrem
    obtain ⟨s1, hrun1, hwf1, hnorm1, hprem, hpcd, hpic, hpiq, hpel, hpcp, hplp,
      hpll⟩ := normalize cfg s hwf hlim
    have hrem1 : remaining s1 = u ++ l :: rest := by rw [hprem, hrem]
    have hup1 : 0 < unprocessed s1 :=
      unprocessed_pos_of_remaining_ne hwf1 hnorm1 (by rw [hrem1]; simp)
    by_cases hlt : u.length < unprocessed s1
    · obtain ⟨s', hrun', hwf', hic', hiq', hcd', hel', hrem', hlp', hcp'⟩ :=
        skip_found_pack hlseq u rest s1 hwf1 hnorm1 (by rw [hpic, hic])
          (by rw [hplp]; exact hfrom) hufree hrem1 hlt
      refine ⟨s', RunTo.trans hrun1 hrun', hwf', ?_, ?_, ?_, hel', hrem', ?_, ?_⟩
      · rw [hic', hpic]
      · rw [hiq', hpiq]
      · rw [hcd', hpcd]
      · rw [hlp', hplp]
      · rw [hcp', hpcp]
    · have hle : unprocessed s1 ≤ u.length := by omega
      have hfindN : findReadTillLineSeparatorIndex
          (s1.inputBuffer.drop s1.inputBufferIndex) cfg.lineSeparator = none := by
        rw [hlseq]
        show findReadTillLineSeparatorIndexGo (loadedTail s1) [l] 0 = none
        apply frtls_go_none (loadedTail s1) l (loadedTail s1).length 0 (by omega)
        intro j _ hjlen
        have hjlt : j < u.length := by
          rw [loadedTail_length] at hjlen
          omega
        rw [prefix_get? (loadedTail_prefix_remaining s1) hjlen, hrem1,
          List.get?_append hjlt]
        intro hc
        exact hufree l (List.get?_mem hc) rfl
      have hstep : step cfg s1 = .next (skipN s1 (unprocessed s1)) [] := by
        rw [step_eq_stepMain hnorm1]
        have h4 := stepMain_skipLine_none (by rw [hpic, hic])
          (by rw [hplp]; exact hfrom) hfindN
        have hk : (s1.inputBuffer.drop s1.inputBufferIndex).length
            = unprocessed s1 := loadedTail_length s1
        rw [hk] at h4
        exact h4
      have hwf2 : Wf (skipN s1 (unprocessed s1)) := wf_skipN hwf1 (le_refl _)
      have hrem2 : remaining (skipN s1 (unprocessed s1))
          = u.drop (unprocessed s1) ++ l :: rest := by
        rw [remaining_skipN (le_refl _), hrem1,
          List.drop_append_of_le_length hle]
      obtain ⟨s', hrun', hwf', hic', hiq', hcd', hel', hrem', hlp', hcp'⟩ :=
        ih (u.drop (unprocessed s1)) rest (skipN s1 (unprocessed s1))
          (by rw [List.length_drop]; omega) hwf2
          (by show s1.inColumn = false; rw [hpic, hic])
          (by show s1.linesProcessed < cfg.fromLine; rw [hplp]; exact hfrom)
          (by
            intro x hx
            exact hufree x (List.mem_of_mem_drop hx))
          hrem2
      refine ⟨s', RunTo.trans hrun1 (RunTo.trans (runTo_silent hstep) hrun'),
        hwf', ?_, ?_, ?_, hel', hrem', ?_, ?_⟩
      · rw [hic']
        show s1.inColumn = s.inColumn
        exact hpic
      · rw [hiq']
        show s1.inQuote = s.inQuote
        exact hpiq
      · rw [hcd']
        show s1.columnData = s.columnData
        exact hpcd
      · rw [hlp']
        show s1.linesProcessed + 1 = s.linesProcessed + 1
        rw [hplp]
      · rw [hcp']
        have h1 : (skipN s1 (unprocessed s1)).currentPos
            = s1.currentPos + unprocessed s1 := rfl
        rw [h1, List.length_drop, hpcp]
        omega

theorem interLines_eq_encodeRow (b : Nat) :
    ∀ xs : List Bytes, interLines b xs = encodeRow b xs := by
  intro xs
  induction xs with
  | nil => rfl
  | cons x ys ih =>
    cases ys with
    | nil => rfl
    | cons y zs =>
      show x ++ b :: interLines b (y :: zs) = x ++ b :: encodeRow b (y :: zs)
      rw [ih]

theorem interLines_splitB (b : Nat) (u : Bytes) :
    interLines b (splitB b u) = u := by
  rw [interLines_eq_encodeRow]
  exact encodeRow_splitB b u

theorem interLines_cons_of_ne {l : Nat} (x : Bytes) {ys : List Bytes}
    (h : ys ≠ []) : interLines l (x :: ys) = x ++ l :: interLines l ys := by
  cases ys with
  | nil => exact absurd rfl h
  | cons y zs => rfl

/-- The fromLine skip phase: the requested number of leading lines is
silently consumed, line by line, leaving the reader at the start of the first
kept line with the processed-line counter equal to fromLine. -/
theorem skip_lines {cfg : CSVReaderConfig} {l : Nat}
    (hlseq : cfg.lineSeparator = [l]) (hlim : 1 ≤ cfg.inputBufferIndexLimit) :
    ∀ (skipped kept : List Bytes) (s : CSVReaderState), Wf s →
    s.inColumn = false →
    (∀ line ∈ skipped, ∀ x ∈ line, x ≠ l) →
    remaining s = interLines l (skipped ++ kept) →
    kept ≠ [] →
    s.linesProcessed + skipped.length = cfg.fromLine →
    ∃ s', RunTo cfg s [] s' ∧ Wf s' ∧
      s'.inColumn = s.inColumn ∧ s'.inQuote = s.inQuote ∧
      s'.columnData = s.columnData ∧
      remaining s' = interLines l kept ∧
      s'.linesProcessed = cfg.fromLine ∧
      ((skipped = [] ∧ s' = s) ∨ (s'.emptyLine = true ∧ 0 < s'.currentPos)) := by
  intro skipped
  induction skipped with
  | nil =>
    intro kept s hwf hic _ hrem _ hlp
    exact ⟨s, RunTo.refl, hwf, rfl, rfl, rfl, hrem, by simpa using hlp,
      Or.inl ⟨rfl, rfl⟩⟩
  | cons line stail ih =>
    intro kept s hwf hic hfree hrem hkept hlp
    have htne : stail ++ kept ≠ [] := by
      intro h
      exact hkept (List.append_eq_nil.mp h).2
    have hrem2 : remaining s = line ++ l :: interLines l (stail ++ kept) := by
      rw [hrem]
      show interLines l (line :: (stail ++ kept)) = _
      rw [interLines_cons_of_ne line htne]
    obtain ⟨s1, hrun1, hwf1, h1ic, h1iq, h1cd, h1el, h1rem, h1lp, h1cp⟩ :=
      skip_one_line hlseq hlim line.length line (interLines l (stail ++ kept)) s
        (le_refl _) hwf hic
        (by simp only [List.length_cons] at hlp; omega)
        (hfree line (by simp)) hrem2
    obtain ⟨s', hrun', hwf', hic', hiq', hcd', hrem', hlp', hdisj⟩ :=
      ih kept s1 hwf1 (by rw [h1ic, hic])
        (by
          intro y hy
          exact hfree y (List.mem_cons_of_mem line hy))
        h1rem hkept
        (by
          rw [h1lp]
          simp only [List.length_cons] at hlp
          omega)
    refine ⟨s', RunTo.trans hrun1 hrun', hwf', by rw [hic', h1ic],
      by rw [hiq', h1iq], by rw [hcd', h1cd], hrem', hlp', Or.inr ?_⟩
    rcases hdisj with ⟨_, hss⟩ | ⟨ha, hb⟩
    · rw [hss]
      exact ⟨h1el, by omega⟩
    · exact ⟨ha, hb⟩

/-- Master theorem for quote-free inputs: for single-byte separators and
quote with the column separator distinct from the line separator, any
chunking of an input that contains no quote byte and does not start with the
UTF BOM, and any fromLine strictly below the number of physical lines, the
reader emits exactly the canonical event stream: the kept nonblank lines
split into cells, blank lines skipped, stopping at toLine or at the end of
the input. -/
theorem parse_noquote_run {cfg : CSVReaderConfig} {cs l q : Nat}
    (hcseq : cfg.columnSeparator = [cs]) (hlseq : cfg.lineSeparator = [l])
    (hqeq : cfg.quote = [q]) (hlim : 1 ≤ cfg.inputBufferIndexLimit)
    (hne1 : cs ≠ l) (input : Bytes) (chunks : List Bytes) (st : Stats)
    (hchunks : chunks.flatten = input)
    (hqfree : ∀ x ∈ input, x ≠ q)
    (hbom : utfBom.isPrefixOf input = false)
    (hfrom : cfg.fromLine < (splitB l input).length) :
    ∃ s', Run cfg (initState cfg chunks st)
      (canonicalEvents cs l cfg.fromLine cfg.toLine input) s' := by
  have hwf0 : Wf (initState cfg chunks st) := by
    constructor
    · exact Nat.zero_le _
    · intro h
      cases h
  have hrem0 : remaining (initState cfg chunks st) = input := by
    show ([] : Bytes).drop 0 ++ chunks.flatten = input
    rw [hchunks]
    rfl
  have hlines : ∀ line ∈ splitB l input, ∀ x ∈ line, x ≠ l ∧ x ≠ q := by
    have hin : ∀ x ∈ input, x ≠ q ∧ x ≠ q := fun x hx => ⟨hqfree x hx, hqfree x hx⟩
    intro line hline x hx
    have h2 := splitB_clean hin line hline x hx
    exact ⟨h2.1, h2.2.1⟩
  have hsplit : (splitB l input).take cfg.fromLine ++ (splitB l input).drop cfg.fromLine
      = splitB l input := List.take_append_drop _ _
  have hkept : (splitB l input).drop cfg.fromLine ≠ [] := by
    intro h
    have h2 := List.length_drop cfg.fromLine (splitB l input)
    rw [h] at h2
    simp at h2
    omega
  obtain ⟨s1, hrun1, hwf1, h1ic, h1iq, h1cd, h1rem, h1lp, hdisj⟩ :=
    skip_lines hlseq hlim ((splitB l input).take cfg.fromLine)
      ((splitB l input).drop cfg.fromLine) (initState cfg chunks st) hwf0 rfl
      (by
        intro line hline x hx
        exact (hlines line (List.take_subset _ _ hline) x hx).1)
      (by rw [hrem0, hsplit, interLines_splitB])
      hkept
      (by
        show 0 + ((splitB l input).take cfg.fromLine).length = cfg.fromLine
        rw [List.length_take]
        omega)
  obtain ⟨s', hrun'⟩ :=
    parse_lines hcseq hlseq hqeq hlim hne1 ((splitB l input).drop cfg.fromLine) s1
      hwf1 (by rw [h1ic]; rfl) (by rw [h1iq]; rfl) (by rw [h1cd]; rfl)
      (by
        rcases hdisj with ⟨_, hss⟩ | ⟨ha, _⟩
        · rw [hss]
          rfl
        · exact ha)
      (by
        intro line hline x hx
        exact hlines line (List.mem_of_mem_drop hline) x hx)
      h1rem hkept (by rw [h1lp])
      (by
        rcases hdisj with ⟨htake, hss⟩ | ⟨_, hcp⟩
        · intro _
          have hl2 := congrArg List.length htake
          rw [List.length_take] at hl2
          simp only [List.length_nil] at hl2
          have hf0 : cfg.fromLine = 0 := by omega
          rw [h1rem, hf0, List.drop_zero, interLines_splitB]
          exact hbom
        · intro h0
          exact absurd h0 (by omega))
  rw [h1lp] at hrun'
  refine ⟨s', ?_⟩
  show Run cfg (initState cfg chunks st)
    (canonicalGo cs cfg.toLine cfg.fromLine ((splitB l input).drop cfg.fromLine)) s'
  have hall := RunTo.run hrun1 hrun'
  simpa using hall

theorem collectRowsGo_cells :
    ∀ (cells : List Bytes) (acc : List Bytes) (evs : List CSVEvent),
    collectRowsGo acc (cells.map CSVEvent.cell ++ evs)
      = collectRowsGo (acc ++ cells) evs := by
  intro cells
  induction cells with
  | nil =>
    intro acc evs
    simp
  | cons c cs2 ih =>
    intro acc evs
    show collectRowsGo (acc ++ [c]) (cs2.map CSVEvent.cell ++ evs)
      = collectRowsGo (acc ++ c :: cs2) evs
    rw [ih]
    simp

theorem collectRows_canonicalGo (cs t : Nat) :
    ∀ (lines : List Bytes) (i : Nat),
    collectRowsGo [] (canonicalGo cs t i lines)
      = ((lines.take (t - i)).filter (fun ln => !ln.isEmpty)).map (splitB cs) := by
  intro lines
  induction lines with
  | nil =>
    intro i
    simp [canonicalGo, collectRowsGo]
  | cons line tail ih =>
    intro i
    cases tail with
    | nil =>
      by_cases ht : t ≤ i
      · have h0 : t - i = 0 := by omega
        simp [canonicalGo, ht, h0, collectRowsGo]
      · have h1 : t - i = (t - i - 1) + 1 := by omega
        by_cases hline : line = []
        · subst hline
          have hev : canonicalGo cs t i [([] : Bytes)] = [CSVEvent.endOfStream] := by
            simp [canonicalGo, ht]
          rw [hev, h1]
          simp [collectRowsGo]
        · have hne : line.isEmpty = false := by
            cases line with
            | nil => exact absurd rfl hline
            | cons a as => rfl
          have hev : canonicalGo cs t i [line]
              = (splitB cs line).map CSVEvent.cell
                ++ ([CSVEvent.rowEnd] ++ [CSVEvent.endOfStream]) := by
            simp [canonicalGo, ht, hline, rowEventsOf]
          rw [hev, collectRowsGo_cells, h1]
          simp [collectRowsGo, hne]
    | cons l2 rest =>
      by_cases ht : t ≤ i
      · have h0 : t - i = 0 := by omega
        simp [canonicalGo, ht, h0, collectRowsGo]
      · have h1 : t - i = (t - (i + 1)) + 1 := by omega
        by_cases hline : line = []
        · subst hline
          have hev : canonicalGo cs t i ([] :: l2 :: rest)
              = canonicalGo cs t (i + 1) (l2 :: rest) := by
            simp [canonicalGo, ht]
          rw [hev, ih]
          rw [h1]
          simp
        · have hne : line.isEmpty = false := by
            cases line with
            | nil => exact absurd rfl hline
            | cons a as => rfl
          have hev : canonicalGo cs t i (line :: l2 :: rest)
              = (splitB cs line).map CSVEvent.cell
                ++ ([CSVEvent.rowEnd] ++ canonicalGo cs t (i + 1) (l2 :: rest)) := by
            simp [canonicalGo, ht, hline, rowEventsOf]
          rw [hev, collectRowsGo_cells]
          show splitB cs line :: collectRowsGo [] (canonicalGo cs t (i + 1) (l2 :: rest)) = _
          rw [ih]
          rw [h1]
          simp [hne]

theorem collectRows_canonicalEvents (cs l f t : Nat) (input : Bytes) :
    collectRows (canonicalEvents cs l f t input)
      = ((((splitB l input).drop f).take (t - f)).filter
          (fun ln => !ln.isEmpty)).map (splitB cs) := by
  show collectRowsGo [] (canonicalGo cs t f ((splitB l input).drop f)) = _
  rw [collectRows_canonicalGo]

theorem splitB_free {b : Nat} :
    ∀ {u : Bytes}, (∀ x ∈ u, x ≠ b) → splitB b u = [u] := by
  intro u
  induction u with
  | nil =>
    intro _
    rfl
  | cons x xs ih =>
    intro h
    rw [splitB, if_neg (h x (by simp)), ih (fun y hy => h y (List.mem_cons_of_mem x hy))]

theorem splitB_append_sep {b : Nat} :
    ∀ {u : Bytes} (v : Bytes), (∀ x ∈ u, x ≠ b) →
    splitB b (u ++ b :: v) = u :: splitB b v := by
  intro u
  induction u with
  | nil =>
    intro v _
    show splitB b (b :: v) = [] :: splitB b v
    rw [splitB, if_pos rfl]
  | cons x xs ih =>
    intro v h
    show splitB b (x :: (xs ++ b :: v)) = (x :: xs) :: splitB b v
    rw [splitB, if_neg (h x (by simp)),
      ih v (fun y hy => h y (List.mem_cons_of_mem x hy))]

theorem splitB_encodeRow {b : Nat} :
    ∀ {row : List Bytes}, row ≠ [] → (∀ c ∈ row, ∀ x ∈ c, x ≠ b) →
    splitB b (encodeRow b row) = row := by
  intro row
  induction row with
  | nil =>
    intro h _
    exact absurd rfl h
  | cons c tail ih =>
    intro _ h
    cases tail with
    | nil =>
      show splitB b c = [c]
      exact splitB_free (h c (by simp))
    | cons c2 rest =>
      show splitB b (c ++ b :: encodeRow b (c2 :: rest)) = c :: c2 :: rest
      rw [splitB_append_sep (encodeRow b (c2 :: rest)) (h c (by simp)),
        ih (by simp) (fun d hd => h d (List.mem_cons_of_mem c hd))]

theorem splitB_interLines {b : Nat} {xs : List Bytes} (h1 : xs ≠ [])
    (h2 : ∀ ln ∈ xs, ∀ x ∈ ln, x ≠ b) :
    splitB b (interLines b xs) = xs := by
  rw [interLines_eq_encodeRow]
  exact splitB_encodeRow h1 h2

theorem dq_le_minReserve (cfg : CSVReaderConfig) :
    cfg.doubleQuote.length ≤ cfg.minPossibleBufferReserve := by
  unfold CSVReaderConfig.minPossibleBufferReserve
  omega

theorem hasNext_single_of_pos {s : CSVReaderState} (h : 0 < unprocessed s)
    (x : Nat) :
    (hasNextState s [x] = true ↔ (remaining s).get? 0 = some x) := by
  rw [hasNextState_iff, singleton_prefix_iff,
    prefix_get? (loadedTail_prefix_remaining s)
      (by rw [loadedTail_length]; exact h)]

theorem hasNext_false_of_head_ne {s : CSVReaderState} {pat : Bytes} {x y : Nat}
    (hhead : (remaining s).get? 0 = some x) (hpat : pat.get? 0 = some y)
    (hne : x ≠ y) : hasNextState s pat = false := by
  cases hv : hasNextState s pat with
  | false => rfl
  | true =>
    have hp : pat <+: remaining s :=
      ((hasNextState_iff s pat).mp hv).trans (loadedTail_prefix_remaining s)
    have hplen : 0 < pat.length := by
      cases pat with
      | nil => cases hpat
      | cons a as => simp
    have hg := prefix_get? hp hplen
    rw [hpat, hhead] at hg
    injection hg with hg2
    exact absurd hg2.symm hne

theorem hasNext_of_prefix_le {s : CSVReaderState} {pat : Bytes}
    (hp : pat <+: remaining s) (hlen : pat.length ≤ unprocessed s) :
    hasNextState s pat = true := by
  rw [hasNextState_iff]
  apply List.prefix_of_prefix_length_le hp (loadedTail_prefix_remaining s)
  rw [loadedTail_length]
  exact hlen

theorem dqe_nil (qs : Bytes) : doubleQuotesEnc qs [] = [] := by
  rw [doubleQuotesEnc]

theorem dqe_cons_q (q : Nat) (b : Bytes) :
    doubleQuotesEnc [q] (q :: b) = q :: q :: doubleQuotesEnc [q] b := by
  rw [doubleQuotesEnc, dif_pos ⟨by simp, by simp [List.isPrefixOf]⟩]
  rfl

theorem dqe_append_free {q : Nat} :
    ∀ {u : Bytes} (v : Bytes), (∀ x ∈ u, x ≠ q) →
    doubleQuotesEnc [q] (u ++ v) = u ++ doubleQuotesEnc [q] v := by
  intro u
  induction u with
  | nil =>
    intro v _
    rfl
  | cons x us ih =>
    intro v h
    have hx : x ≠ q := h x (by simp)
    show doubleQuotesEnc [q] (x :: (us ++ v)) = x :: (us ++ doubleQuotesEnc [q] v)
    rw [doubleQuotesEnc, dif_neg (by
      intro hc
      have h2 := hc.2
      simp [List.isPrefixOf] at h2
      exact hx h2.symm)]
    rw [ih v (fun y hy => h y (List.mem_cons_of_mem x hy))]

theorem dropWhile_ne_head (q : Nat) :
    ∀ b : Bytes, b.dropWhile (fun x => decide (x ≠ q)) = [] ∨
      ∃ b2, b.dropWhile (fun x => decide (x ≠ q)) = q :: b2 := by
  intro b
  induction b with
  | nil => exact Or.inl rfl
  | cons x xs ih =>
    by_cases hx : x = q
    · right
      refine ⟨xs, ?_⟩
      rw [List.dropWhile_cons, if_neg (by simp [hx])]
      rw [hx]
    · rw [List.dropWhile_cons, if_pos (by simp [hx])]
      exact ih

/-- Consuming a quote-free run of bytes inside a quoted cell: the quoted bulk
reads copy the run into the column buffer, stopping at the next quote byte,
with the processed-line counter growing by at most the bytes consumed. -/
theorem consume_quoted_run {cfg : CSVReaderConfig} {l q : Nat}
    (hlseq : cfg.lineSeparator = [l]) (hqeq : cfg.quote = [q])
    (hlim : 1 ≤ cfg.inputBufferIndexLimit) :
    ∀ (d : Nat) (u tail2 : Bytes) (s : CSVReaderState), u.length ≤ d → Wf s →
    s.inColumn = true → s.inQuote = true →
    (∀ x ∈ u, x ≠ q) →
    remaining s = u ++ q :: tail2 →
    ∃ s', RunTo cfg s [] s' ∧ Wf s' ∧
      s'.inColumn = true ∧ s'.inQuote = true ∧
      s'.columnData = s.columnData ++ u ∧
      remaining s' = q :: tail2 ∧
      s'.emptyLine = s.emptyLine ∧
      s'.linesProcessed ≤ s.linesProcessed + u.length ∧
      s'.currentPos = s.currentPos + u.length := by
  have hdqeq : cfg.doubleQuote = [q, q] := by
    unfold CSVReaderConfig.doubleQuote
    rw [hqeq]
    rfl
  intro d
  induction d with
  | zero =>
    intro u tail2 s hd hwf hic hiq hfree hrem
    have hu : u = [] := List.length_eq_zero.mp (by omega)
    subst hu
    exact ⟨s, RunTo.refl, hwf, hic, hiq, by simp, by simpa using hrem, rfl,
      by omega, by simp⟩
  | succ d ih =>
    intro u tail2 s hd hwf hic hiq hfree hrem
    cases u with
    | nil =>
      exact ⟨s, RunTo.refl, hwf, hic, hiq, by simp, by simpa using hrem, rfl,
        by omega, by simp⟩
    | cons b u2 =>
      obtain ⟨s1, hrun1, hwf1, hnorm1, hpeq⟩ := normalize cfg s hwf hlim
      obtain ⟨hprem, hpcd, hpic, hpiq, hpel, hpcp, hplp, hpll⟩ := hpeq
      have hic1 : s1.inColumn = true := by rw [hpic, hic]
      have hiq1 : s1.inQuote = true := by rw [hpiq, hiq]
      have hrem1 : remaining s1 = b :: (u2 ++ q :: tail2) := by
        rw [hprem, hrem]
        rfl
      have hhead1 : (remaining s1).get? 0 = some b := by
        rw [hrem1]
        rfl
      have hup1 : 0 < unprocessed s1 :=
        unprocessed_pos_of_remaining_ne hwf1 hnorm1 (by rw [hrem1]; simp)
      have hb : b ≠ q := hfree b (by simp)
      have hq1 : hasNextState s1 cfg.quote = false := by
        rw [hqeq]
        exact hasNext_false_of_head_ne hhead1 rfl hb
      have hdq1 : hasNextState s1 cfg.doubleQuote = false := by
        rw [hdqeq]
        exact hasNext_false_of_head_ne hhead1 rfl hb
      have hslicelen : (s1.inputBuffer.drop s1.inputBufferIndex).length
          = unprocessed s1 := loadedTail_length s1
      have hsliceget : ∀ j, j < unprocessed s1 →
          (s1.inputBuffer.drop s1.inputBufferIndex).get? j = (remaining s1).get? j := by
        intro j hj
        exact prefix_get? (loadedTail_prefix_remaining s1)
          (by rw [loadedTail_length]; omega)
      by_cases hl1 : min (((s1.inputBuffer.drop s1.inputBufferIndex).length : Int) -
          (cfg.minPossibleBufferReserve : Int))
          ((s1.columnBufferLen : Int) - (s1.columnData.length : Int)) ≤ 1
      · have hstep : step cfg s1 = .next (readCharsN s1 1) [] := by
          rw [step_eq_stepMain hnorm1]
          exact stepMain_bulk_one_quoted hic1 hiq1 hdq1 hq1 hup1 hl1
        obtain ⟨s', hrun', hwf', hc1, hc2, hc3, hc4, hc5, hc6, hc7⟩ :=
          ih u2 tail2 (readCharsN s1 1)
            (by simpa using Nat.le_of_succ_le_succ (by simpa using hd))
            (wf_readCharsN hwf1 (by omega)) hic1 hiq1
            (fun x hx => hfree x (List.mem_cons_of_mem b hx))
            (by
              rw [remaining_readCharsN (by omega), hrem1]
              rfl)
        refine ⟨s', RunTo.trans hrun1 (RunTo.trans (runTo_silent hstep) hrun'), hwf',
          hc1, hc2, ?_, hc4, ?_, ?_, ?_⟩
        · rw [hc3, columnData_readCharsN (by omega), hpcd, hrem1]
          simp
        · rw [hc5]
          show s1.emptyLine = s.emptyLine
          exact hpel
        · have h1 : (readCharsN s1 1).linesProcessed = s1.linesProcessed := rfl
          rw [h1, hplp] at hc6
          simp only [List.length_cons]
          omega
        · rw [hc7]
          show s1.currentPos + 1 + u2.length = s.currentPos + (b :: u2).length
          rw [hpcp]
          simp only [List.length_cons]
          omega
      · have hl2 : 1 < min (((s1.inputBuffer.drop s1.inputBufferIndex).length : Int) -
            (cfg.minPossibleBufferReserve : Int))
            ((s1.columnBufferLen : Int) - (s1.columnData.length : Int)) := by omega
        have hlimN : (min (((s1.inputBuffer.drop s1.inputBufferIndex).length : Int) -
            (cfg.minPossibleBufferReserve : Int))
            ((s1.columnBufferLen : Int) - (s1.columnData.length : Int))).toNat =
            min (((s1.inputBuffer.drop s1.inputBufferIndex).length : Int) -
            (cfg.minPossibleBufferReserve : Int))
            ((s1.columnBufferLen : Int) - (s1.columnData.length : Int)) := by
          rw [Int.toNat_of_nonneg (by omega)]
        set limitN := (min (((s1.inputBuffer.drop s1.inputBufferIndex).length : Int) -
            (cfg.minPossibleBufferReserve : Int))
            ((s1.columnBufferLen : Int) - (s1.columnData.length : Int))).toNat with hlimdef
        have hln2 : 2 ≤ limitN := by omega
        have hresv := minReserve_pos cfg
        have hlnlen : limitN + cfg.minPossibleBufferReserve ≤
            (s1.inputBuffer.drop s1.inputBufferIndex).length := by
          have h1 : (limitN : Int) ≤ ((s1.inputBuffer.drop s1.inputBufferIndex).length : Int) -
              (cfg.minPossibleBufferReserve : Int) := by
            rw [hlimN]
            exact min_le_left _ _
          omega
        have hcleanSlice : ∀ j, j < (b :: u2).length → j < limitN →
            (s1.inputBuffer.drop s1.inputBufferIndex).get? j ≠ some q := by
          intro j hj hj2
          have hjlt : j < unprocessed s1 := by omega
          have hget : (s1.inputBuffer.drop s1.inputBufferIndex).get? j =
              (b :: u2).get? j := by
            rw [hsliceget j hjlt, hrem1]
            show ((b :: u2) ++ q :: tail2).get? j = (b :: u2).get? j
            exact List.get?_append hj
          rcases hx : (b :: u2).get? j with _ | x
          · rw [List.get?_eq_none] at hx
            omega
          · rw [hget, hx]
            intro hcon
            injection hcon with hcon2
            exact hfree x (List.get?_mem hx) hcon2
        by_cases hcase : (b :: u2).length < limitN
        · have hmlt : (b :: u2).length < (s1.inputBuffer.drop s1.inputBufferIndex).length := by
            omega
          have hat : (s1.inputBuffer.drop s1.inputBufferIndex).get? (b :: u2).length
              = some q := by
            rw [hsliceget _ (by omega), hrem1]
            show ((b :: u2) ++ q :: tail2).get? (b :: u2).length = some q
            rw [List.get?_append_right (le_refl _)]
            simp
          have hscan := frtq_go_found (s1.inputBuffer.drop s1.inputBufferIndex) limitN q l
            (b :: u2).length 0 (b :: u2).length 0 (-1) (by omega) (by omega) hcase hmlt
            (fun j hj1 hj2 => hcleanSlice j hj2 (by omega)) hat
          have htill : (findReadTillIndexQuoted (s1.inputBuffer.drop s1.inputBufferIndex)
              limitN [q] [l]).till = (b :: u2).length := hscan.1
          have hnlb : (findReadTillIndexQuoted (s1.inputBuffer.drop s1.inputBufferIndex)
              limitN [q] [l]).lineSeparatorsFound ≤ (b :: u2).length := by
            have h2 : (findReadTillIndexQuoted (s1.inputBuffer.drop s1.inputBufferIndex)
                limitN [q] [l]).lineSeparatorsFound ≤ 0 + ((b :: u2).length - 0) := hscan.2
            omega
          have hr : findReadTillIndexQuoted (s1.inputBuffer.drop s1.inputBufferIndex)
              limitN cfg.quote cfg.lineSeparator =
              ⟨(findReadTillIndexQuoted (s1.inputBuffer.drop s1.inputBufferIndex)
                  limitN [q] [l]).till,
               (findReadTillIndexQuoted (s1.inputBuffer.drop s1.inputBufferIndex)
                  limitN [q] [l]).lineSeparatorsFound,
               (findReadTillIndexQuoted (s1.inputBuffer.drop s1.inputBufferIndex)
                  limitN [q] [l]).lastLineSeparatorEndIndex⟩ := by
            rw [hqeq, hlseq]
          have hstep0 := stepMain_bulk_quoted hic1 hiq1 hdq1 hq1 hup1 hl2 hr
          rw [htill] at hstep0
          have hstepMain := hstep0
          obtain ⟨s2, hstep, hwf2, h2ic, h2iq, h2cd, h2rem, h2el, h2cp, h2lp⟩ :
              ∃ s2, step cfg s1 = .next s2 [] ∧ Wf s2 ∧ s2.inColumn = true ∧
                s2.inQuote = true ∧
                s2.columnData = s1.columnData ++ (remaining s1).take (b :: u2).length ∧
                remaining s2 = (remaining s1).drop (b :: u2).length ∧
                s2.emptyLine = s1.emptyLine ∧
                s2.currentPos = s1.currentPos + (b :: u2).length ∧
                s2.linesProcessed ≤ s1.linesProcessed + (b :: u2).length := by
            by_cases hnl : 0 < (findReadTillIndexQuoted
                (s1.inputBuffer.drop s1.inputBufferIndex) limitN [q] [l]).lineSeparatorsFound
            · rw [if_pos hnl, if_pos (by simp)] at hstepMain
              have hkle : (b :: u2).length ≤ unprocessed s1 := by omega
              refine ⟨{ readCharsN s1 (b :: u2).length with
                  linesProcessed := (readCharsN s1 (b :: u2).length).linesProcessed +
                    (findReadTillIndexQuoted (s1.inputBuffer.drop s1.inputBufferIndex)
                      limitN [q] [l]).lineSeparatorsFound
                  lastLineStartPos := ((s1.currentPos : Int) +
                    (findReadTillIndexQuoted (s1.inputBuffer.drop s1.inputBufferIndex)
                      limitN [q] [l]).lastLineSeparatorEndIndex).toNat },
                by rw [step_eq_stepMain hnorm1]; exact hstepMain,
                ⟨(wf_readCharsN hwf1 hkle).1, (wf_readCharsN hwf1 hkle).2⟩,
                hic1, hiq1, ?_, ?_, ?_, ?_, ?_⟩
              · show (readCharsN s1 (b :: u2).length).columnData = _
                rw [columnData_readCharsN (by omega)]
              · show remaining (readCharsN s1 (b :: u2).length) = _
                rw [remaining_readCharsN (by omega)]
              · rfl
              · rfl
              · show (readCharsN s1 (b :: u2).length).linesProcessed +
                  (findReadTillIndexQuoted (s1.inputBuffer.drop s1.inputBufferIndex)
                    limitN [q] [l]).lineSeparatorsFound ≤
                  s1.linesProcessed + (b :: u2).length
                show s1.linesProcessed + _ ≤ s1.linesProcessed + (b :: u2).length
                omega
            · rw [if_neg hnl, if_pos (by simp)] at hstepMain
              refine ⟨_, by rw [step_eq_stepMain hnorm1]; exact hstepMain,
                wf_readCharsN hwf1 (by omega), hic1, hiq1,
                columnData_readCharsN (by omega),
                remaining_readCharsN (by omega), rfl, rfl, by
                  show s1.linesProcessed ≤ s1.linesProcessed + (b :: u2).length
                  omega⟩
          refine ⟨s2, RunTo.trans hrun1 (runTo_silent hstep), hwf2, h2ic, h2iq,
            ?_, ?_, ?_, ?_, ?_⟩
          · rw [h2cd, hpcd, hrem1]
            show s.columnData ++ ((b :: u2) ++ q :: tail2).take (b :: u2).length =
              s.columnData ++ (b :: u2)
            rw [List.take_left]
          · rw [h2rem, hrem1]
            show ((b :: u2) ++ q :: tail2).drop (b :: u2).length = q :: tail2
            rw [List.drop_left]
          · rw [h2el]
            exact hpel
          · rw [hplp] at h2lp
            omega
          · rw [h2cp, hpcp]
        · have hcase2 : limitN ≤ (b :: u2).length := by omega
          have hlenle : limitN ≤ (s1.inputBuffer.drop s1.inputBufferIndex).length := by
            omega
          have hscan := frtq_go_no_quote (s1.inputBuffer.drop s1.inputBufferIndex) limitN q l
            limitN 0 0 (-1) (by omega) (by omega) hlenle
            (fun j hj1 hj2 => hcleanSlice j (by omega) hj2)
          have htill : (findReadTillIndexQuoted (s1.inputBuffer.drop s1.inputBufferIndex)
              limitN [q] [l]).till = limitN := hscan.1
          have hnlb : (findReadTillIndexQuoted (s1.inputBuffer.drop s1.inputBufferIndex)
              limitN [q] [l]).lineSeparatorsFound ≤ limitN := by
            have h2 : (findReadTillIndexQuoted (s1.inputBuffer.drop s1.inputBufferIndex)
                limitN [q] [l]).lineSeparatorsFound ≤ 0 + (limitN - 0) := hscan.2
            omega
          have hr : findReadTillIndexQuoted (s1.inputBuffer.drop s1.inputBufferIndex)
              limitN cfg.quote cfg.lineSeparator =
              ⟨(findReadTillIndexQuoted (s1.inputBuffer.drop s1.inputBufferIndex)
                  limitN [q] [l]).till,
               (findReadTillIndexQuoted (s1.inputBuffer.drop s1.inputBufferIndex)
                  limitN [q] [l]).lineSeparatorsFound,
               (findReadTillIndexQuoted (s1.inputBuffer.drop s1.inputBufferIndex)
                  limitN [q] [l]).lastLineSeparatorEndIndex⟩ := by
            rw [hqeq, hlseq]
          have hstep0 := stepMain_bulk_quoted hic1 hiq1 hdq1 hq1 hup1 hl2 hr
          rw [htill] at hstep0
          have hstepMain := hstep0
          obtain ⟨s2, hstep, hwf2, h2ic, h2iq, h2cd, h2rem, h2el, h2cp, h2lp⟩ :
              ∃ s2, step cfg s1 = .next s2 [] ∧ Wf s2 ∧ s2.inColumn = true ∧
                s2.inQuote = true ∧
                s2.columnData = s1.columnData ++ (remaining s1).take limitN ∧
                remaining s2 = (remaining s1).drop limitN ∧
                s2.emptyLine = s1.emptyLine ∧
                s2.currentPos = s1.currentPos + limitN ∧
                s2.linesProcessed ≤ s1.linesProcessed + limitN := by
            by_cases hnl : 0 < (findReadTillIndexQuoted
                (s1.inputBuffer.drop s1.inputBufferIndex) limitN [q] [l]).lineSeparatorsFound
            · rw [if_pos hnl, if_pos (by omega)] at hstepMain
              have hkle2 : limitN ≤ unprocessed s1 := by omega
              refine ⟨{ readCharsN s1 limitN with
                  linesProcessed := (readCharsN s1 limitN).linesProcessed +
                    (findReadTillIndexQuoted (s1.inputBuffer.drop s1.inputBufferIndex)
                      limitN [q] [l]).lineSeparatorsFound
                  lastLineStartPos := ((s1.currentPos : Int) +
                    (findReadTillIndexQuoted (s1.inputBuffer.drop s1.inputBufferIndex)
                      limitN [q] [l]).lastLineSeparatorEndIndex).toNat },
                by rw [step_eq_stepMain hnorm1]; exact hstepMain,
                ⟨(wf_readCharsN hwf1 hkle2).1, (wf_readCharsN hwf1 hkle2).2⟩,
                hic1, hiq1, ?_, ?_, ?_, ?_, ?_⟩
              · show (readCharsN s1 limitN).columnData = _
                rw [columnData_readCharsN (by omega)]
              · show remaining (readCharsN s1 limitN) = _
                rw [remaining_readCharsN (by omega)]
              · rfl
              · rfl
              · show (readCharsN s1 limitN).linesProcessed +
                  (findReadTillIndexQuoted (s1.inputBuffer.drop s1.inputBufferIndex)
                    limitN [q] [l]).lineSeparatorsFound ≤
                  s1.linesProcessed + limitN
                show s1.linesProcessed + _ ≤ s1.linesProcessed + limitN
                omega
            · rw [if_neg hnl, if_pos (by omega)] at hstepMain
              refine ⟨_, by rw [step_eq_stepMain hnorm1]; exact hstepMain,
                wf_readCharsN hwf1 (by omega), hic1, hiq1,
                columnData_readCharsN (by omega),
                remaining_readCharsN (by omega), rfl, rfl, by
                  show s1.linesProcessed ≤ s1.linesProcessed + limitN
                  omega⟩
          obtain ⟨s', hrun', hwf', hc1, hc2, hc3, hc4, hc5, hc6, hc7⟩ :=
            ih ((b :: u2).drop limitN) tail2 s2
              (by
                simp only [List.length_drop, List.length_cons] at hd ⊢
                omega)
              hwf2 h2ic h2iq
              (fun x hx => hfree x (List.mem_of_mem_drop hx))
              (by
                rw [h2rem, hrem1]
                show ((b :: u2) ++ q :: tail2).drop limitN = (b :: u2).drop limitN ++ q :: tail2
                rw [List.drop_append_of_le_length hcase2])
          refine ⟨s', RunTo.trans hrun1 (RunTo.trans (runTo_silent hstep) hrun'), hwf',
            hc1, hc2, ?_, hc4, ?_, ?_, ?_⟩
          · rw [hc3, h2cd, hpcd, hrem1]
            show s.columnData ++ ((b :: u2) ++ q :: tail2).take limitN ++ (b :: u2).drop limitN =
              s.columnData ++ (b :: u2)
            rw [List.take_append_of_le_length hcase2, List.append_assoc,
              List.take_append_drop]
          · rw [hc5, h2el]
            exact hpel
          · rw [hplp] at h2lp
            simp only [List.length_drop] at hc6
            omega
          · rw [hc7, h2cp, hpcp]
            simp only [List.length_drop]
            omega

/-- Consuming the doubled encoding of arbitrary cell bytes inside a quoted
cell: quote-free runs are bulk-copied and each embedded doubled quote is
collapsed by the double-quote rule to a single quote byte in the column
buffer, leaving the closing quote pending. -/
theorem consume_quoted {cfg : CSVReaderConfig} {l q : Nat}
    (hlseq : cfg.lineSeparator = [l]) (hqeq : cfg.quote = [q])
    (hlim : 1 ≤ cfg.inputBufferIndexLimit) :
    ∀ (d : Nat) (b rest : Bytes) (s : CSVReaderState), b.length ≤ d → Wf s →
    s.inColumn = true → s.inQuote = true →
    remaining s = doubleQuotesEnc [q] b ++ q :: rest →
    ∃ s', RunTo cfg s [] s' ∧ Wf s' ∧
      s'.inColumn = true ∧ s'.inQuote = true ∧
      s'.columnData = s.columnData ++ b ∧
      remaining s' = q :: rest ∧
      s'.emptyLine = s.emptyLine ∧
      s'.linesProcessed ≤ s.linesProcessed + (doubleQuotesEnc [q] b).length ∧
      s'.currentPos = s.currentPos + (doubleQuotesEnc [q] b).length := by
  have hdqeq : cfg.doubleQuote = [q, q] := by
    unfold CSVReaderConfig.doubleQuote
    rw [hqeq]
    rfl
  intro d
  induction d with
  | zero =>
    intro b rest s hd hwf hic hiq hrem
    have hb : b = [] := List.length_eq_zero.mp (by omega)
    subst hb
    exact ⟨s, RunTo.refl, hwf, hic, hiq, by simp, by simpa [dqe_nil] using hrem, rfl,
      by omega, by simp [dqe_nil]⟩
  | succ d ih =>
    intro b rest s hd hwf hic hiq hrem
    by_cases hb : b = []
    · subst hb
      exact ⟨s, RunTo.refl, hwf, hic, hiq, by simp, by simpa [dqe_nil] using hrem, rfl,
        by omega, by simp [dqe_nil]⟩
    · set u := b.takeWhile (fun x => decide (x ≠ q)) with hudef
      have hsplit : u ++ b.dropWhile (fun x => decide (x ≠ q)) = b := by
        rw [hudef]
        simp
      have hufree : ∀ x ∈ u, x ≠ q := by
        intro x hx
        rw [hudef] at hx
        have h2 := List.mem_takeWhile_imp hx
        simpa using h2
      rcases dropWhile_ne_head q b with hdw | ⟨b3, hdw⟩
      · have hfreeb : ∀ x ∈ b, x ≠ q := by
          intro x hx
          apply hufree
          rw [← hsplit, hdw, List.append_nil] at hx
          exact hx
        have henc : doubleQuotesEnc [q] b = b := by
          have h2 := dqe_append_free ([] : Bytes) hfreeb
          rw [List.append_nil] at h2
          rw [dqe_nil, List.append_nil] at h2
          exact h2
        obtain ⟨s', hrun', hwf', hc1, hc2, hc3, hc4, hc5, hc6, hc7⟩ :=
          consume_quoted_run hlseq hqeq hlim b.length b rest s (le_refl _)
            hwf hic hiq hfreeb (by rw [hrem, henc])
        refine ⟨s', hrun', hwf', hc1, hc2, hc3, hc4, hc5, ?_, ?_⟩
        · rw [henc]
          exact hc6
        · rw [henc]
          exact hc7
      · have hbsplit : b = u ++ q :: b3 := by
          rw [← hsplit, hdw]
        have henc : doubleQuotesEnc [q] b = u ++ q :: q :: doubleQuotesEnc [q] b3 := by
          conv_lhs => rw [hbsplit]
          rw [dqe_append_free (q :: b3) hufree, dqe_cons_q]
        have hrem2 : remaining s = u ++ q ::
            ((q :: doubleQuotesEnc [q] b3) ++ q :: rest) := by
          rw [hrem, henc]
          simp
        obtain ⟨s2, hrun2, hwf2, h2ic, h2iq, h2cd, h2rem, h2el, h2lp, h2cp⟩ :=
          consume_quoted_run hlseq hqeq hlim u.length u
            ((q :: doubleQuotesEnc [q] b3) ++ q :: rest) s (le_refl _)
            hwf hic hiq hufree hrem2
        obtain ⟨s3, hrun3, hwf3, hnorm3, hprem, hpcd, hpic, hpiq, hpel, hpcp,
          hplp, hpll⟩ := normalize cfg s2 hwf2 hlim
        have hrem3 : remaining s3 = q :: q :: (doubleQuotesEnc [q] b3 ++ q :: rest) := by
          rw [hprem, h2rem]
          rfl
        have hup3 : 2 ≤ unprocessed s3 := by
          rcases hnorm3.1 with he | hres
          · have h2 := remaining_of_readerEmpty s3 hwf3 he
            have h3 := loadedTail_length s3
            rw [← h2, hrem3] at h3
            simp only [List.length_cons] at h3
            omega
          · have h2 := dq_le_minReserve cfg
            rw [hdqeq] at h2
            simp only [List.length_cons, List.length_nil] at h2
            omega
        have hdq3 : hasNextState s3 cfg.doubleQuote = true := by
          rw [hdqeq]
          apply hasNext_of_prefix_le
          · rw [hrem3]
            exact ⟨doubleQuotesEnc [q] b3 ++ q :: rest, rfl⟩
          · simpa using hup3
        have hstep : step cfg s3 = .next
            (skipN { s3 with columnData := s3.columnData ++ [q] } 2) [] := by
          rw [step_eq_stepMain hnorm3]
          have h4 := stepMain_doubleQuote (by rw [hpic, h2ic]) (by rw [hpiq, h2iq]) hdq3
          rw [hqeq, hdqeq] at h4
          exact h4
        have hwf4 : Wf (skipN { s3 with columnData := s3.columnData ++ [q] } 2) :=
          wf_skipN ⟨hwf3.1, hwf3.2⟩ (by show 2 ≤ unprocessed s3; omega)
        obtain ⟨s', hrun', hwf', hc1, hc2, hc3, hc4, hc5, hc6, hc7⟩ :=
          ih b3 rest (skipN { s3 with columnData := s3.columnData ++ [q] } 2)
            (by
              have hlen : b.length = u.length + 1 + b3.length := by
                rw [hbsplit]
                simp only [List.length_append, List.length_cons]
                omega
              omega)
            hwf4
            (by show s3.inColumn = true; rw [hpic, h2ic])
            (by show s3.inQuote = true; rw [hpiq, h2iq])
            (by
              show remaining (skipN s3 2) = doubleQuotesEnc [q] b3 ++ q :: rest
              rw [remaining_skipN (by show 2 ≤ unprocessed s3; omega), hrem3]
              rfl)
        refine ⟨s', RunTo.trans hrun2 (RunTo.trans hrun3
          (RunTo.trans (runTo_silent hstep) hrun')), hwf', hc1, hc2, ?_, hc4, ?_, ?_, ?_⟩
        · rw [hc3]
          show s3.columnData ++ [q] ++ b3 = s.columnData ++ b
          rw [hpcd, h2cd, hbsplit]
          simp
        · rw [hc5]
          show s3.emptyLine = s.emptyLine
          rw [hpel, h2el]
        · have hlen : (doubleQuotesEnc [q] b).length
              = u.length + 2 + (doubleQuotesEnc [q] b3).length := by
            rw [henc]
            simp only [List.length_append, List.length_cons]
            omega
          have hlp4 : (skipN { s3 with columnData := s3.columnData ++ [q] } 2).linesProcessed
              = s3.linesProcessed := rfl
          rw [hlp4] at hc6
          rw [hplp] at hc6
          omega
        · have hlen : (doubleQuotesEnc [q] b).length
              = u.length + 2 + (doubleQuotesEnc [q] b3).length := by
            rw [henc]
            simp only [List.length_append, List.length_cons]
            omega
          have hcp4 : (skipN { s3 with columnData := s3.columnData ++ [q] } 2).currentPos
              = s3.currentPos + 2 := rfl
          rw [hcp4, hpcp, h2cp] at hc7
          omega

/-- A complete run on an input that is a single quoted cell: the opening
quote enters quote mode, the doubled encoding is decoded into the column
buffer, the closing quote ends the cell, and the end of input delivers the
cell with exactly the original bytes. -/
theorem parse_quoted_single {cfg : CSVReaderConfig} {cs l q : Nat}
    (hcseq : cfg.columnSeparator = [cs]) (hlseq : cfg.lineSeparator = [l])
    (hqeq : cfg.quote = [q]) (hlim : 1 ≤ cfg.inputBufferIndexLimit)
    (hql : q ≠ l) (hqc : q ≠ cs) (hfrom0 : cfg.fromLine = 0)
    (b : Bytes) (chunks : List Bytes) (st : Stats)
    (hchunks : chunks.flatten = q :: (doubleQuotesEnc [q] b ++ [q]))
    (hbom : utfBom.isPrefixOf (q :: (doubleQuotesEnc [q] b ++ [q])) = false)
    (hto : (doubleQuotesEnc [q] b).length < cfg.toLine) :
    ∃ s', Run cfg (initState cfg chunks st)
      [CSVEvent.cell b, CSVEvent.rowEnd, CSVEvent.endOfStream] s' := by
  have hwf0 : Wf (initState cfg chunks st) := by
    constructor
    · exact Nat.zero_le _
    · intro h
      cases h
  have hrem0 : remaining (initState cfg chunks st)
      = q :: (doubleQuotesEnc [q] b ++ [q]) := by
    show ([] : Bytes).drop 0 ++ chunks.flatten = _
    rw [hchunks]
    rfl
  obtain ⟨s1, hrun1, hwf1, hnorm1, hprem, hpcd, hpic, hpiq, hpel, hpcp, hplp,
    hpll⟩ := normalize cfg (initState cfg chunks st) hwf0 hlim
  have hrem1 : remaining s1 = q :: (doubleQuotesEnc [q] b ++ [q]) := by
    rw [hprem, hrem0]
  have hhead1 : (remaining s1).get? 0 = some q := by
    rw [hrem1]
    rfl
  have hup1 : 0 < unprocessed s1 :=
    unprocessed_pos_of_remaining_ne hwf1 hnorm1 (by rw [hrem1]; simp)
  have hic1 : s1.inColumn = false := by
    rw [hpic]
    rfl
  have hlp1 : s1.linesProcessed = 0 := by
    rw [hplp]
    rfl
  have hfrom1 : cfg.fromLine ≤ s1.linesProcessed := by omega
  have hto1 : s1.linesProcessed < cfg.toLine := by omega
  have hbomG1 : ¬(s1.currentPos = 0 ∧ hasNextState s1 utfBom = true) := by
    apply bom_guard
    intro h0
    rw [hprem, hrem0]
    exact hbom
  have hls1 : hasNextState s1 cfg.lineSeparator = false := by
    rw [hlseq]
    exact hasNext_false_of_head_ne hhead1 rfl hql
  have hcs1 : hasNextState s1 cfg.columnSeparator = false := by
    rw [hcseq]
    exact hasNext_false_of_head_ne hhead1 rfl hqc
  have hqt1 : hasNextState { s1 with inColumn := true, emptyLine := false }
      cfg.quote = true := by
    show hasNextState s1 cfg.quote = true
    rw [hqeq]
    exact hasNext_single_true hwf1 hnorm1 hhead1
  have hstep1 : step cfg s1 = .next
      (skipN { s1 with emptyLine := false, inQuote := true, inColumn := true } 1)
      [] := by
    rw [step_eq_stepMain hnorm1]
    have h9 := stepMain_startCol_quote hic1 hfrom1 hto1 hbomG1 (by omega)
      hls1 hcs1 hqt1
    rw [hqeq] at h9
    exact h9
  have hwf2 : Wf (skipN { s1 with emptyLine := false, inQuote := true, inColumn := true } 1) :=
    wf_skipN ⟨hwf1.1, hwf1.2⟩ (by show 1 ≤ unprocessed s1; omega)
  obtain ⟨s3, hrun3, hwf3, h3ic, h3iq, h3cd, h3rem, h3el, h3lp, h3cp⟩ :=
    consume_quoted hlseq hqeq hlim b.length b []
      (skipN { s1 with emptyLine := false, inQuote := true, inColumn := true } 1)
      (le_refl _) hwf2 rfl rfl
      (by
        show remaining (skipN { s1 with emptyLine := false, inQuote := true, inColumn := true } 1) = doubleQuotesEnc [q] b ++ q :: []
        rw [remaining_skipN (by show 1 ≤ unprocessed s1; omega)]
        show (remaining s1).drop 1 = doubleQuotesEnc [q] b ++ [q]
        rw [hrem1]
        rfl)
  have h3cdb : s3.columnData = b := by
    rw [h3cd]
    show s1.columnData ++ b = b
    rw [hpcd]
    rfl
  have h3elf : s3.emptyLine = false := by
    rw [h3el]
    rfl
  have h3lpb : s3.linesProcessed ≤ (doubleQuotesEnc [q] b).length := by
    have h2 : (skipN { s1 with emptyLine := false, inQuote := true, inColumn := true } 1).linesProcessed = s1.linesProcessed := rfl
    rw [h2, hlp1] at h3lp
    omega
  obtain ⟨s4, hrun4, hwf4, hnorm4, hqrem, hqcd, hqic, hqiq, hqel, hqcp, hqlp,
    hqll⟩ := normalize cfg s3 hwf3 hlim
  have hrem4 : remaining s4 = [q] := by
    rw [hqrem, h3rem]
  have hhead4 : (remaining s4).get? 0 = some q := by
    rw [hrem4]
    rfl
  have hup4 : 0 < unprocessed s4 :=
    unprocessed_pos_of_remaining_ne hwf4 hnorm4 (by rw [hrem4]; simp)
  have hdq4 : hasNextState s4 cfg.doubleQuote = false := by
    cases hv : hasNextState s4 cfg.doubleQuote with
    | false => rfl
    | true =>
      have hp : cfg.doubleQuote <+: remaining s4 :=
        ((hasNextState_iff s4 cfg.doubleQuote).mp hv).trans
          (loadedTail_prefix_remaining s4)
      have hlen := hp.length_le
      rw [hrem4] at hlen
      unfold CSVReaderConfig.doubleQuote at hlen
      rw [hqeq] at hlen
      simp at hlen
  have hq4 : hasNextState s4 cfg.quote = true := by
    rw [hqeq]
    exact hasNext_single_true hwf4 hnorm4 hhead4
  have hok : ¬(0 < unprocessed (skipN { s4 with inQuote := false, inColumn := false } cfg.quote.length) ∧
      hasNextState (skipN { s4 with inQuote := false, inColumn := false }
        cfg.quote.length) cfg.lineSeparator = false ∧
      hasNextState (skipN { s4 with inQuote := false, inColumn := false }
        cfg.quote.length) cfg.columnSeparator = false) := by
    intro hcon
    have h0 : unprocessed (skipN { s4 with inQuote := false, inColumn := false } cfg.quote.length) = 0 := by
      apply unprocessed_zero_of_remaining_nil
      rw [hqeq]
      show remaining (skipN { s4 with inQuote := false, inColumn := false } 1) = []
      rw [remaining_skipN (by show 1 ≤ unprocessed s4; omega)]
      show (remaining s4).drop 1 = []
      rw [hrem4]
      rfl
    omega
  have hic4 : s4.inColumn = true := by rw [hqic, h3ic]
  have hiq4 : s4.inQuote = true := by rw [hqiq, h3iq]
  have hstep4 : step cfg s4 = .next
      (skipN { s4 with inQuote := false, inColumn := false } 1) [] := by
    rw [step_eq_stepMain hnorm4]
    have h5 := stepMain_closeQuote_ok hic4 hiq4 hdq4 hq4 hok
    rw [hqeq] at h5
    exact h5
  have hwf5 : Wf (skipN { s4 with inQuote := false, inColumn := false } 1) :=
    wf_skipN ⟨hwf4.1, hwf4.2⟩ (by show 1 ≤ unprocessed s4; omega)
  obtain ⟨s6, hrun6, hwf6, hnorm6, hrrem, hrcd, hric, hriq, hrel, hrcp, hrlp,
    hrll⟩ := normalize cfg (skipN { s4 with inQuote := false, inColumn := false } 1) hwf5 hlim
  have hrem6 : remaining s6 = [] := by
    rw [hrrem]
    show remaining (skipN { s4 with inQuote := false, inColumn := false } 1) = []
    rw [remaining_skipN (by show 1 ≤ unprocessed s4; omega)]
    show (remaining s4).drop 1 = []
    rw [hrem4]
    rfl
  have hup6 : unprocessed s6 = 0 := unprocessed_zero_of_remaining_nil hrem6
  have hic6 : s6.inColumn = false := by
    rw [hric]
    rfl
  have hel6 : s6.emptyLine = false := by
    rw [hrel]
    show s4.emptyLine = false
    rw [hqel, h3elf]
  have hlp6 : s6.linesProcessed ≤ (doubleQuotesEnc [q] b).length := by
    have h2 : (skipN { s4 with inQuote := false, inColumn := false } 1).linesProcessed = s4.linesProcessed := rfl
    rw [hrlp, h2, hqlp]
    exact h3lpb
  have hcd6 : s6.columnData = b := by
    rw [hrcd]
    show s4.columnData = b
    rw [hqcd, h3cdb]
  have hcp6 : s6.currentPos ≠ 0 := by
    have h2 : (skipN { s4 with inQuote := false, inColumn := false } 1).currentPos = s4.currentPos + 1 := rfl
    rw [hrcp, h2]
    omega
  have hstep6 : step cfg s6 = .halt { s6 with columnData := [] }
      [.cell b, .rowEnd, .endOfStream] := by
    rw [step_eq_stepMain hnorm6]
    have h7 := stepMain_eof_row hic6 (by rw [hfrom0]; omega)
      (by omega) (by intro hcon; exact hcp6 hcon.1) hup6 hel6
    rw [hcd6] at h7
    exact h7
  refine ⟨{ s6 with columnData := [] }, ?_⟩
  have hall := RunTo.run hrun1 (RunTo.run (runTo_silent hstep1)
    (RunTo.run hrun3 (RunTo.run hrun4 (RunTo.run (runTo_silent hstep4)
      (RunTo.run hrun6 (Run.halt hstep6))))))
  simpa using hall

/-- When the unquoted bulk read is about to scan and the next byte is the
quote byte with more than one byte of scan allowance, the parser halts with
the unexpected-quote-in-unquoted-field error at the current position. -/
theorem quote_in_unquoted_halts {cfg : CSVReaderConfig} {cs l q : Nat}
    (hcseq : cfg.columnSeparator = [cs]) (hlseq : cfg.lineSeparator = [l])
    (hqeq : cfg.quote = [q]) (hql : q ≠ l) (hqc : q ≠ cs)
    {s : CSVReaderState} (hwf : Wf s) (hn : Normal cfg s)
    (hic : s.inColumn = true) (hiq : s.inQuote = false)
    (hhead : (remaining s).get? 0 = some q)
    (hlim2 : 1 < min (((s.inputBuffer.drop s.inputBufferIndex).length : Int) -
      (cfg.minPossibleBufferReserve : Int))
      ((s.columnBufferLen : Int) - (s.columnData.length : Int))) :
    step cfg s = .halt s
      [.fail (.unexpectedQuoteInUnquoted (s.linesProcessed + 1)
        ((s.currentPos : Int) - (s.lastLineStartPos : Int) + 1))] := by
  have hne : remaining s ≠ [] := by
    intro hc
    rw [hc] at hhead
    cases hhead
  have hup : 0 < unprocessed s := unprocessed_pos_of_remaining_ne hwf hn hne
  have hls : hasNextState s cfg.lineSeparator = false := by
    rw [hlseq]
    exact hasNext_false_of_head_ne hhead rfl hql
  have hcsf : hasNextState s cfg.columnSeparator = false := by
    rw [hcseq]
    exact hasNext_false_of_head_ne hhead rfl hqc
  have hend : ¬(unprocessed s = 0 ∨ hasNextState s cfg.lineSeparator = true ∨
      hasNextState s cfg.columnSeparator = true) := by
    intro h
    rcases h with h | h | h
    · omega
    · rw [hls] at h
      cases h
    · rw [hcsf] at h
      cases h
  have hslicelen : (s.inputBuffer.drop s.inputBufferIndex).length = unprocessed s :=
    loadedTail_length s
  have hget0 : (s.inputBuffer.drop s.inputBufferIndex).get? 0 = some q := by
    have h2 : (loadedTail s).get? 0 = (remaining s).get? 0 :=
      prefix_get? (loadedTail_prefix_remaining s)
        (by rw [loadedTail_length]; omega)
    rw [← hhead]
    exact h2
  have hlimpos : 0 < (min (((s.inputBuffer.drop s.inputBufferIndex).length : Int) -
      (cfg.minPossibleBufferReserve : Int))
      ((s.columnBufferLen : Int) - (s.columnData.length : Int))).toNat := by
    omega
  have hscan := frt_found_here (s.inputBuffer.drop s.inputBufferIndex)
    (min (((s.inputBuffer.drop s.inputBufferIndex).length : Int) -
      (cfg.minPossibleBufferReserve : Int))
      ((s.columnBufferLen : Int) - (s.columnData.length : Int))).toNat
    l cs q 0 (by omega) (by omega)
    (Or.inr (Or.inr hget0))
  rw [if_neg (by
      rw [hget0]
      intro hc
      injection hc with hc2
      exact hql hc2),
    if_neg (by
      rw [hget0]
      intro hc
      injection hc with hc2
      exact hqc hc2)] at hscan
  have hr : findReadTillIndex (s.inputBuffer.drop s.inputBufferIndex)
      (min (((s.inputBuffer.drop s.inputBufferIndex).length : Int) -
        (cfg.minPossibleBufferReserve : Int))
        ((s.columnBufferLen : Int) - (s.columnData.length : Int))).toNat
      cfg.lineSeparator cfg.columnSeparator cfg.quote = (0, .QUOTE) := by
    rw [hlseq, hcseq, hqeq]
    exact hscan
  rw [step_eq_stepMain hn]
  exact stepMain_bulk_unquoted_err hic hiq hend hup hlim2 hr

/-- Every error emitted by a halting iteration of the parse cycle carries
the position of getCurrentPos at the final state: line linesProcessed + 1
and character currentPos - lastLineStartPos + 1. -/
theorem step_error_position (cfg : CSVReaderConfig) (s s1 : CSVReaderState)
    (evs : List CSVEvent) (e : CSVError)
    (hstep : step cfg s = .halt s1 evs) (hmem : CSVEvent.fail e ∈ evs) :
    errLine e = s1.linesProcessed + 1 ∧
    errChar e = (s1.currentPos : Int) - (s1.lastLineStartPos : Int) + 1 := by
  by_cases h1 : s.readerEmpty = false ∧ unprocessed s < cfg.minPossibleBufferReserve
  · cases hc : s.chunks with
    | nil =>
      rw [step_refill_done h1.1 h1.2 hc] at hstep
      exact StepOut.noConfusion hstep
    | cons c rest =>
      rw [step_refill_chunk h1.1 h1.2 hc] at hstep
      exact StepOut.noConfusion hstep
  · by_cases h2 : cfg.inputBufferIndexLimit ≤ s.inputBufferIndex
    · rw [step_shrink h1 h2] at hstep
      exact StepOut.noConfusion hstep
    · by_cases h3 : (s.columnBufferLen : Int) - (s.columnData.length : Int) <
          (cfg.columnBufferReserve : Int)
      · rw [step_expand h1 (by omega) h3] at hstep
        exact StepOut.noConfusion hstep
      · have hnorm : Normal cfg s := by
          refine ⟨?_, by omega, by omega⟩
          cases hre : s.readerEmpty with
          | true => exact Or.inl rfl
          | false =>
            right
            by_contra hlt
            exact h1 ⟨hre, by omega⟩
        rw [step_eq_stepMain hnorm] at hstep
        by_cases hic : s.inColumn = false
        · by_cases c4 : s.linesProcessed < cfg.fromLine
          · cases hf : findReadTillLineSeparatorIndex
                (s.inputBuffer.drop s.inputBufferIndex) cfg.lineSeparator with
            | none =>
              rw [stepMain_skipLine_none hic c4 hf] at hstep
              exact StepOut.noConfusion hstep
            | some idx =>
              rw [stepMain_skipLine_found hic c4 hf] at hstep
              exact StepOut.noConfusion hstep
          · by_cases c5 : cfg.toLine ≤ s.linesProcessed
            · rw [stepMain_toLine hic (by omega) c5] at hstep
              injection hstep with ha hb
              subst ha
              subst hb
              simp at hmem
            · by_cases c6 : s.currentPos = 0 ∧ hasNextState s utfBom = true
              · rw [stepMain_bom hic (by omega) (by omega) c6.1 c6.2] at hstep
                exact StepOut.noConfusion hstep
              · by_cases c7 : unprocessed s = 0
                · by_cases hel : s.emptyLine = false
                  · rw [stepMain_eof_row hic (by omega) (by omega) c6 c7 hel] at hstep
                    injection hstep with ha hb
                    subst ha
                    subst hb
                    simp at hmem
                  · rw [stepMain_eof_blank hic (by omega) (by omega) c6 c7
                      (by simpa using hel)] at hstep
                    injection hstep with ha hb
                    subst ha
                    subst hb
                    simp at hmem
                · by_cases c8 : hasNextState s cfg.lineSeparator = true
                  · by_cases hel : s.emptyLine = false
                    · rw [stepMain_lineSep_row hic (by omega) (by omega) c6 c7
                        c8 hel] at hstep
                      exact StepOut.noConfusion hstep
                    · rw [stepMain_lineSep_blank hic (by omega) (by omega) c6 c7
                        c8 (by simpa using hel)] at hstep
                      exact StepOut.noConfusion hstep
                  · by_cases c9 : hasNextState s cfg.columnSeparator = true
                    · rw [stepMain_colSep hic (by omega) (by omega) c6 c7
                        (by simpa using c8) c9] at hstep
                      exact StepOut.noConfusion hstep
                    · by_cases c10 : hasNextState
                          { s with inColumn := true, emptyLine := false }
                          cfg.quote = true
                      · rw [stepMain_startCol_quote hic (by omega) (by omega) c6 c7
                          (by simpa using c8) (by simpa using c9) c10] at hstep
                        exact StepOut.noConfusion hstep
                      · rw [stepMain_startCol_plain hic (by omega) (by omega) c6 c7
                          (by simpa using c8) (by simpa using c9)
                          (by simpa using c10)] at hstep
                        exact StepOut.noConfusion hstep
        · have hic2 : s.inColumn = true := by simpa using hic
          by_cases hiq : s.inQuote = true
          · by_cases c11 : hasNextState s cfg.doubleQuote = true
            · rw [stepMain_doubleQuote hic2 hiq c11] at hstep
              exact StepOut.noConfusion hstep
            · by_cases c12 : hasNextState s cfg.quote = true
              · by_cases herr : 0 < unprocessed (skipN { s with inQuote := false, inColumn := false } cfg.quote.length) ∧
                    hasNextState (skipN { s with inQuote := false, inColumn := false } cfg.quote.length) cfg.lineSeparator = false ∧
                    hasNextState (skipN { s with inQuote := false, inColumn := false } cfg.quote.length) cfg.columnSeparator = false
                · rw [stepMain_closeQuote_err hic2 hiq (by simpa using c11) c12
                    herr] at hstep
                  injection hstep with ha hb
                  subst ha
                  subst hb
                  simp at hmem
                  subst hmem
                  exact ⟨rfl, rfl⟩
                · rw [stepMain_closeQuote_ok hic2 hiq (by simpa using c11) c12
                    herr] at hstep
                  exact StepOut.noConfusion hstep
              · by_cases cup : 0 < unprocessed s
                · by_cases clim : min (((s.inputBuffer.drop s.inputBufferIndex).length : Int) -
                      (cfg.minPossibleBufferReserve : Int))
                      ((s.columnBufferLen : Int) - (s.columnData.length : Int)) ≤ 1
                  · rw [stepMain_bulk_one_quoted hic2 hiq (by simpa using c11)
                      (by simpa using c12) cup clim] at hstep
                    exact StepOut.noConfusion hstep
                  · rw [stepMain_bulk_quoted hic2 hiq (by simpa using c11)
                      (by simpa using c12) cup (by omega) rfl] at hstep
                    exact StepOut.noConfusion hstep
                · rw [stepMain_unterminated hic2 hiq (by simpa using c11)
                    (by simpa using c12) (by omega)] at hstep
                  injection hstep with ha hb
                  subst ha
                  subst hb
                  simp at hmem
                  subst hmem
                  exact ⟨rfl, rfl⟩
          · have hiq2 : s.inQuote = false := by simpa using hiq
            by_cases c13 : unprocessed s = 0 ∨
                hasNextState s cfg.lineSeparator = true ∨
                hasNextState s cfg.columnSeparator = true
            · rw [stepMain_endUnquoted hic2 hiq2 c13] at hstep
              exact StepOut.noConfusion hstep
            · have cup : 0 < unprocessed s := by
                by_contra hlt
                exact c13 (Or.inl (by omega))
              by_cases clim : min (((s.inputBuffer.drop s.inputBufferIndex).length : Int) -
                  (cfg.minPossibleBufferReserve : Int))
                  ((s.columnBufferLen : Int) - (s.columnData.length : Int)) ≤ 1
              · rw [stepMain_bulk_one hic2 hiq2 c13 cup clim] at hstep
                exact StepOut.noConfusion hstep
              · by_cases herr2 : (findReadTillIndex
                      (s.inputBuffer.drop s.inputBufferIndex)
                      (min (((s.inputBuffer.drop s.inputBufferIndex).length : Int) -
                        (cfg.minPossibleBufferReserve : Int))
                        ((s.columnBufferLen : Int) - (s.columnData.length : Int))).toNat
                      cfg.lineSeparator cfg.columnSeparator cfg.quote).1 = 0 ∧
                    (findReadTillIndex
                      (s.inputBuffer.drop s.inputBufferIndex)
                      (min (((s.inputBuffer.drop s.inputBufferIndex).length : Int) -
                        (cfg.minPossibleBufferReserve : Int))
                        ((s.columnBufferLen : Int) - (s.columnData.length : Int))).toNat
                      cfg.lineSeparator cfg.columnSeparator cfg.quote).2 =
                      FindReadTillIndexType.QUOTE
                · rw [stepMain_bulk_unquoted_err hic2 hiq2 c13 cup (by omega)
                    (by rw [← herr2.1, ← herr2.2])] at hstep
                  injection hstep with ha hb
                  subst ha
                  subst hb
                  simp at hmem
                  subst hmem
                  exact ⟨rfl, rfl⟩
                · rw [stepMain_bulk_unquoted_ok hic2 hiq2 c13 cup (by omega)
                    rfl herr2] at hstep
                  exact StepOut.noConfusion hstep

theorem statsLe_rfl (a : Stats) : statsLe a a := ⟨le_refl _, le_refl _, le_refl _⟩

theorem statsLe_trans {a b c : Stats} (h1 : statsLe a b) (h2 : statsLe b c) :
    statsLe a c :=
  ⟨le_trans h1.1 h2.1, le_trans h1.2.1 h2.2.1, le_trans h1.2.2 h2.2.2⟩

/-- One iteration of the parse cycle never decreases any stats counter. -/
theorem step_stats_le (cfg : CSVReaderConfig) (s : CSVReaderState) :
    statsLe s.stats (stepOutState (step cfg s)).stats := by
  by_cases h1 : s.readerEmpty = false ∧ unprocessed s < cfg.minPossibleBufferReserve
  · cases hc : s.chunks with
    | nil =>
      rw [step_refill_done h1.1 h1.2 hc]
      exact ⟨Nat.le_succ _, le_refl _, le_refl _⟩
    | cons c rest =>
      rw [step_refill_chunk h1.1 h1.2 hc]
      exact ⟨Nat.le_succ _, le_refl _, le_refl _⟩
  · by_cases h2 : cfg.inputBufferIndexLimit ≤ s.inputBufferIndex
    · rw [step_shrink h1 h2]
      exact ⟨le_refl _, Nat.le_succ _, le_refl _⟩
    · by_cases h3 : (s.columnBufferLen : Int) - (s.columnData.length : Int) <
          (cfg.columnBufferReserve : Int)
      · rw [step_expand h1 (by omega) h3]
        exact ⟨le_refl _, le_refl _, Nat.le_succ _⟩
      · have hnorm : Normal cfg s := by
          refine ⟨?_, by omega, by omega⟩
          cases hre : s.readerEmpty with
          | true => exact Or.inl rfl
          | false =>
            right
            by_contra hlt
            exact h1 ⟨hre, by omega⟩
        rw [step_eq_stepMain hnorm]
        by_cases hic : s.inColumn = false
        · by_cases c4 : s.linesProcessed < cfg.fromLine
          · cases hf : findReadTillLineSeparatorIndex
                (s.inputBuffer.drop s.inputBufferIndex) cfg.lineSeparator with
            | none =>
              rw [stepMain_skipLine_none hic c4 hf]
              exact statsLe_rfl _
            | some idx =>
              rw [stepMain_skipLine_found hic c4 hf]
              exact statsLe_rfl _
          · by_cases c5 : cfg.toLine ≤ s.linesProcessed
            · rw [stepMain_toLine hic (by omega) c5]
              exact statsLe_rfl _
            · by_cases c6 : s.currentPos = 0 ∧ hasNextState s utfBom = true
              · rw [stepMain_bom hic (by omega) (by omega) c6.1 c6.2]
                exact statsLe_rfl _
              · by_cases c7 : unprocessed s = 0
                · by_cases hel : s.emptyLine = false
                  · rw [stepMain_eof_row hic (by omega) (by omega) c6 c7 hel]
                    exact statsLe_rfl _
                  · rw [stepMain_eof_blank hic (by omega) (by omega) c6 c7
                      (by simpa using hel)]
                    exact statsLe_rfl _
                · by_cases c8 : hasNextState s cfg.lineSeparator = true
                  · by_cases hel : s.emptyLine = false
                    · rw [stepMain_lineSep_row hic (by omega) (by omega) c6 c7 c8 hel]
                      exact statsLe_rfl _
                    · rw [stepMain_lineSep_blank hic (by omega) (by omega) c6 c7 c8
                        (by simpa using hel)]
                      exact statsLe_rfl _
                  · by_cases c9 : hasNextState s cfg.columnSeparator = true
                    · rw [stepMain_colSep hic (by omega) (by omega) c6 c7
                        (by simpa using c8) c9]
                      exact statsLe_rfl _
                    · by_cases c10 : hasNextState
                          { s with inColumn := true, emptyLine := false }
                          cfg.quote = true
                      · rw [stepMain_startCol_quote hic (by omega) (by omega) c6 c7
                          (by simpa using c8) (by simpa using c9) c10]
                        exact statsLe_rfl _
                      · rw [stepMain_startCol_plain hic (by omega) (by omega) c6 c7
                          (by simpa using c8) (by simpa using c9)
                          (by simpa using c10)]
                        exact statsLe_rfl _
        · have hic2 : s.inColumn = true := by simpa using hic
          by_cases hiq : s.inQuote = true
          · by_cases c11 : hasNextState s cfg.doubleQuote = true
            · rw [stepMain_doubleQuote hic2 hiq c11]
              exact statsLe_rfl _
            · by_cases c12 : hasNextState s cfg.quote = true
              · by_cases herr : 0 < unprocessed (skipN { s with inQuote := false, inColumn := false } cfg.quote.length) ∧
                    hasNextState (skipN { s with inQuote := false, inColumn := false } cfg.quote.length) cfg.lineSeparator = false ∧
                    hasNextState (skipN { s with inQuote := false, inColumn := false } cfg.quote.length) cfg.columnSeparator = false
                · rw [stepMain_closeQuote_err hic2 hiq (by simpa using c11) c12 herr]
                  exact statsLe_rfl _
                · rw [stepMain_closeQuote_ok hic2 hiq (by simpa using c11) c12 herr]
                  exact statsLe_rfl _
              · by_cases cup : 0 < unprocessed s
                · by_cases clim : min (((s.inputBuffer.drop s.inputBufferIndex).length : Int) -
                      (cfg.minPossibleBufferReserve : Int))
                      ((s.columnBufferLen : Int) - (s.columnData.length : Int)) ≤ 1
                  · rw [stepMain_bulk_one_quoted hic2 hiq (by simpa using c11)
                      (by simpa using c12) cup clim]
                    exact statsLe_rfl _
                  · rw [stepMain_bulk_quoted hic2 hiq (by simpa using c11)
                      (by simpa using c12) cup (by omega) rfl]
                    show statsLe s.stats (stepOutState (.next _ _)).stats
                    repeat' split
                    all_goals exact statsLe_rfl _
                · rw [stepMain_unterminated hic2 hiq (by simpa using c11)
                    (by simpa using c12) (by omega)]
                  exact statsLe_rfl _
          · have hiq2 : s.inQuote = false := by simpa using hiq
            by_cases c13 : unprocessed s = 0 ∨
                hasNextState s cfg.lineSeparator = true ∨
                hasNextState s cfg.columnSeparator = true
            · rw [stepMain_endUnquoted hic2 hiq2 c13]
              exact statsLe_rfl _
            · have cup : 0 < unprocessed s := by
                by_contra hlt
                exact c13 (Or.inl (by omega))
              by_cases clim : min (((s.inputBuffer.drop s.inputBufferIndex).length : Int) -
                  (cfg.minPossibleBufferReserve : Int))
                  ((s.columnBufferLen : Int) - (s.columnData.length : Int)) ≤ 1
              · rw [stepMain_bulk_one hic2 hiq2 c13 cup clim]
                exact statsLe_rfl _
              · by_cases herr2 : (findReadTillIndex
                      (s.inputBuffer.drop s.inputBufferIndex)
                      (min (((s.inputBuffer.drop s.inputBufferIndex).length : Int) -
                        (cfg.minPossibleBufferReserve : Int))
                        ((s.columnBufferLen : Int) - (s.columnData.length : Int))).toNat
                      cfg.lineSeparator cfg.columnSeparator cfg.quote).1 = 0 ∧
                    (findReadTillIndex
                      (s.inputBuffer.drop s.inputBufferIndex)
                      (min (((s.inputBuffer.drop s.inputBufferIndex).length : Int) -
                        (cfg.minPossibleBufferReserve : Int))
                        ((s.columnBufferLen : Int) - (s.columnData.length : Int))).toNat
                      cfg.lineSeparator cfg.columnSeparator cfg.quote).2 =
                      FindReadTillIndexType.QUOTE
                · rw [stepMain_bulk_unquoted_err hic2 hiq2 c13 cup (by omega)
                    (by rw [← herr2.1, ← herr2.2])]
                  exact statsLe_rfl _
                · rw [stepMain_bulk_unquoted_ok hic2 hiq2 c13 cup (by omega)
                    rfl herr2]
                  show statsLe s.stats (stepOutState (.next _ _)).stats
                  repeat' split
                  all_goals exact statsLe_rfl _

/-- A complete run of the parse cycle never decreases any stats counter. -/
theorem run_stats_mono {cfg : CSVReaderConfig} {s s1 : CSVReaderState}
    {evs : List CSVEvent} (h : Run cfg s evs s1) : statsLe s.stats s1.stats := by
  induction h with
  | halt hstep =>
    rename_i st st1 evs1
    have h2 := step_stats_le cfg st
    rw [hstep] at h2
    exact h2
  | next hstep hrun ih =>
    rename_i st st1 evs1 evs2 st2
    have h2 := step_stats_le cfg st
    rw [hstep] at h2
    exact statsLe_trans h2 ih

theorem objGo_no_match (header row : List Bytes) (key : Bytes) :
    ∀ (is : List Nat) (acc : Option (Option Bytes)),
    (∀ j ∈ is, header.get? j ≠ some key) →
    is.foldl (fun acc i => if header.get? i = some key then some (row.get? i) else acc)
      acc = acc := by
  intro is
  induction is with
  | nil =>
    intro acc _
    rfl
  | cons j rest ih =>
    intro acc h
    show rest.foldl _ (if header.get? j = some key then some (row.get? j) else acc) = acc
    rw [if_neg (h j (by simp))]
    exact ih acc (fun j2 hj2 => h j2 (List.mem_cons_of_mem j hj2))

theorem objGo_inv (header row : List Bytes) (key : Bytes) (i : Nat) :
    ∀ (is : List Nat),
    (∀ j ∈ is, header.get? j = some key → j = i) →
    is.foldl (fun acc j => if header.get? j = some key then some (row.get? j) else acc)
      (some (row.get? i)) = some (row.get? i) := by
  intro is
  induction is with
  | nil =>
    intro _
    rfl
  | cons j rest ih =>
    intro h
    show rest.foldl _ (if header.get? j = some key then some (row.get? j)
      else some (row.get? i)) = some (row.get? i)
    by_cases hj : header.get? j = some key
    · rw [if_pos hj, h j (by simp) hj]
      exact ih (fun j2 hj2 => h j2 (List.mem_cons_of_mem j hj2))
    · rw [if_neg hj]
      exact ih (fun j2 hj2 => h j2 (List.mem_cons_of_mem j hj2))

theorem objGo_mem (header row : List Bytes) (key : Bytes) (i : Nat)
    (hat : header.get? i = some key) :
    ∀ (is : List Nat) (acc : Option (Option Bytes)), i ∈ is →
    (∀ j ∈ is, header.get? j = some key → j = i) →
    is.foldl (fun acc j => if header.get? j = some key then some (row.get? j) else acc)
      acc = some (row.get? i) := by
  intro is
  induction is with
  | nil =>
    intro acc hmem
    cases hmem
  | cons j rest ih =>
    intro acc hmem huniq
    show rest.foldl _ (if header.get? j = some key then some (row.get? j) else acc)
      = some (row.get? i)
    by_cases hj : header.get? j = some key
    · rw [if_pos hj, huniq j (by simp) hj]
      exact objGo_inv header row key i rest
        (fun j2 hj2 => huniq j2 (List.mem_cons_of_mem j hj2))
    · rw [if_neg hj]
      have hmem2 : i ∈ rest := by
        rcases List.mem_cons.mp hmem with h | h
        · exact absurd (h ▸ hat) hj
        · exact h
      exact ih acc hmem2 (fun j2 hj2 => huniq j2 (List.mem_cons_of_mem j hj2))

theorem objGet_nodup (header row : List Bytes) (hnd : header.Nodup)
    (i : Nat) (hi : i < header.length) :
    objGet header row (header.get ⟨i, hi⟩) = some (row.get? i) := by
  unfold objGet
  apply objGo_mem header row (header.get ⟨i, hi⟩) i (List.get?_eq_get hi)
  · exact List.mem_range.mpr hi
  · intro j hj hjk
    have hjlen : j < header.length := by
      by_contra hge
      rw [List.get?_eq_none.mpr (by omega)] at hjk
      cases hjk
    rw [List.get?_eq_get hjlen] at hjk
    injection hjk with hjk2
    have h3 := (List.Nodup.get_inj_iff hnd).mp hjk2
    simpa using h3

theorem objGet_not_mem (header row : List Bytes) (key : Bytes)
    (h : key ∉ header) : objGet header row key = none := by
  unfold objGet
  apply objGo_no_match
  intro j _ hjk
  exact h (List.get?_mem hjk)

theorem encodeRow_mem (cs : Nat) :
    ∀ (row : List Bytes) (x : Nat), x ∈ encodeRow cs row →
    x = cs ∨ ∃ c ∈ row, x ∈ c := by
  intro row
  induction row with
  | nil =>
    intro x hx
    cases hx
  | cons c tail ih =>
    intro x hx
    cases tail with
    | nil =>
      exact Or.inr ⟨c, by simp, hx⟩
    | cons c2 rest =>
      rcases List.mem_append.mp hx with h | h
      · exact Or.inr ⟨c, by simp, h⟩
      · rcases List.mem_cons.mp h with h2 | h2
        · exact Or.inl h2
        · rcases ih x h2 with h3 | ⟨d, hd1, hd2⟩
          · exact Or.inl h3
          · exact Or.inr ⟨d, List.mem_cons_of_mem c hd1, hd2⟩

theorem canonicalGo_grid (cs t : Nat) :
    ∀ (grid : List (List Bytes)) (i : Nat),
    i + grid.length ≤ t →
    (∀ row ∈ grid, encodeRow cs row ≠ []) →
    (∀ row ∈ grid, row ≠ []) →
    (∀ row ∈ grid, ∀ c ∈ row, ∀ x ∈ c, x ≠ cs) →
    canonicalGo cs t i (grid.map (encodeRow cs)) = gridEvents grid := by
  intro grid
  induction grid with
  | nil =>
    intro i _ _ _ _
    simp [canonicalGo, gridEvents]
  | cons row tail ih =>
    intro i hlen hnb hne hclean
    cases tail with
    | nil =>
      show canonicalGo cs t i [encodeRow cs row] = gridEvents [row]
      have hle : ¬ t ≤ i := by
        simp only [List.length_cons, List.length_nil] at hlen
        omega
      simp only [canonicalGo]
      rw [if_neg hle, if_neg (hnb row (by simp)),
        splitB_encodeRow (hne row (by simp)) (hclean row (by simp))]
      simp [gridEvents, rowEventsOf]
    | cons r2 rest =>
      show canonicalGo cs t i (encodeRow cs row :: (r2 :: rest).map (encodeRow cs))
        = gridEvents (row :: r2 :: rest)
      have hle : ¬ t ≤ i := by
        simp only [List.length_cons] at hlen
        omega
      simp only [canonicalGo, List.map_cons]
      rw [if_neg hle, if_neg (hnb row (by simp)),
        splitB_encodeRow (hne row (by simp)) (hclean row (by simp))]
      have ih2 := ih (i + 1)
        (by
          simp only [List.length_cons] at hlen ⊢
          omega)
        (fun r hr => hnb r (List.mem_cons_of_mem row hr))
        (fun r hr => hne r (List.mem_cons_of_mem row hr))
        (fun r hr => hclean r (List.mem_cons_of_mem row hr))
      rw [← List.map_cons, ih2]
      simp [gridEvents, rowEventsOf]

theorem collectRows_gridEvents :
    ∀ grid : List (List Bytes), collectRows (gridEvents grid) = grid := by
  intro grid
  induction grid with
  | nil => rfl
  | cons row tail ih =>
    show collectRowsGo [] (((row :: tail).map rowEventsOf).flatten
      ++ [CSVEvent.endOfStream]) = row :: tail
    have h1 : ((row :: tail).map rowEventsOf).flatten ++ [CSVEvent.endOfStream]
        = row.map CSVEvent.cell ++ ([CSVEvent.rowEnd] ++
          ((tail.map rowEventsOf).flatten ++ [CSVEvent.endOfStream])) := by
      simp [rowEventsOf]
    rw [h1, collectRowsGo_cells]
    exact congrArg (List.cons row) ih

theorem grid_qfree {cs l q : Nat} (hne1 : cs ≠ l) (hqc : cs ≠ q) (hql : l ≠ q)
    {grid : List (List Bytes)}
    (hclean : ∀ row ∈ grid, ∀ c ∈ row, ∀ x ∈ c, x ≠ cs ∧ x ≠ l ∧ x ≠ q) :
    ∀ x ∈ encodeGrid cs l grid, x ≠ q := by
  intro x hx
  unfold encodeGrid at hx
  rw [interLines_eq_encodeRow] at hx
  rcases encodeRow_mem l _ x hx with h | ⟨c, hc, hxc⟩
  · exact h ▸ hql
  · obtain ⟨row, hrow, hcr⟩ := List.mem_map.mp hc
    rcases encodeRow_mem cs row x (hcr ▸ hxc) with h2 | ⟨d, hd, hxd⟩
    · exact h2 ▸ hqc
    · exact (hclean row hrow d hd x hxd).2.2

theorem grid_splitB {cs l q : Nat} (hne1 : cs ≠ l)
    {grid : List (List Bytes)} (hgne : grid ≠ [])
    (hclean : ∀ row ∈ grid, ∀ c ∈ row, ∀ x ∈ c, x ≠ cs ∧ x ≠ l ∧ x ≠ q) :
    splitB l (encodeGrid cs l grid) = grid.map (encodeRow cs) := by
  unfold encodeGrid
  apply splitB_interLines
  · intro h
    exact hgne (List.map_eq_nil.mp h)
  · intro ln hln x hx
    obtain ⟨row, hrow, hcr⟩ := List.mem_map.mp hln
    rcases encodeRow_mem cs row x (hcr ▸ hx) with h2 | ⟨d, hd, hxd⟩
    · exact h2 ▸ hne1
    · exact (hclean row hrow d hd x hxd).2.1

/-- Claim C1: on a quote-free grid of cells joined by single-byte column and
line separators with no trailing line separator, the parser emits exactly the
grid's rows in order and the row reader collects exactly the grid — provided
every row's encoding is non-blank; the counterexample claim_C1_counter shows
the restriction is needed, so the claim as stated (every such grid) is
corrected. -/
theorem claim_C1 {cfg : CSVReaderConfig} {cs l q : Nat}
    (hcseq : cfg.columnSeparator = [cs]) (hlseq : cfg.lineSeparator = [l])
    (hqeq : cfg.quote = [q]) (hlim : 1 ≤ cfg.inputBufferIndexLimit)
    (hne1 : cs ≠ l) (hqc : cs ≠ q) (hql : l ≠ q) (hfrom0 : cfg.fromLine = 0)
    (grid : List (List Bytes)) (chunks : List Bytes) (st : Stats)
    (hchunks : chunks.flatten = encodeGrid cs l grid)
    (hclean : ∀ row ∈ grid, ∀ c ∈ row, ∀ x ∈ c, x ≠ cs ∧ x ≠ l ∧ x ≠ q)
    (hnb : ∀ row ∈ grid, encodeRow cs row ≠ [])
    (hgne : grid ≠ []) (hrne : ∀ row ∈ grid, row ≠ [])
    (hbom : utfBom.isPrefixOf (encodeGrid cs l grid) = false)
    (hto : grid.length ≤ cfg.toLine) :
    ∃ s', Run cfg (initState cfg chunks st) (gridEvents grid) s' ∧
      collectRows (gridEvents grid) = grid := by
  have hqfree := grid_qfree hne1 hqc hql hclean
  have hsplit := grid_splitB hne1 hgne hclean
  have hfrom : cfg.fromLine < (splitB l (encodeGrid cs l grid)).length := by
    rw [hfrom0]
    exact List.length_pos.mpr (splitB_ne_nil l _)
  obtain ⟨s', hrun⟩ := parse_noquote_run hcseq hlseq hqeq hlim hne1
    (encodeGrid cs l grid) chunks st hchunks hqfree hbom hfrom
  have hcan : canonicalEvents cs l cfg.fromLine cfg.toLine (encodeGrid cs l grid)
      = gridEvents grid := by
    unfold canonicalEvents
    rw [hfrom0, hsplit, List.drop_zero]
    exact canonicalGo_grid cs cfg.toLine grid 0 (by omega) hnb hrne
      (fun row hr c hc x hx => (hclean row hr c hc x hx).1)
  rw [hcan] at hrun
  exact ⟨s', hrun, collectRows_gridEvents grid⟩

set_option exponentiation.threshold 1200 in
set_option maxRecDepth 100000 in
/-- Witness for claim C1: the grid of the input 1,2\n3,4 under the default
configuration is parsed into exactly its two rows of two cells. -/
theorem claim_C1_witness :
    ∃ s', Run (mkConfig {})
      (initState (mkConfig {}) [[49, 44, 50, 10, 51, 44, 52]] statsZero)
      (gridEvents [[[49], [50]], [[51], [52]]]) s' ∧
      collectRows (gridEvents [[[49], [50]], [[51], [52]]])
        = [[[49], [50]], [[51], [52]]] :=
  claim_C1 rfl rfl rfl (by decide) (by decide) (by decide) (by decide) rfl
    [[[49], [50]], [[51], [52]]] [[49, 44, 50, 10, 51, 44, 52]] statsZero
    (by decide) (by decide) (by decide) (by decide) (by decide) (by decide)
    (by decide)

set_option exponentiation.threshold 1200 in
set_option maxRecDepth 100000 in
/-- Counterexample for claim C1: the grid of two rows of one empty cell each
encodes to the single byte 10 (one line separator, no trailing one), yet the
default-configured reader yields no rows at all instead of two rows of one
empty cell. -/
theorem claim_C1_counter :
    encodeGrid 44 10 [[[]], [[]]] = [10] ∧
    (runFuel (mkConfig {}) 50 (initState (mkConfig {}) [[10]] statsZero)).map
      (fun p => collectRows p.1) = some [] := by
  exact ⟨rfl, by decide⟩

/-- Claim C2: the quoted round-trip holds for every single-byte quote: the
encoding quote ++ double(b) ++ quote of any cell bytes b parses back to the
one-cell row [b]; the counterexample claim_C2_counter shows it fails for a
multi-byte quote, so the claim's "any quote sequence, including multi-byte
ones" is corrected to single-byte quotes. -/
theorem claim_C2 {cfg : CSVReaderConfig} {cs l q : Nat}
    (hcseq : cfg.columnSeparator = [cs]) (hlseq : cfg.lineSeparator = [l])
    (hqeq : cfg.quote = [q]) (hlim : 1 ≤ cfg.inputBufferIndexLimit)
    (hql : q ≠ l) (hqc : q ≠ cs) (hfrom0 : cfg.fromLine = 0)
    (b : Bytes) (chunks : List Bytes) (st : Stats)
    (hchunks : chunks.flatten = q :: (doubleQuotesEnc [q] b ++ [q]))
    (hbom : utfBom.isPrefixOf (q :: (doubleQuotesEnc [q] b ++ [q])) = false)
    (hto : (doubleQuotesEnc [q] b).length < cfg.toLine) :
    ∃ s', Run cfg (initState cfg chunks st)
      [CSVEvent.cell b, CSVEvent.rowEnd, CSVEvent.endOfStream] s' ∧
      collectRows [CSVEvent.cell b, CSVEvent.rowEnd, CSVEvent.endOfStream]
        = [[b]] := by
  obtain ⟨s', h⟩ := parse_quoted_single hcseq hlseq hqeq hlim hql hqc hfrom0
    b chunks st hchunks hbom hto
  exact ⟨s', h, rfl⟩

set_option exponentiation.threshold 1200 in
set_option maxRecDepth 100000 in
/-- Witness for claim C2: the cell bytes a"b quoted with doubling as
"a""b" parse back to the one-cell row a"b under the default configuration. -/
theorem claim_C2_witness :
    ∃ s', Run (mkConfig {})
      (initState (mkConfig {}) [[34, 97, 34, 34, 98, 34]] statsZero)
      [CSVEvent.cell [97, 34, 98], CSVEvent.rowEnd, CSVEvent.endOfStream] s' ∧
      collectRows [CSVEvent.cell [97, 34, 98], CSVEvent.rowEnd,
        CSVEvent.endOfStream] = [[[97, 34, 98]]] :=
  claim_C2 rfl rfl rfl (by decide) (by decide) (by decide) rfl
    [97, 34, 98] [[34, 97, 34, 34, 98, 34]] statsZero
    (by simp [doubleQuotesEnc])
    (by simp [doubleQuotesEnc] ; decide)
    (by simp [doubleQuotesEnc] ; decide)

set_option exponentiation.threshold 1200 in
set_option maxRecDepth 100000 in
/-- Counterexample for claim C2: with the two-byte quote aa, the cell bytes
aaa double to aaaaa, and the quoted form aa ++ aaaaa ++ aa does not parse
back to [aaa]: the reader reports an unexpected-character error and yields no
row, because the self-overlapping doubled quote is matched greedily. -/
theorem claim_C2_counter :
    doubleQuotesEnc [97, 97] [97, 97, 97] = [97, 97, 97, 97, 97] ∧
    (runFuel (mkConfig {quote := some [97, 97]}) 50
      (initState (mkConfig {quote := some [97, 97]})
        [[97, 97, 97, 97, 97, 97, 97, 97, 97]] statsZero)).map
      (fun p => (p.1, collectRows p.1))
      = some ([CSVEvent.fail (CSVError.unexpectedAfterQuote 97 1 9)], []) := by
  constructor
  · simp [doubleQuotesEnc]
  · decide

set_option exponentiation.threshold 1200 in
set_option maxRecDepth 100000 in
/-- Claim C3: a bare quote at the head of an unquoted column makes the parse
cycle halt with UnexpectedQuoteInUnquoted at the current position, whenever
the input buffer still holds more than minPossibleBufferReserve + 1 pending
bytes (so the bulk-read rule is the one that fires); and on the input
1,2 "3",4 the reader emits the cell 1 and then that error.  The
counterexample claim_C3_counter shows the unrestricted claim is corrected:
within minPossibleBufferReserve bytes of the end of input the tail is copied
blindly and a quote is emitted inside a cell with no error. -/
theorem claim_C3 {cfg : CSVReaderConfig} {cs l q : Nat}
    (hcseq : cfg.columnSeparator = [cs]) (hlseq : cfg.lineSeparator = [l])
    (hqeq : cfg.quote = [q]) (hql : q ≠ l) (hqc : q ≠ cs)
    {s : CSVReaderState} (hwf : Wf s) (hn : Normal cfg s)
    (hic : s.inColumn = true) (hiq : s.inQuote = false)
    (hhead : (remaining s).get? 0 = some q)
    (hlim2 : 1 < min (((s.inputBuffer.drop s.inputBufferIndex).length : Int) -
      (cfg.minPossibleBufferReserve : Int))
      ((s.columnBufferLen : Int) - (s.columnData.length : Int))) :
    step cfg s = .halt s
      [.fail (.unexpectedQuoteInUnquoted (s.linesProcessed + 1)
        ((s.currentPos : Int) - (s.lastLineStartPos : Int) + 1))] ∧
    (runFuel (mkConfig {}) 50
      (initState (mkConfig {}) [[49, 44, 50, 32, 34, 51, 34, 44, 52]]
        statsZero)).map (fun p => p.1)
      = some [CSVEvent.cell [49],
          CSVEvent.fail (CSVError.unexpectedQuoteInUnquoted 1 5)] :=
  ⟨quote_in_unquoted_halts hcseq hlseq hqeq hql hqc hwf hn hic hiq hhead hlim2,
    by decide⟩

set_option exponentiation.threshold 1200 in
set_option maxRecDepth 100000 in
/-- Witness for claim C3: a concrete mid-column state whose next byte is a
quote, with ample buffer slack, halts with the error at line 1, character 2. -/
theorem claim_C3_witness :
    step (mkConfig {}) { chunks := [], inputBuffer := [34, 51, 51, 51, 51], inputBufferIndex := 0, columnData := [49], columnBufferLen := 1024, readerEmpty := true, emptyLine := false, inQuote := false, inColumn := true, currentPos := 1, linesProcessed := 0, lastLineStartPos := 0, stats := statsZero }
      = .halt { chunks := [], inputBuffer := [34, 51, 51, 51, 51], inputBufferIndex := 0, columnData := [49], columnBufferLen := 1024, readerEmpty := true, emptyLine := false, inQuote := false, inColumn := true, currentPos := 1, linesProcessed := 0, lastLineStartPos := 0, stats := statsZero }
        [.fail (.unexpectedQuoteInUnquoted 1 2)] ∧
    (runFuel (mkConfig {}) 50
      (initState (mkConfig {}) [[49, 44, 50, 32, 34, 51, 34, 44, 52]]
        statsZero)).map (fun p => p.1)
      = some [CSVEvent.cell [49],
          CSVEvent.fail (CSVError.unexpectedQuoteInUnquoted 1 5)] :=
  claim_C3 rfl rfl rfl (by decide) (by decide) ⟨by decide, fun _ => rfl⟩
    ⟨Or.inl rfl, by decide, by decide⟩ rfl rfl (by decide) (by decide)

set_option exponentiation.threshold 1200 in
set_option maxRecDepth 100000 in
/-- Counterexample for claim C3: the input a" puts the quote within
minPossibleBufferReserve bytes of the end of input; the reader emits the
cell a" containing the quote and ends with no error. -/
theorem claim_C3_counter :
    (runFuel (mkConfig {}) 50
      (initState (mkConfig {}) [[97, 34]] statsZero)).map (fun p => p.1)
      = some [CSVEvent.cell [97, 34], CSVEvent.rowEnd,
          CSVEvent.endOfStream] := by
  decide

set_option exponentiation.threshold 1200 in
set_option maxRecDepth 100000 in
/-- Claim C4: on quote-free input read from line 0, the rows the reader
yields are exactly the non-blank lines, each split at the column separator —
so a line with no bytes between two adjacent line separators is skipped and a
trailing line separator yields no extra row, while a line of separators only
is kept: splitting it yields a row of empty cells, and concretely the
input ,, yields the one row of three empty cells. -/
theorem claim_C4 {cfg : CSVReaderConfig} {cs l q : Nat}
    (hcseq : cfg.columnSeparator = [cs]) (hlseq : cfg.lineSeparator = [l])
    (hqeq : cfg.quote = [q]) (hlim : 1 ≤ cfg.inputBufferIndexLimit)
    (hne1 : cs ≠ l) (hfrom0 : cfg.fromLine = 0)
    (input : Bytes) (chunks : List Bytes) (st : Stats)
    (hchunks : chunks.flatten = input) (hqfree : ∀ x ∈ input, x ≠ q)
    (hbom : utfBom.isPrefixOf input = false) :
    (∃ s', Run cfg (initState cfg chunks st)
        (canonicalEvents cs l 0 cfg.toLine input) s' ∧
      collectRows (canonicalEvents cs l 0 cfg.toLine input)
        = (((splitB l input).take cfg.toLine).filter
            (fun ln => !ln.isEmpty)).map (splitB cs)) ∧
    (runFuel (mkConfig {}) 50
      (initState (mkConfig {}) [[44, 44]] statsZero)).map
      (fun p => collectRows p.1) = some [[[], [], []]] := by
  constructor
  · have hfrom : cfg.fromLine < (splitB l input).length := by
      rw [hfrom0]
      exact List.length_pos.mpr (splitB_ne_nil l input)
    obtain ⟨s', hrun⟩ := parse_noquote_run hcseq hlseq hqeq hlim hne1 input
      chunks st hchunks hqfree hbom hfrom
    rw [hfrom0] at hrun
    refine ⟨s', hrun, ?_⟩
    rw [collectRows_canonicalEvents]
    simp
  · decide

set_option exponentiation.threshold 1200 in
set_option maxRecDepth 100000 in
/-- Witness for claim C4: the input a\n\nb\n has a blank middle line and a
trailing line separator; its canonical run exists and its collected rows are
the filtered split, i.e. [[a]] and [[b]] only, and ,, yields three empty
cells. -/
theorem claim_C4_witness :
    (∃ s', Run (mkConfig {})
        (initState (mkConfig {}) [[97, 10, 10, 98, 10]] statsZero)
        (canonicalEvents 44 10 0 (mkConfig {}).toLine [97, 10, 10, 98, 10]) s' ∧
      collectRows (canonicalEvents 44 10 0 (mkConfig {}).toLine
          [97, 10, 10, 98, 10])
        = (((splitB 10 [97, 10, 10, 98, 10]).take (mkConfig {}).toLine).filter
            (fun ln => !ln.isEmpty)).map (splitB 44)) ∧
    (runFuel (mkConfig {}) 50
      (initState (mkConfig {}) [[44, 44]] statsZero)).map
      (fun p => collectRows p.1) = some [[[], [], []]] :=
  claim_C4 rfl rfl rfl (by decide) (by decide) rfl
    [97, 10, 10, 98, 10] [[97, 10, 10, 98, 10]] statsZero
    (by decide) (by decide) (by decide)

/-- Claim C5: on quote-free input, reading with fromLine = a and toLine = b
yields the window [a, b) of the physical lines of the input, blank lines then
filtered out after windowing — not the window [a, b) of the rows of the full
default read, which filters blank lines before counting; the counterexample
claim_C5_counter separates the two readings, so the claim is corrected. -/
theorem claim_C5 {cfg : CSVReaderConfig} {cs l q : Nat}
    (hcseq : cfg.columnSeparator = [cs]) (hlseq : cfg.lineSeparator = [l])
    (hqeq : cfg.quote = [q]) (hlim : 1 ≤ cfg.inputBufferIndexLimit)
    (hne1 : cs ≠ l) (input : Bytes) (chunks : List Bytes) (st : Stats)
    (hchunks : chunks.flatten = input) (hqfree : ∀ x ∈ input, x ≠ q)
    (hbom : utfBom.isPrefixOf input = false)
    (hfrom : cfg.fromLine < (splitB l input).length) :
    ∃ s', Run cfg (initState cfg chunks st)
      (canonicalEvents cs l cfg.fromLine cfg.toLine input) s' ∧
      collectRows (canonicalEvents cs l cfg.fromLine cfg.toLine input)
        = ((((splitB l input).drop cfg.fromLine).take
            (cfg.toLine - cfg.fromLine)).filter
            (fun ln => !ln.isEmpty)).map (splitB cs) := by
  obtain ⟨s', hrun⟩ := parse_noquote_run hcseq hlseq hqeq hlim hne1 input
    chunks st hchunks hqfree hbom hfrom
  exact ⟨s', hrun, collectRows_canonicalEvents cs l cfg.fromLine cfg.toLine input⟩

set_option exponentiation.threshold 1200 in
set_option maxRecDepth 100000 in
/-- Witness for claim C5: reading a\nb\nc with fromLine = 1 and toLine = 2
runs to the canonical events of the physical-line window and collects exactly
the row [[b]]. -/
theorem claim_C5_witness :
    ∃ s', Run (mkConfig {fromLine := some 1, toLine := some 2})
      (initState (mkConfig {fromLine := some 1, toLine := some 2})
        [[97, 10, 98, 10, 99]] statsZero)
      (canonicalEvents 44 10 (mkConfig {fromLine := some 1, toLine := some 2}).fromLine
        (mkConfig {fromLine := some 1, toLine := some 2}).toLine
        [97, 10, 98, 10, 99]) s' ∧
      collectRows (canonicalEvents 44 10
          (mkConfig {fromLine := some 1, toLine := some 2}).fromLine
          (mkConfig {fromLine := some 1, toLine := some 2}).toLine
          [97, 10, 98, 10, 99])
        = ((((splitB 10 [97, 10, 98, 10, 99]).drop
            (mkConfig {fromLine := some 1, toLine := some 2}).fromLine).take
            ((mkConfig {fromLine := some 1, toLine := some 2}).toLine -
              (mkConfig {fromLine := some 1, toLine := some 2}).fromLine)).filter
            (fun ln => !ln.isEmpty)).map (splitB 44) :=
  claim_C5 rfl rfl rfl (by decide) (by decide)
    [97, 10, 98, 10, 99] [[97, 10, 98, 10, 99]] statsZero
    (by decide) (by decide) (by decide) (by decide)

set_option exponentiation.threshold 1200 in
set_option maxRecDepth 100000 in
/-- Counterexample for claim C5: the full default read of A\n\nB yields the
rows [[A]], [[B]], whose window [1, 2) is [[B]]; but reading the same input
with fromLine = 1, toLine = 2 selects the blank physical line 1 and yields no
rows at all. -/
theorem claim_C5_counter :
    (runFuel (mkConfig {}) 50
      (initState (mkConfig {}) [[65, 10, 10, 66]] statsZero)).map
      (fun p => collectRows p.1) = some [[[65]], [[66]]] ∧
    (runFuel (mkConfig {fromLine := some 1, toLine := some 2}) 50
      (initState (mkConfig {fromLine := some 1, toLine := some 2})
        [[65, 10, 10, 66]] statsZero)).map
      (fun p => collectRows p.1) = some [] := by
  decide

set_option exponentiation.threshold 1200 in
set_option maxRecDepth 100000 in
/-- Claim C6: whenever the parse cycle halts with a fail event, the error
carries exactly line linesProcessed + 1 and character currentPos -
lastLineStartPos + 1 of the halting state; and on the 4-byte input 1,"2 the
reader emits the cell 1 and then UnterminatedQuote at line 1, character 5. -/
theorem claim_C6 (cfg : CSVReaderConfig) (s s1 : CSVReaderState)
    (evs : List CSVEvent) (e : CSVError)
    (hstep : step cfg s = .halt s1 evs) (hmem : CSVEvent.fail e ∈ evs) :
    (errLine e = s1.linesProcessed + 1 ∧
      errChar e = (s1.currentPos : Int) - (s1.lastLineStartPos : Int) + 1) ∧
    (runFuel (mkConfig {}) 50
      (initState (mkConfig {}) [[49, 44, 34, 50]] statsZero)).map
      (fun p => p.1)
      = some [CSVEvent.cell [49],
          CSVEvent.fail (CSVError.unterminatedQuote 1 5)] :=
  ⟨step_error_position cfg s s1 evs e hstep hmem, by decide⟩

set_option exponentiation.threshold 1200 in
set_option maxRecDepth 100000 in
/-- Witness for claim C6: the halting step out of a concrete end-of-input
state inside an unterminated quote carries the error at line 1, character 5 =
4 - 0 + 1. -/
theorem claim_C6_witness :
    (errLine (CSVError.unterminatedQuote 1 5) = 1 ∧
      errChar (CSVError.unterminatedQuote 1 5) = 5) ∧
    (runFuel (mkConfig {}) 50
      (initState (mkConfig {}) [[49, 44, 34, 50]] statsZero)).map
      (fun p => p.1)
      = some [CSVEvent.cell [49],
          CSVEvent.fail (CSVError.unterminatedQuote 1 5)] :=
  claim_C6 (mkConfig {})
    { chunks := [], inputBuffer := [49, 44, 34, 50], inputBufferIndex := 4, columnData := [50], columnBufferLen := 1024, readerEmpty := true, emptyLine := false, inQuote := true, inColumn := true, currentPos := 4, linesProcessed := 0, lastLineStartPos := 0, stats := statsZero }
    { chunks := [], inputBuffer := [49, 44, 34, 50], inputBufferIndex := 4, columnData := [50], columnBufferLen := 1024, readerEmpty := true, emptyLine := false, inQuote := true, inColumn := true, currentPos := 4, linesProcessed := 0, lastLineStartPos := 0, stats := statsZero }
    [CSVEvent.fail (CSVError.unterminatedQuote 1 5)]
    (CSVError.unterminatedQuote 1 5) (by decide) (by decide)

set_option exponentiation.threshold 1200 in
set_option maxRecDepth 100000 in
/-- Claim C7: with single-byte separators and quote, a quote-free no-BOM
input parses to the same canonical event stream — hence the same rows —
under any two configurations sharing fromLine and toLine and under any two
chunkings of the bytes, covering the degenerate 1-byte buffer settings
against the defaults; and concretely the degenerate run on aaa in 1-byte
chunks shrinks the input buffer and expands the column buffer while yielding
the same single row as the default run.  The counterexample
claim_C7_counter shows the unrestricted claim is corrected: with a UTF BOM
the 1-byte chunking keeps the BOM bytes in the first cell while the default
strips them. -/
theorem claim_C7 {cfg1 cfg2 : CSVReaderConfig} {cs l q : Nat}
    (h1cs : cfg1.columnSeparator = [cs]) (h1ls : cfg1.lineSeparator = [l])
    (h1q : cfg1.quote = [q]) (h1lim : 1 ≤ cfg1.inputBufferIndexLimit)
    (h2cs : cfg2.columnSeparator = [cs]) (h2ls : cfg2.lineSeparator = [l])
    (h2q : cfg2.quote = [q]) (h2lim : 1 ≤ cfg2.inputBufferIndexLimit)
    (hfl : cfg2.fromLine = cfg1.fromLine) (htl : cfg2.toLine = cfg1.toLine)
    (hne1 : cs ≠ l) (input : Bytes) (chunks1 chunks2 : List Bytes)
    (st1 st2 : Stats)
    (hc1 : chunks1.flatten = input) (hc2 : chunks2.flatten = input)
    (hqfree : ∀ x ∈ input, x ≠ q) (hbom : utfBom.isPrefixOf input = false)
    (hfrom : cfg1.fromLine < (splitB l input).length) :
    ((∃ s', Run cfg1 (initState cfg1 chunks1 st1)
        (canonicalEvents cs l cfg1.fromLine cfg1.toLine input) s') ∧
      (∃ s', Run cfg2 (initState cfg2 chunks2 st2)
        (canonicalEvents cs l cfg1.fromLine cfg1.toLine input) s')) ∧
    ((runFuel (mkConfig {readerIteratorBufferSize := some 1, columnBufferMinStepSize := some 1, inputBufferIndexLimit := some 1, columnBufferReserve := some 1}) 200
        (initState (mkConfig {readerIteratorBufferSize := some 1, columnBufferMinStepSize := some 1, inputBufferIndexLimit := some 1, columnBufferReserve := some 1})
          [[97], [97], [97]] statsZero)).map
        (fun p => (collectRows p.1, p.2.stats))
        = some ([[[97, 97, 97]]], ⟨4, 3, 2⟩) ∧
      (runFuel (mkConfig {}) 50
        (initState (mkConfig {}) [[97, 97, 97]] statsZero)).map
        (fun p => (collectRows p.1, p.2.stats))
        = some ([[[97, 97, 97]]], ⟨2, 0, 0⟩)) := by
  constructor
  · constructor
    · exact parse_noquote_run h1cs h1ls h1q h1lim hne1 input chunks1 st1
        hc1 hqfree hbom hfrom
    · have h := parse_noquote_run h2cs h2ls h2q h2lim hne1 input chunks2 st2
        hc2 hqfree hbom (by rw [hfl] ; exact hfrom)
      rw [hfl, htl] at h
      exact h
  · exact ⟨by decide, by decide⟩

set_option exponentiation.threshold 1200 in
set_option maxRecDepth 100000 in
/-- Witness for claim C7: the input ab\nc parses to one and the same
canonical event stream under the default configuration in one chunk and
under the fully degenerate 1-byte configuration in 1-byte chunks. -/
theorem claim_C7_witness :
    ((∃ s', Run (mkConfig {})
        (initState (mkConfig {}) [[97, 98, 10, 99]] statsZero)
        (canonicalEvents 44 10 (mkConfig {}).fromLine (mkConfig {}).toLine
          [97, 98, 10, 99]) s') ∧
      (∃ s', Run (mkConfig {readerIteratorBufferSize := some 1, columnBufferMinStepSize := some 1, inputBufferIndexLimit := some 1, columnBufferReserve := some 1})
        (initState (mkConfig {readerIteratorBufferSize := some 1, columnBufferMinStepSize := some 1, inputBufferIndexLimit := some 1, columnBufferReserve := some 1})
          [[97], [98], [10], [99]] statsZero)
        (canonicalEvents 44 10 (mkConfig {}).fromLine (mkConfig {}).toLine
          [97, 98, 10, 99]) s')) ∧
    ((runFuel (mkConfig {readerIteratorBufferSize := some 1, columnBufferMinStepSize := some 1, inputBufferIndexLimit := some 1, columnBufferReserve := some 1}) 200
        (initState (mkConfig {readerIteratorBufferSize := some 1, columnBufferMinStepSize := some 1, inputBufferIndexLimit := some 1, columnBufferReserve := some 1})
          [[97], [97], [97]] statsZero)).map
        (fun p => (collectRows p.1, p.2.stats))
        = some ([[[97, 97, 97]]], ⟨4, 3, 2⟩) ∧
      (runFuel (mkConfig {}) 50
        (initState (mkConfig {}) [[97, 97, 97]] statsZero)).map
        (fun p => (collectRows p.1, p.2.stats))
        = some ([[[97, 97, 97]]], ⟨2, 0, 0⟩)) :=
  @claim_C7 (mkConfig {})
    (mkConfig {readerIteratorBufferSize := some 1, columnBufferMinStepSize := some 1, inputBufferIndexLimit := some 1, columnBufferReserve := some 1})
    44 10 34 rfl rfl rfl (by decide) rfl rfl rfl (by decide) rfl rfl
    (by decide) [97, 98, 10, 99] [[97, 98, 10, 99]] [[97], [98], [10], [99]]
    statsZero statsZero (by decide) (by decide) (by decide) (by decide)
    (by decide)

set_option exponentiation.threshold 1200 in
set_option maxRecDepth 100000 in
/-- Counterexample for claim C7: on the input BOM ++ 1, the degenerate
1-byte configuration reading 1-byte chunks yields the row whose cell still
contains the BOM bytes, while the default configuration reading one chunk
strips the BOM and yields the row [1]. -/
theorem claim_C7_counter :
    (runFuel (mkConfig {readerIteratorBufferSize := some 1, columnBufferMinStepSize := some 1, inputBufferIndexLimit := some 1}) 200
      (initState (mkConfig {readerIteratorBufferSize := some 1, columnBufferMinStepSize := some 1, inputBufferIndexLimit := some 1})
        [[239], [187], [191], [49]] statsZero)).map
      (fun p => collectRows p.1) = some [[[239, 187, 191, 49]]] ∧
    (runFuel (mkConfig {}) 50
      (initState (mkConfig {}) [[239, 187, 191, 49]] statsZero)).map
      (fun p => collectRows p.1) = some [[[49]]] := by
  decide

/-- Claim C8: a toLine option of 0 is falsy and the constructor replaces it
by Number.MAX_VALUE, so it resolves to exactly the configuration of an unset
toLine, and every run of the reader is byte-for-byte the same. -/
theorem claim_C8 :
    (∀ opts : CSVReaderOptions,
      mkConfig {opts with toLine := some 0} = mkConfig {opts with toLine := none}) ∧
    (∀ (opts : CSVReaderOptions) (chunks : List Bytes) (st : Stats) (n : Nat),
      runFuel (mkConfig {opts with toLine := some 0}) n
        (initState (mkConfig {opts with toLine := some 0}) chunks st)
      = runFuel (mkConfig {opts with toLine := none}) n
        (initState (mkConfig {opts with toLine := none}) chunks st)) := by
  constructor
  · intro opts
    rfl
  · intro opts chunks st n
    rfl

/-- Claim C9: a reader constructed without a _stats option adopts the
module-level record as its stats (initialStatsOf is the identity on the
module record), and the counters only accumulate: across two consecutive
runs, each starting from the record the previous one left, the stats are
monotone from the module record through the first run's final record to the
second's — the shared record grows across instances and is never reset. -/
theorem claim_C9 :
    (∀ (opts : CSVReaderOptions) (moduleStats : Stats),
      opts.statsRecord = none → initialStatsOf opts moduleStats = moduleStats) ∧
    (∀ (cfgA cfgB : CSVReaderConfig) (opts : CSVReaderOptions)
      (moduleStats : Stats) (chA chB : List Bytes)
      (evA evB : List CSVEvent) (sA sB : CSVReaderState),
      opts.statsRecord = none →
      Run cfgA (initState cfgA chA (initialStatsOf opts moduleStats)) evA sA →
      Run cfgB (initState cfgB chB sA.stats) evB sB →
      statsLe moduleStats sA.stats ∧ statsLe sA.stats sB.stats) := by
  constructor
  · intro opts m h
    unfold initialStatsOf
    rw [h]
  · intro cfgA cfgB opts m chA chB evA evB sA sB hnone hA hB
    have h1 := run_stats_mono hA
    have h2 := run_stats_mono hB
    have h3 : initialStatsOf opts m = m := by
      unfold initialStatsOf
      rw [hnone]
    rw [show (initState cfgA chA (initialStatsOf opts m)).stats
      = initialStatsOf opts m from rfl, h3] at h1
    exact ⟨h1, h2⟩

set_option exponentiation.threshold 1200 in
set_option maxRecDepth 100000 in
/-- Witness for claim C9: two consecutive empty-input runs of readers built
without _stats thread the module record from 0 reads through 1 to 2. -/
theorem claim_C9_witness :
    statsLe statsZero (⟨1, 0, 0⟩ : Stats) ∧
      statsLe (⟨1, 0, 0⟩ : Stats) (⟨2, 0, 0⟩ : Stats) :=
  claim_C9.2 (mkConfig {}) (mkConfig {}) {} statsZero [] []
    [CSVEvent.endOfStream] [CSVEvent.endOfStream]
    { chunks := [], inputBuffer := [], inputBufferIndex := 0, columnData := [], columnBufferLen := 1024, readerEmpty := true, emptyLine := true, inQuote := false, inColumn := false, currentPos := 0, linesProcessed := 0, lastLineStartPos := 0, stats := ⟨1, 0, 0⟩ }
    { chunks := [], inputBuffer := [], inputBufferIndex := 0, columnData := [], columnBufferLen := 1024, readerEmpty := true, emptyLine := true, inQuote := false, inColumn := false, currentPos := 0, linesProcessed := 0, lastLineStartPos := 0, stats := ⟨2, 0, 0⟩ }
    rfl
    (runFuel_sound (mkConfig {}) 10 _ _ _ (by decide))
    (runFuel_sound (mkConfig {}) 10 _ _ _ (by decide))

/-- Claim C10: readCSVObjects pairs header and data row strictly
positionally: with a duplicate-free header, looking up the i-th header key in
the built object yields exactly the row entry at position i — undefined (the
inner none) when the row is shorter than the header, which also means cells
beyond the header length are never reachable — and a key not in the header is
absent from the object. -/
theorem claim_C10 (header row : List Bytes) (hnd : header.Nodup) :
    (∀ (i : Nat) (hi : i < header.length),
      objGet header row (header.get ⟨i, hi⟩) = some (row.get? i)) ∧
    (∀ key : Bytes, key ∉ header → objGet header row key = none) :=
  ⟨fun i hi => objGet_nodup header row hnd i hi,
    fun key h => objGet_not_mem header row key h⟩

/-- Witness for claim C10: with header a, b and one-cell row 1, key a maps to
1, key b maps to undefined, and the absent key c is not in the object. -/
theorem claim_C10_witness :
    (∀ (i : Nat) (hi : i < ([[97], [98]] : List Bytes).length),
      objGet [[97], [98]] [[49]] (([[97], [98]] : List Bytes).get ⟨i, hi⟩)
        = some (([[49]] : List Bytes).get? i)) ∧
    (∀ key : Bytes, key ∉ ([[97], [98]] : List Bytes) →
      objGet [[97], [98]] [[49]] key = none) :=
  claim_C10 [[97], [98]] [[49]] (by decide)

end DenoCSV
